import Mathlib

/-!
# Node values of the xpp trajectory optimizer (`src/src/node_values.cc`)

A shallow embedding of `NodeValues`, `PhaseNodes`, `EEMotionNodes` and `EEForcesNodes`:
the mapping between optimization variables and the nodes of a cubic-Hermite
spline, the refresh of the segments, the Jacobian and the bounds.

Conventions of the embedding.

* C++ `int` indices that are never negative are `Nat`; the number of
  polynomials per changing phase is an `Int`, because a count below one is a
  value the constructor accepts.
* Scalars (`double`) are an arbitrary type `α`; each operation asks only for
  the arithmetic it uses.  Durations are divided, so claims on them are
  stated over a field of characteristic zero (exact arithmetic).
* A range-checked access (`std::vector::at`, `std::map::at`) that throws, and
  an unchecked access out of range, make the operation return `none`.
* The constructor (which leaves every container empty) and `Init` are one
  function; the name of the component is not modelled.
-/

namespace xpp.opt

/-! ## Data model -/

/-- Metadata of one polynomial segment (`PolyInfo`), fields in the order of the
constructor call `PolyInfo(phase, poly_id_in_phase, num_polys_in_phase, is_constant)`. -/
structure PolyInfo where
  phase_ : Nat
  poly_id_in_phase_ : Nat
  num_polys_in_phase_ : Int
  is_constant_ : Bool
deriving DecidableEq, Repr

/-- The two boundary roles of a segment, `enum Side {Start=0, End}`. -/
inductive Side where
  | Start
  | End
deriving DecidableEq, Repr

/-- The integer value of a side. -/
def Side.toNat : Side → Nat
  | Side.Start => 0
  | Side.End => 1

/-- Modelled from the spec: the enumeration `MotionDerivative` (its header is
not part of the sources); a derivative kind is its integer value, 0 = position. -/
def kPos : Nat := 0

/-- Modelled from the spec: the enumerator of `MotionDerivative` for velocity, 1. -/
def kVel : Nat := 1

/-- Modelled from the spec: the type `Node` (its header is not part of the
sources), a mapping from derivative kind to a vector of per-dimension scalars.
The vector of derivative kind `d` is the `d`-th element; a kind beyond the
length of the list is a kind the node lacks. -/
abbrev Node (α : Type) := List (List α)

/-- One entry of `GetNodeInfo`: physical node id, derivative kind, dimension. -/
structure NodeInfo where
  id_ : Nat
  deriv_ : Nat
  dim_ : Nat
deriving DecidableEq, Repr

/-- Modelled from the spec: the type of `opt_to_spline_` (declared in a header
that is not part of the sources), an ordered mapping from optimization-block
index to the ordered list of physical node ids of the block
(`std::map<int, std::vector<int>>`), kept as a list of pairs sorted by key. -/
abbrev OptToSpline := List (Nat × List Nat)

/-- The expression `m[k].push_back(v)` on an ordered map: the vector under `k`
is created empty when the key is new. -/
def mapPushBack : OptToSpline → Nat → Nat → OptToSpline
  | [], k, v => [(k, [v])]
  | (k', l) :: rest, k, v =>
    if k = k' then (k', l ++ [v]) :: rest
    else if k < k' then (k, [v]) :: (k', l) :: rest
    else (k', l) :: mapPushBack rest k v

/-- The expression `m.at(k)`; `none` when the key is absent (`std::out_of_range`). -/
def mapAt : OptToSpline → Nat → Option (List Nat)
  | [], _ => none
  | (k', l) :: rest, k => if k = k' then some l else mapAt rest k

/-- The function `NodeValues::GetNodeId`: `poly_id + side`. -/
def GetNodeId (poly_id : Nat) (side : Side) : Nat :=
  poly_id + side.toNat

/-- The loop of `NodeValues::SetNodeMappings` from segment `i` on, with the
current `opt_id` and map; returns the final `opt_id` and map. -/
def SetNodeMappingsLoop : List PolyInfo → Nat → Nat → OptToSpline → Nat × OptToSpline
  | [], _, opt_id, m => (opt_id, m)
  | info :: rest, i, opt_id, m =>
    let node_id_start := GetNodeId i Side.Start
    let m' := mapPushBack m opt_id node_id_start
    SetNodeMappingsLoop rest (i + 1) (if !info.is_constant_ then opt_id + 1 else opt_id) m'

/-- The function `NodeValues::SetNodeMappings` on the segment metadata `polynomial_info_`,
starting from the map `opt_to_spline_` the object holds. -/
def SetNodeMappingsFrom (opt_to_spline_ : OptToSpline) (polynomial_info_ : List PolyInfo) :
    OptToSpline :=
  let r := SetNodeMappingsLoop polynomial_info_ 0 0 opt_to_spline_
  let last_node_id := polynomial_info_.length
  mapPushBack r.2 r.1 last_node_id

/-- The function `NodeValues::SetNodeMappings` as `Init` runs it, on the empty map of a
newly constructed object. -/
def SetNodeMappings (polynomial_info_ : List PolyInfo) : OptToSpline :=
  SetNodeMappingsFrom [] polynomial_info_

/-! ## The state of a `NodeValues` and its operations -/

/-- Modelled from the spec: the polynomial evaluator `PolyType` (external to the
sources): it is constructed with a dimension and keeps the boundary conditions
last fixed by `SetNodes(start, end, duration)`, `none` before the first call. -/
structure PolyType (α : Type) where
  n_dim : Nat
  boundary : Option (Node α × Node α × α)

/-- The call `SetNodes(start, end, T)` on an evaluator. -/
def PolyType.SetNodes {α : Type} (p : PolyType α) (n0 n1 : Node α) (T : α) : PolyType α :=
  { p with boundary := some (n0, n1, T) }

/-- The fields of a `NodeValues`; `rows_` is the row count held by the base
class `Component` (`SetRows` / `GetRows`). -/
structure NodeValues (α : Type) where
  n_dim_ : Nat
  polynomial_info_ : List PolyInfo
  times_ : List α
  nodes_ : List (Node α)
  cubic_polys_ : List (PolyType α)
  opt_to_spline_ : OptToSpline
  rows_ : Nat

/-- The function `Component::GetRows`. -/
def GetRows {α : Type} (s : NodeValues α) : Nat :=
  s.rows_

/-- The loop of `NodeValues::UpdatePolynomials` from segment `i` on: every
evaluator is given its start node, its end node and its duration. -/
def UpdatePolynomialsLoop {α : Type} (nodes_ : List (Node α)) (times_ : List α) :
    Nat → List (PolyType α) → Option (List (PolyType α))
  | _, [] => some []
  | i, p :: ps =>
    (nodes_[GetNodeId i Side.Start]?).bind fun n0 =>
    (nodes_[GetNodeId i Side.End]?).bind fun n1 =>
    (times_[i]?).bind fun T =>
    (UpdatePolynomialsLoop nodes_ times_ (i + 1) ps).map fun rest => p.SetNodes n0 n1 T :: rest

/-- The function `NodeValues::UpdatePolynomials`. -/
def UpdatePolynomials {α : Type} (s : NodeValues α) : Option (NodeValues α) :=
  (UpdatePolynomialsLoop s.nodes_ s.times_ 0 s.cubic_polys_).map fun polys =>
    { s with cubic_polys_ := polys }

/-- The function `NodeValues::Init` on a newly constructed object. It fails when
`initial_value` has no position vector (`initial_value.at(kPos)`). -/
def Init {α : Type} [Zero α] (initial_value : Node α) (poly_infos : List PolyInfo) :
    Option (NodeValues α) :=
  (initial_value[kPos]?).bind fun pos =>
    let n_dim_ := pos.length
    let polynomial_info_ := poly_infos
    let times_ : List α := List.replicate polynomial_info_.length 0
    let built := poly_infos.foldl
      (fun (acc : List (PolyType α) × List (Node α)) _ =>
        (acc.1 ++ [PolyType.mk n_dim_ none], acc.2 ++ [initial_value]))
      ([], [initial_value])
    let opt_to_spline_ := SetNodeMappingsFrom [] polynomial_info_
    let n_opt_variables := opt_to_spline_.length * 2 * n_dim_
    UpdatePolynomials
      { n_dim_ := n_dim_, polynomial_info_ := polynomial_info_, times_ := times_,
        nodes_ := built.2, cubic_polys_ := built.1, opt_to_spline_ := opt_to_spline_,
        rows_ := n_opt_variables }

/-- The function `NodeValues::GetNodeInfo`. With `n_dim_ = 0` the code divides by zero, and
with a block that is not in the map `at` throws: both are `none`. -/
def GetNodeInfo {α : Type} (s : NodeValues α) (idx : Nat) : Option (List NodeInfo) :=
  let n_opt_values_per_node_ := 2 * s.n_dim_
  if n_opt_values_per_node_ = 0 then none
  else
    let internal_id := idx % n_opt_values_per_node_
    let deriv_ := internal_id / s.n_dim_
    let dim_ := internal_id - deriv_ * s.n_dim_
    let opt_node := idx / n_opt_values_per_node_
    (mapAt s.opt_to_spline_ opt_node).map fun ids =>
      ids.map fun node_id => NodeInfo.mk node_id deriv_ dim_

/-- The read `nodes_.at(info.id_).at(info.deriv_)(info.dim_)`. -/
def nodeEntry {α : Type} (nodes_ : List (Node α)) (info : NodeInfo) : Option α :=
  (nodes_[info.id_]?).bind fun node =>
  (node[info.deriv_]?).bind fun vec => vec[info.dim_]?

/-- The write `nodes_.at(info.id_).at(info.deriv_)(info.dim_) = val`. -/
def setNodeEntry {α : Type} (nodes_ : List (Node α)) (info : NodeInfo) (val : α) :
    Option (List (Node α)) :=
  (nodes_[info.id_]?).bind fun node =>
  (node[info.deriv_]?).bind fun vec =>
    if info.dim_ < vec.length then
      some (nodes_.set info.id_ (node.set info.deriv_ (vec.set info.dim_ val)))
    else none

/-- One pass of the outer loop of `NodeValues::GetValues`: the entry `x(idx)` is
assigned once per mapped node, so it ends as the last value read; `none` also
when nothing was assigned (the entry would be uninitialised). -/
def GetValuesAt {α : Type} (s : NodeValues α) (idx : Nat) : Option α :=
  (GetNodeInfo s idx).bind fun infos =>
    (infos.foldlM (fun (_ : Option α) info => (nodeEntry s.nodes_ info).map some) none).bind id

/-- Runs `f` on every index in order and collects the results. -/
def collectM {β : Type} (f : Nat → Option β) : List Nat → Option (List β)
  | [] => some []
  | i :: is => (f i).bind fun b => (collectM f is).map fun bs => b :: bs

/-- The function `NodeValues::GetValues`. -/
def GetValues {α : Type} (s : NodeValues α) : Option (List α) :=
  collectM (GetValuesAt s) (List.range (GetRows s))

/-- One pass of the outer loop of `NodeValues::SetValues` on the node list. -/
def SetValuesAt {α : Type} (s : NodeValues α) (x : List α) (nodes_ : List (Node α))
    (idx : Nat) : Option (List (Node α)) :=
  (x[idx]?).bind fun val =>
  (GetNodeInfo s idx).bind fun infos =>
    infos.foldlM (fun nd info => setNodeEntry nd info val) nodes_

/-- The function `NodeValues::SetValues`. -/
def SetValues {α : Type} (s : NodeValues α) (x : List α) : Option (NodeValues α) :=
  ((List.range x.length).foldlM (SetValuesAt s x) s.nodes_).bind fun nodes' =>
    UpdatePolynomials { s with nodes_ := nodes' }

/-! ## Jacobian -/

/-- Modelled from the spec: the matrix type `Jacobian` (an Eigen sparse matrix,
not part of the sources): its size and its coefficients. -/
structure Jacobian (α : Type) where
  rows : Nat
  cols : Nat
  coeff : Nat → Nat → α

/-- The matrix `Eigen::MatrixXd::Zero(r, c).sparseView(1.0, -1.0)`. -/
def Jacobian.Zero {α : Type} [Zero α] (r c : Nat) : Jacobian α :=
  { rows := r, cols := c, coeff := fun _ _ => 0 }

/-- The statement `jac.coeffRef(r, c) += val`; `none` outside the matrix. -/
def Jacobian.coeffAdd {α : Type} [Add α] (jac : Jacobian α) (r c : Nat) (val : α) :
    Option (Jacobian α) :=
  if r < jac.rows ∧ c < jac.cols then
    some { jac with coeff := fun i j => if i = r ∧ j = c then jac.coeff i j + val else jac.coeff i j }
  else none

/-- The body of the innermost loop of `GetJacobian`, for one side. The
evaluator's `GetDerivativeOf` is the parameter `GetDerivativeOf`. -/
def GetJacobianSide {α : Type} [Add α] (s : NodeValues α)
    (GetDerivativeOf : PolyType α → Nat → Side → Nat → α → α)
    (poly_id : Nat) (t_local : α) (dxdt : Nat) (idx : Nat) (info : NodeInfo)
    (jac : Jacobian α) (side : Side) : Option (Jacobian α) :=
  let node := GetNodeId poly_id side
  if node = info.id_ then
    (s.cubic_polys_[poly_id]?).bind fun p =>
      let val := GetDerivativeOf p dxdt side info.deriv_ t_local
      jac.coeffAdd info.dim_ idx val
  else some jac

/-- One pass of the outer loop of `GetJacobian`, for the column `idx`. -/
def GetJacobianAt {α : Type} [Add α] (s : NodeValues α)
    (GetDerivativeOf : PolyType α → Nat → Side → Nat → α → α)
    (poly_id : Nat) (t_local : α) (dxdt : Nat) (jac : Jacobian α) (idx : Nat) :
    Option (Jacobian α) :=
  (GetNodeInfo s idx).bind fun infos =>
    infos.foldlM (fun j info =>
      [Side.Start, Side.End].foldlM
        (GetJacobianSide s GetDerivativeOf poly_id t_local dxdt idx info) j) jac

/-- The function `NodeValues::GetJacobian(int poly_id, double t_local, MotionDerivative dxdt)`. -/
def GetJacobian {α : Type} [Zero α] [Add α] (s : NodeValues α)
    (GetDerivativeOf : PolyType α → Nat → Side → Nat → α → α)
    (poly_id : Nat) (t_local : α) (dxdt : Nat) : Option (Jacobian α) :=
  let jac : Jacobian α := Jacobian.Zero s.n_dim_ (GetRows s)
  (List.range jac.cols).foldlM (GetJacobianAt s GetDerivativeOf poly_id t_local dxdt) jac

/-! ## `PhaseNodes` -/

/-- The loop of the constructor `PhaseNodes::PhaseNodes` from phase `i` on;
`acc` is `polynomial_info_` as built so far. -/
def PhaseNodesLoop (is_constant_during_contact : Bool) (n_polys_in_changing_phase : Int) :
    List Bool → Nat → List PolyInfo → List PolyInfo
  | [], _, acc => acc
  | c :: rest, i, acc =>
    if c = is_constant_during_contact then
      PhaseNodesLoop is_constant_during_contact n_polys_in_changing_phase rest (i + 1)
        (acc ++ [PolyInfo.mk i 0 1 true])
    else
      PhaseNodesLoop is_constant_during_contact n_polys_in_changing_phase rest (i + 1)
        (acc ++ (List.range n_polys_in_changing_phase.toNat).map
          (fun j => PolyInfo.mk i j n_polys_in_changing_phase false))

/-- The segment metadata the constructor of `PhaseNodes` builds. -/
def PhaseNodesInfos (contact_schedule : List Bool) (is_constant_during_contact : Bool)
    (n_polys_in_changing_phase : Int) : List PolyInfo :=
  PhaseNodesLoop is_constant_during_contact n_polys_in_changing_phase contact_schedule 0 []

/-- The constructor `PhaseNodes::PhaseNodes`. -/
def PhaseNodes {α : Type} [Zero α] (initial_value : Node α) (contact_schedule : List Bool)
    (is_constant_during_contact : Bool) (n_polys_in_changing_phase : Int) :
    Option (NodeValues α) :=
  Init initial_value
    (PhaseNodesInfos contact_schedule is_constant_during_contact n_polys_in_changing_phase)

/-- The loop of `PhaseNodes::UpdateDurations` from segment `i` on. -/
def UpdateDurationsLoop {α : Type} [Div α] [IntCast α] (durations : List α) :
    List PolyInfo → Nat → List α → Option (List α)
  | [], _, times_ => some times_
  | info :: rest, i, times_ =>
    (durations[info.phase_]?).bind fun d =>
      if i < times_.length then
        UpdateDurationsLoop durations rest (i + 1)
          (times_.set i (d / (info.num_polys_in_phase_ : α)))
      else none

/-- The function `PhaseNodes::UpdateDurations`. -/
def UpdateDurations {α : Type} [Div α] [IntCast α] (s : NodeValues α) (durations : List α) :
    Option (NodeValues α) :=
  (UpdateDurationsLoop durations s.polynomial_info_ 0 s.times_).bind fun times' =>
    UpdatePolynomials { s with times_ := times' }

/-- The states reached from `s0` by calls of `SetValues` (with a vector of
`GetRows()` entries) and of `UpdateDurations` that return. -/
inductive Reachable {α : Type} [Div α] [IntCast α] (s0 : NodeValues α) : NodeValues α → Prop where
  | init : Reachable s0 s0
  | setValues (s s' : NodeValues α) (x : List α) :
      Reachable s0 s → x.length = GetRows s → SetValues s x = some s' → Reachable s0 s'
  | updateDurations (s s' : NodeValues α) (durations : List α) :
      Reachable s0 s → UpdateDurations s durations = some s' → Reachable s0 s'

/-! ## `EEMotionNodes` -/

/-- Modelled from the spec: the type `Bound` (not part of the sources), an
interval whose missing end is unbounded. -/
structure Bound where
  lower : Option Int
  upper : Option Int
deriving DecidableEq, Repr

/-- Modelled from the spec: `kNoBound_`, unconstrained. -/
def kNoBound_ : Bound := ⟨none, none⟩

/-- Modelled from the spec: `kEqualityBound_`, the interval `[0, 0]`. -/
def kEqualityBound_ : Bound := ⟨some 0, some 0⟩

/-- Modelled from the spec: the index of the vertical axis `Z` in the
enumeration of the coordinates `X, Y, Z` (not part of the sources). -/
def Z : Nat := 2

/-- The constructor `EEMotionNodes::EEMotionNodes`: constant during contact. -/
def EEMotionNodes {α : Type} [Zero α] (initial_value : Node α) (contact_schedule : List Bool)
    (splines_per_swing_phase : Int) : Option (NodeValues α) :=
  PhaseNodes initial_value contact_schedule true splines_per_swing_phase

/-- One pass of the loop of `EEMotionNodes::GetBounds`. -/
def EEMotionGetBoundsAt {α : Type} (s : NodeValues α) (bounds : List Bound) (idx : Nat) :
    Option (List Bound) :=
  (GetNodeInfo s idx).bind fun infos =>
    let is_stance := infos.length == 2
    if is_stance then
      (infos[0]?).bind fun info0 =>
        let bounds1 := if info0.deriv_ = kVel then bounds.set idx kEqualityBound_ else bounds
        let bounds2 := if info0.dim_ = Z then bounds1.set idx kEqualityBound_ else bounds1
        some bounds2
    else some bounds

/-- The function `EEMotionNodes::GetBounds`. -/
def EEMotionGetBounds {α : Type} (s : NodeValues α) : Option (List Bound) :=
  let bounds := List.replicate (GetRows s) kNoBound_
  (List.range bounds.length).foldlM (EEMotionGetBoundsAt s) bounds

/-! ## `EEForcesNodes` -/

/-- Modelled from the spec: the index of the horizontal axis `X` in the
enumeration of the coordinates `X, Y, Z` (not part of the sources). -/
def X : Nat := 0

/-- Modelled from the spec: the index of the horizontal axis `Y` in the
enumeration of the coordinates `X, Y, Z` (not part of the sources). -/
def Y : Nat := 1

/-- The local constant `max_force` of `EEForcesNodes::GetBounds`. -/
def max_force : Int := 10000

/-- The constructor `EEForcesNodes::EEForcesNodes`: not constant during contact,
so constant during swing. -/
def EEForcesNodes {α : Type} [Zero α] (initial_force : Node α) (contact_schedule : List Bool)
    (splines_per_stance_phase : Int) : Option (NodeValues α) :=
  PhaseNodes initial_force contact_schedule false splines_per_stance_phase

/-- The branch of `EEForcesNodes::GetBounds` for a stance entry, with `n0` the
first mapped node: the assignments to `bounds.at(idx)` in the order of the code. -/
def EEForcesStanceBounds (bounds : List Bound) (idx : Nat) (n0 : NodeInfo) : List Bound :=
  let bounds1 :=
    if n0.deriv_ = kPos then
      let b1 := if n0.dim_ = X ∨ n0.dim_ = Y then
        bounds.set idx ⟨some (-max_force), some max_force⟩ else bounds
      let b2 := if n0.dim_ = Z then b1.set idx ⟨some 0, some max_force⟩ else b1
      b2
    else bounds
  let bounds2 :=
    if n0.deriv_ = kVel ∧ n0.dim_ = Z then bounds1.set idx kEqualityBound_ else bounds1
  bounds2

/-- One pass of the loop of `EEForcesNodes::GetBounds`; `front()` of an empty
vector is `none`. -/
def EEForcesGetBoundsAt {α : Type} (s : NodeValues α) (bounds : List Bound) (idx : Nat) :
    Option (List Bound) :=
  (GetNodeInfo s idx).bind fun infos =>
    let is_swing_phase := infos.length == 2
    if is_swing_phase then some (bounds.set idx kEqualityBound_)
    else
      (infos.head?).bind fun n0 => some (EEForcesStanceBounds bounds idx n0)

/-- The function `EEForcesNodes::GetBounds`. -/
def EEForcesGetBounds {α : Type} (s : NodeValues α) : Option (List Bound) :=
  let bounds := List.replicate (GetRows s) kNoBound_
  (List.range bounds.length).foldlM (EEForcesGetBoundsAt s) bounds

/-! ## Auxiliary notions used in the statements -/

/-- The block of physical node `k`: the number of non-constant segments before it. -/
def blockOf (infos : List PolyInfo) (k : Nat) : Nat :=
  ((infos.take k).filter (fun info => !info.is_constant_)).length

/-- The node ids below `p` whose block is `b`, in increasing order. -/
def blockNodes (infos : List PolyInfo) (p b : Nat) : List Nat :=
  (List.range p).filter (fun k => blockOf infos k = b)

/-- The keys of a map, in order. -/
def mapKeys (m : OptToSpline) : List Nat :=
  m.map Prod.fst

/-- The part of the state that `Init` fixes: the mapping and the row count come
from the segment metadata, and every container has the length the metadata asks for. -/
structure Layout {α : Type} (s : NodeValues α) : Prop where
  opt : s.opt_to_spline_ = SetNodeMappings s.polynomial_info_
  rows : s.rows_ = (SetNodeMappings s.polynomial_info_).length * 2 * s.n_dim_
  nodes_len : s.nodes_.length = s.polynomial_info_.length + 1
  polys_len : s.cubic_polys_.length = s.polynomial_info_.length
  times_len : s.times_.length = s.polynomial_info_.length

/-- The nodes mapped to one optimization index all hold one value there. -/
def Consistent {α : Type} (s : NodeValues α) : Prop :=
  ∀ idx, idx < s.rows_ → ∃ v, ∀ info ∈ (GetNodeInfo s idx).getD [],
    nodeEntry s.nodes_ info = some v

/-- The nodes mapped to one optimization index all answer a read the same way. -/
def Agree {α : Type} (s : NodeValues α) : Prop :=
  ∀ idx, idx < s.rows_ → ∃ o : Option α, ∀ info ∈ (GetNodeInfo s idx).getD [],
    nodeEntry s.nodes_ info = o

/-- The decoding of an optimization index: block, derivative kind, dimension. -/
def decodeBlock (n idx : Nat) : Nat := idx / (2 * n)

/-- The derivative kind an optimization index decodes to. -/
def decodeDeriv (n idx : Nat) : Nat := (idx % (2 * n)) / n

/-- The dimension an optimization index decodes to. -/
def decodeDim (n idx : Nat) : Nat := (idx % (2 * n)) - decodeDeriv n idx * n

/-- The sum of the durations `times_[i]` over the segments `i` of phase `p`. -/
def phaseDuration {α : Type} [Zero α] [Add α] (s : NodeValues α) (p : Nat) : α :=
  (((s.polynomial_info_.zip s.times_).filter (fun it => it.1.phase_ = p)).map
    (fun it => it.2)).sum

/-- The segments the constructor of `PhaseNodes` emits for phase `i` with contact flag `flag`. -/
def phaseSegments (c : Bool) (n : Int) (i : Nat) (flag : Bool) : List PolyInfo :=
  if flag = c then [PolyInfo.mk i 0 1 true]
  else (List.range n.toNat).map (fun j => PolyInfo.mk i j n false)

/-- The segments of a schedule whose first phase has index `i`, phase after phase. -/
def scheduleSegments (c : Bool) (n : Int) : List Bool → Nat → List PolyInfo
  | [], _ => []
  | flag :: rest, i => phaseSegments c n i flag ++ scheduleSegments c n rest (i + 1)

/-- The duration `UpdateDurations` gives to a segment. -/
def segmentDuration {α : Type} [Zero α] [Div α] [IntCast α] (durations : List α)
    (info : PolyInfo) : α :=
  durations.getD info.phase_ 0 / (info.num_polys_in_phase_ : α)

/-- The entries of the Jacobian of segment `poly_id` that the loop of
`GetJacobian` can touch: row `r` is the dimension of column `c`, and a node
mapped to `c` is the start or the end node of the segment. -/
def JacobianTouched {α : Type} (s : NodeValues α) (poly_id r c : Nat) : Prop :=
  c < s.rows_ ∧ r = decodeDim s.n_dim_ c ∧
    ∃ info ∈ (GetNodeInfo s c).getD [],
      info.id_ = GetNodeId poly_id Side.Start ∨ info.id_ = GetNodeId poly_id Side.End

/-- A Jacobian of the size `GetJacobian` allocates that is zero outside the
entries the loop can touch. -/
def JacobianShape {α : Type} [Zero α] (s : NodeValues α) (poly_id : Nat)
    (jac : Jacobian α) : Prop :=
  jac.rows = s.n_dim_ ∧ jac.cols = s.rows_ ∧
    ∀ r c, ¬ JacobianTouched s poly_id r c → jac.coeff r c = 0

/-- The bound `EEMotionNodes::GetBounds` leaves at index `idx`: an equality
bound when the index maps to exactly two nodes and is a velocity entry or an
entry of the vertical axis, no bound otherwise. -/
def EEMotionBound {α : Type} (s : NodeValues α) (idx : Nat) : Bound :=
  if ((GetNodeInfo s idx).getD []).length = 2 ∧
      (decodeDeriv s.n_dim_ idx = kVel ∨ decodeDim s.n_dim_ idx = Z) then kEqualityBound_
  else kNoBound_

/-- The bound of a stance entry of `EEForcesNodes::GetBounds`, by derivative
kind and dimension: a box for a force, equality for the vertical force rate. -/
def stanceForceBound (deriv dim : Nat) : Bound :=
  if deriv = kPos then
    if dim = Z then ⟨some 0, some max_force⟩
    else if dim = X ∨ dim = Y then ⟨some (-max_force), some max_force⟩
    else kNoBound_
  else if deriv = kVel ∧ dim = Z then kEqualityBound_
  else kNoBound_

/-- The bound `EEForcesNodes::GetBounds` leaves at index `idx`: an equality
bound when the index maps to exactly two nodes, the bound of a stance entry
otherwise. -/
def EEForcesBound {α : Type} (s : NodeValues α) (idx : Nat) : Bound :=
  if ((GetNodeInfo s idx).getD []).length = 2 then kEqualityBound_
  else stanceForceBound (decodeDeriv s.n_dim_ idx) (decodeDim s.n_dim_ idx)

/-- The value the loop of `GetJacobian` leaves in an entry that held `v`, after
the pass for one mapped node and one side. -/
def jacobianSideValue {α : Type} [Add α] (dStart dEnd : α) (poly_id : Nat) (node_id : Nat)
    (v : α) (side : Side) : α :=
  if GetNodeId poly_id side = node_id then
    v + (match side with
      | Side.Start => dStart
      | Side.End => dEnd)
  else v

/-- The value after the passes for both sides of one mapped node. -/
def jacobianNodeValue {α : Type} [Add α] (dStart dEnd : α) (poly_id : Nat) (v : α)
    (node_id : Nat) : α :=
  jacobianSideValue dStart dEnd poly_id node_id
    (jacobianSideValue dStart dEnd poly_id node_id v Side.Start) Side.End

/-- The sum the loop of `GetJacobian` accumulates in one entry: the term of the
start side when the start node is in the block, then the term of the end side
when the end node is in the block. -/
def jacobianEntry {α : Type} [Zero α] [Add α] (dStart dEnd : α) (poly_id : Nat)
    (ids : List Nat) : α :=
  let v1 := if GetNodeId poly_id Side.Start ∈ ids then 0 + dStart else 0
  if GetNodeId poly_id Side.End ∈ ids then v1 + dEnd else v1

/-- The matrix with the entry at row `d`, column `idx` replaced by `f` of it. -/
def Jacobian.mapEntry {α : Type} (jac : Jacobian α) (d idx : Nat) (f : α → α) : Jacobian α :=
  { jac with coeff := fun r c => if r = d ∧ c = idx then f (jac.coeff r c) else jac.coeff r c }

/-- Two neighbouring segments are not both constant. -/
def notBothConstant (x y : PolyInfo) : Prop :=
  ¬ (x.is_constant_ = true ∧ y.is_constant_ = true)

/-! ## Example data -/

/-- A node of dimension two: position `(1, 2)` and velocity `(3, 4)`. -/
def exampleNode : Node Int := [[1, 2], [3, 4]]

/-- Segment metadata: one constant segment, then one that is not constant. -/
def exampleInfos : List PolyInfo := [⟨0, 0, 1, true⟩, ⟨1, 0, 1, false⟩]

/-- The state `Init exampleNode exampleInfos` returns. -/
def exampleState : NodeValues Int :=
  { n_dim_ := 2
    polynomial_info_ := exampleInfos
    times_ := [0, 0]
    nodes_ := [exampleNode, exampleNode, exampleNode]
    cubic_polys_ := [⟨2, some (exampleNode, exampleNode, 0)⟩,
      ⟨2, some (exampleNode, exampleNode, 0)⟩]
    opt_to_spline_ := [(0, [0, 1]), (1, [2])]
    rows_ := 8 }

/-! ## Facts on the mapping -/

theorem blockOf_zero (infos : List PolyInfo) : blockOf infos 0 = 0 := by
  simp [blockOf]

theorem blockOf_succ (infos : List PolyInfo) (k : Nat) (info : PolyInfo)
    (h : infos[k]? = some info) :
    blockOf infos (k + 1) = blockOf infos k + (if info.is_constant_ then 0 else 1) := by
  have hk : k < infos.length := by
    rcases List.getElem?_eq_some_iff.mp h with ⟨hk, _⟩
    exact hk
  have hget : infos[k] = info := by
    rcases List.getElem?_eq_some_iff.mp h with ⟨_, e⟩
    exact e
  unfold blockOf
  rw [List.take_succ, h]
  cases hc : info.is_constant_ <;> simp [List.filter_append, hc]

theorem blockOf_of_length_le (infos : List PolyInfo) (k : Nat) (h : infos.length ≤ k) :
    blockOf infos k = blockOf infos infos.length := by
  unfold blockOf
  rw [List.take_of_length_le h, List.take_length]

theorem blockOf_mono_succ (infos : List PolyInfo) (k : Nat) :
    blockOf infos k ≤ blockOf infos (k + 1) ∧ blockOf infos (k + 1) ≤ blockOf infos k + 1 := by
  by_cases hk : k < infos.length
  · have h : infos[k]? = some infos[k] := List.getElem?_eq_getElem hk
    rw [blockOf_succ infos k _ h]
    split <;> omega
  · have h1 := blockOf_of_length_le infos k (by omega)
    have h2 := blockOf_of_length_le infos (k + 1) (by omega)
    omega

theorem blockOf_mono (infos : List PolyInfo) {j k : Nat} (h : j ≤ k) :
    blockOf infos j ≤ blockOf infos k := by
  induction k with
  | zero =>
    have : j = 0 := by omega
    subst this
    exact le_refl _
  | succ k ih =>
    by_cases hj : j = k + 1
    · subst hj
      exact le_refl _
    · exact le_trans (ih (by omega)) (blockOf_mono_succ infos k).1

theorem blockNodes_succ (infos : List PolyInfo) (p b : Nat) :
    blockNodes infos (p + 1) b =
      blockNodes infos p b ++ (if blockOf infos p = b then [p] else []) := by
  unfold blockNodes
  rw [List.range_succ, List.filter_append]
  by_cases h : blockOf infos p = b <;> simp [h]

theorem mem_blockNodes (infos : List PolyInfo) (p b k : Nat) :
    k ∈ blockNodes infos p b ↔ k < p ∧ blockOf infos k = b := by
  simp [blockNodes]

theorem blockNodes_nodup (infos : List PolyInfo) (p b : Nat) :
    (blockNodes infos p b).Nodup :=
  List.Nodup.filter _ (List.nodup_range p)

theorem mapAt_eq_none_iff (m : OptToSpline) (b : Nat) :
    mapAt m b = none ↔ b ∉ mapKeys m := by
  induction m with
  | nil => simp [mapAt, mapKeys]
  | cons hd tl ih =>
    obtain ⟨k', l⟩ := hd
    by_cases h : b = k'
    · simp [mapAt, mapKeys, h]
    · simp only [mapAt, h, if_false, mapKeys, List.map_cons, List.mem_cons, not_or, true_and,
        not_false_eq_true]
      simpa [mapKeys] using ih

theorem mapPushBack_spec (m : OptToSpline) (a L k v : Nat)
    (hk : mapKeys m = List.range' a L) (h1 : a ≤ k) (h2 : k ≤ a + L) :
    mapKeys (mapPushBack m k v) = List.range' a (if k = a + L then L + 1 else L) ∧
    ∀ b, mapAt (mapPushBack m k v) b =
      if b = k then some ((mapAt m k).getD [] ++ [v]) else mapAt m b := by
  induction m generalizing a L with
  | nil =>
    have hL : L = 0 := by
      cases L with
      | zero => rfl
      | succ n => simp [mapKeys, List.range'] at hk
    subst hL
    have hka : k = a := by omega
    subst hka
    refine ⟨by simp [mapPushBack, mapKeys, List.range'], ?_⟩
    intro b
    by_cases hb : b = k <;> simp [mapPushBack, mapAt, hb]
  | cons hd tl ih =>
    obtain ⟨k', l⟩ := hd
    cases L with
    | zero => simp [mapKeys, List.range'] at hk
    | succ L' =>
      simp only [mapKeys, List.map_cons, List.range', List.cons.injEq] at hk
      obtain ⟨hk', htl⟩ := hk
      subst hk'
      by_cases hka : k = k'
      · subst hka
        refine ⟨?_, ?_⟩
        · have : ¬ (k = k + (L' + 1)) := by omega
          simp only [mapPushBack, if_true, mapKeys, List.map_cons, this, if_false, List.range',
            List.cons.injEq, true_and]
          exact htl
        · intro b
          by_cases hb : b = k <;> simp [mapPushBack, mapAt, hb]
      · have hlt : ¬ k < k' := by omega
        have := ih (k' + 1) L' htl (by omega) (by omega)
        obtain ⟨ih1, ih2⟩ := this
        refine ⟨?_, ?_⟩
        · simp only [mapPushBack, hka, if_false, hlt, mapKeys, List.map_cons]
          have e : (k = k' + (L' + 1)) ↔ (k = k' + 1 + L') := by omega
          by_cases hend : k = k' + 1 + L'
          · have hend' : k = k' + (L' + 1) := e.mpr hend
            rw [if_pos hend']
            rw [if_pos hend] at ih1
            simp only [List.range', List.cons.injEq, true_and]
            simpa [mapKeys] using ih1
          · have hend' : ¬ k = k' + (L' + 1) := fun h => hend (e.mp h)
            rw [if_neg hend']
            rw [if_neg hend] at ih1
            simp only [List.range', List.cons.injEq, true_and]
            simpa [mapKeys] using ih1
        · intro b
          simp only [mapPushBack, hka, if_false, hlt, mapAt]
          by_cases hb : b = k'
          · have hbk : ¬ k' = k := fun h => hka h.symm
            subst hb
            simp [hbk]
          · simp only [hb, if_false]
            exact ih2 b

theorem GetNodeId_Start (i : Nat) : GetNodeId i Side.Start = i := by
  simp [GetNodeId, Side.toNat]

theorem GetNodeId_End (i : Nat) : GetNodeId i Side.End = i + 1 := by
  simp [GetNodeId, Side.toNat]

theorem SetNodeMappingsLoop_spec (infos : List PolyInfo) :
    ∀ (rest pre : List PolyInfo) (o : Nat) (m : OptToSpline) (L : Nat),
      infos = pre ++ rest →
      o = blockOf infos pre.length →
      mapKeys m = List.range' 0 L → o ≤ L → L ≤ o + 1 →
      (∀ b, (mapAt m b).getD [] = blockNodes infos pre.length b) →
      (SetNodeMappingsLoop rest pre.length o m).1 = blockOf infos infos.length ∧
      (∃ L', mapKeys (SetNodeMappingsLoop rest pre.length o m).2 = List.range' 0 L' ∧
        (SetNodeMappingsLoop rest pre.length o m).1 ≤ L' ∧
        L' ≤ (SetNodeMappingsLoop rest pre.length o m).1 + 1) ∧
      (∀ b, (mapAt (SetNodeMappingsLoop rest pre.length o m).2 b).getD [] =
        blockNodes infos infos.length b) := by
  intro rest
  induction rest with
  | nil =>
    intro pre o m L hsplit ho hkeys h1 h2 hget
    have hpre : pre = infos := by simp [hsplit]
    subst hpre
    simp only [SetNodeMappingsLoop]
    exact ⟨ho, ⟨L, hkeys, h1, h2⟩, hget⟩
  | cons info rest ih =>
    intro pre o m L hsplit ho hkeys h1 h2 hget
    have hidx : infos[pre.length]? = some info := by
      rw [hsplit, List.getElem?_append_right (le_refl _)]
      simp
    have hsucc := blockOf_succ infos pre.length info hidx
    obtain ⟨hk', hat'⟩ := mapPushBack_spec m 0 L o pre.length hkeys (Nat.zero_le _) (by omega)
    have hlen : (pre ++ [info]).length = pre.length + 1 := by simp
    have key := ih (pre ++ [info]) (if !info.is_constant_ then o + 1 else o)
      (mapPushBack m o (GetNodeId pre.length Side.Start))
      (if o = 0 + L then L + 1 else L) (by simp [hsplit])
      (by
        rw [hlen, hsucc, ← ho]
        cases info.is_constant_ <;> simp)
      (by rw [GetNodeId_Start]; exact hk')
      (by
        cases info.is_constant_ <;> simp <;> split <;> omega)
      (by
        cases info.is_constant_ <;> simp <;> split <;> omega)
      (by
        intro b
        rw [GetNodeId_Start, hat' b, hlen, blockNodes_succ, ← ho]
        by_cases hb : b = o
        · subst hb
          simp [hget]
        · have hb' : ¬ o = b := fun h => hb h.symm
          simp [hb, hb', hget])
    rw [hlen] at key
    simpa [SetNodeMappingsLoop] using key

/-- The map built by `SetNodeMappings`: its keys are `0 .. nc` for `nc` the number
of non-constant segments, and block `b` holds the node ids of block `b` in order. -/
theorem SetNodeMappings_spec (infos : List PolyInfo) :
    mapKeys (SetNodeMappings infos) = List.range (blockOf infos infos.length + 1) ∧
    ∀ b, mapAt (SetNodeMappings infos) b =
      if b ≤ blockOf infos infos.length then some (blockNodes infos (infos.length + 1) b)
      else none := by
  obtain ⟨h1, ⟨L', hk, hL1, hL2⟩, hget⟩ :=
    SetNodeMappingsLoop_spec infos infos [] 0 [] 0 (by simp) (by simp [blockOf_zero])
      (by simp [mapKeys, List.range']) (le_refl _) (by omega)
      (by intro b; simp [mapAt, blockNodes])
  simp only [List.length_nil] at h1 hk hL1 hL2 hget
  obtain ⟨hk', hat'⟩ := mapPushBack_spec (SetNodeMappingsLoop infos 0 0 []).2 0 L'
    (SetNodeMappingsLoop infos 0 0 []).1 infos.length hk (Nat.zero_le _) (by omega)
  have hkeys : mapKeys (SetNodeMappings infos) = List.range (blockOf infos infos.length + 1) := by
    unfold SetNodeMappings SetNodeMappingsFrom
    simp only []
    rw [hk', List.range_eq_range', h1]
    congr 1
    split <;> omega
  refine ⟨hkeys, ?_⟩
  intro b
  by_cases hb : b ≤ blockOf infos infos.length
  · rw [if_pos hb]
    unfold SetNodeMappings SetNodeMappingsFrom
    simp only []
    rw [hat' b, h1, blockNodes_succ]
    by_cases hbe : b = blockOf infos infos.length
    · rw [if_pos hbe, if_pos hbe.symm, ← hget b, hbe]
    · rw [if_neg hbe, if_neg (fun h => hbe h.symm), List.append_nil]
      have hmem : b ∈ mapKeys (SetNodeMappingsLoop infos 0 0 []).2 := by
        rw [hk, h1] at *
        simp [List.mem_range']
        omega
      cases hm : mapAt (SetNodeMappingsLoop infos 0 0 []).2 b with
      | none => exact absurd hmem ((mapAt_eq_none_iff _ _).mp hm)
      | some l =>
        have := hget b
        rw [hm] at this
        simpa using this
  · rw [if_neg hb]
    rw [mapAt_eq_none_iff, hkeys]
    simp
    omega

theorem SetNodeMappings_length (infos : List PolyInfo) :
    (SetNodeMappings infos).length = blockOf infos infos.length + 1 := by
  have h := (SetNodeMappings_spec infos).1
  have := congrArg List.length h
  simpa [mapKeys] using this


/-! ## Reads and writes of node entries -/

theorem list_set_self {β : Type} (l : List β) (i : Nat) (a : β) (h : l[i]? = some a) :
    l.set i a = l := by
  apply List.ext_getElem?
  intro j
  rw [List.getElem?_set]
  by_cases hij : i = j
  · subst hij
    obtain ⟨hlt, _⟩ := List.getElem?_eq_some_iff.mp h
    simp [hlt, h]
  · simp [hij]

theorem setNodeEntry_spec {α : Type} (nd : List (Node α)) (i : NodeInfo) (v : α)
    (h : (nodeEntry nd i).isSome) :
    ∃ nd1, setNodeEntry nd i v = some nd1 ∧ nd1.length = nd.length ∧
      ∀ p, nodeEntry nd1 p = if p = i then some v else nodeEntry nd p := by
  unfold nodeEntry at h
  cases hn : nd[i.id_]? with
  | none => simp [hn] at h
  | some node =>
    cases hv : node[i.deriv_]? with
    | none => simp [hn, hv] at h
    | some vec =>
      have hd : i.dim_ < vec.length := by
        simp only [hn, hv, Option.some_bind] at h
        by_contra hc
        rw [List.getElem?_eq_none (by omega)] at h
        simp at h
      have hidlt : i.id_ < nd.length := (List.getElem?_eq_some_iff.mp hn).1
      have hderlt : i.deriv_ < node.length := (List.getElem?_eq_some_iff.mp hv).1
      refine ⟨nd.set i.id_ (node.set i.deriv_ (vec.set i.dim_ v)), ?_, by simp, ?_⟩
      · simp [setNodeEntry, hn, hv, hd]
      · intro p
        obtain ⟨pid, pder, pdim⟩ := p
        obtain ⟨iid, ider, idim⟩ := i
        simp only [NodeInfo.mk.injEq]
        simp only at hn hv hd hidlt hderlt
        unfold nodeEntry
        simp only [List.getElem?_set]
        by_cases h1 : iid = pid
        · subst h1
          simp only [if_true, hidlt, Option.some_bind, List.getElem?_set, true_and, hn]
          by_cases h2 : ider = pder
          · subst h2
            simp only [if_true, hderlt, Option.some_bind, List.getElem?_set, true_and, hv]
            by_cases h3 : idim = pdim
            · subst h3
              simp [hd]
            · have h3' : ¬ pdim = idim := fun e => h3 e.symm
              simp [h3, h3']
          · have h2' : ¬ pder = ider := fun e => h2 e.symm
            simp [h2, h2']
        · have h1' : ¬ pid = iid := fun e => h1 e.symm
          simp [h1, h1']

theorem setNodeEntry_same {α : Type} (nd : List (Node α)) (i : NodeInfo) (v : α)
    (h : nodeEntry nd i = some v) : setNodeEntry nd i v = some nd := by
  unfold nodeEntry at h
  cases hn : nd[i.id_]? with
  | none => simp [hn] at h
  | some node =>
    cases hv : node[i.deriv_]? with
    | none => simp [hn, hv] at h
    | some vec =>
      simp only [hn, hv, Option.some_bind] at h
      have hd : i.dim_ < vec.length := (List.getElem?_eq_some_iff.mp h).1
      simp only [setNodeEntry, hn, hv, Option.some_bind, hd, if_true]
      rw [list_set_self vec _ _ h, list_set_self node _ _ hv, list_set_self nd _ _ hn]

theorem writeAll_spec {α : Type} (v : α) (l : List NodeInfo) :
    ∀ (nd : List (Node α)), (∀ i ∈ l, (nodeEntry nd i).isSome) →
    ∃ nd', l.foldlM (fun nd info => setNodeEntry nd info v) nd = some nd' ∧
      nd'.length = nd.length ∧
      ∀ p, nodeEntry nd' p = if p ∈ l then some v else nodeEntry nd p := by
  induction l with
  | nil =>
    intro nd _
    exact ⟨nd, by simp, rfl, by simp⟩
  | cons i l ih =>
    intro nd hvalid
    obtain ⟨nd1, h1, hlen1, hent1⟩ := setNodeEntry_spec nd i v (hvalid i (by simp))
    have hvalid1 : ∀ j ∈ l, (nodeEntry nd1 j).isSome := by
      intro j hj
      rw [hent1 j]
      by_cases hji : j = i
      · simp [hji]
      · simp only [hji, if_false]
        exact hvalid j (by simp [hj])
    obtain ⟨nd', h2, hlen2, hent2⟩ := ih nd1 hvalid1
    refine ⟨nd', ?_, by omega, ?_⟩
    · rw [List.foldlM_cons, h1]
      exact h2
    · intro p
      rw [hent2 p, hent1 p]
      by_cases hp : p ∈ l
      · simp [hp]
      · by_cases hpi : p = i
        · simp [hpi]
        · simp [hp, hpi]

theorem writeAll_same {α : Type} (v : α) (l : List NodeInfo) (nd : List (Node α))
    (h : ∀ i ∈ l, nodeEntry nd i = some v) :
    l.foldlM (fun nd info => setNodeEntry nd info v) nd = some nd := by
  induction l with
  | nil => simp
  | cons i l ih =>
    rw [List.foldlM_cons, setNodeEntry_same nd i v (h i (by simp))]
    exact ih (fun j hj => h j (by simp [hj]))

theorem readAll_spec {α : Type} (nodes : List (Node α)) (v : α) (l : List NodeInfo) :
    ∀ (init : Option α), l ≠ [] → (∀ i ∈ l, nodeEntry nodes i = some v) →
    l.foldlM (fun (_ : Option α) info => (nodeEntry nodes info).map some) init
      = some (some v) := by
  induction l with
  | nil => intro _ h; exact absurd rfl h
  | cons i l ih =>
    intro init _ hall
    rw [List.foldlM_cons, hall i (by simp)]
    by_cases hl : l = []
    · subst hl
      simp
    · exact ih (some v) hl (fun j hj => hall j (by simp [hj]))

theorem collectM_spec {β : Type} (f : Nat → Option β) :
    ∀ (l : List Nat) (ys : List β), ys.length = l.length →
      (∀ j (h : j < l.length), f l[j] = ys[j]?) → collectM f l = some ys := by
  intro l
  induction l with
  | nil =>
    intro ys hlen _
    have : ys = [] := List.length_eq_zero.mp (by simpa using hlen)
    simp [collectM, this]
  | cons a l ih =>
    intro ys hlen hall
    cases ys with
    | nil => simp at hlen
    | cons y ys =>
      have h0 := hall 0 (by simp)
      simp only [List.getElem_cons_zero, List.getElem?_cons_zero] at h0
      have hrest := ih ys (by simpa using hlen) (by
        intro j hj
        have := hall (j + 1) (by simp; omega)
        simpa using this)
      simp [collectM, h0, hrest]

theorem collectM_range {β : Type} (f : Nat → Option β) (ys : List β)
    (h : ∀ j, j < ys.length → f j = ys[j]?) :
    collectM f (List.range ys.length) = some ys := by
  apply collectM_spec f (List.range ys.length) ys (by simp)
  intro j hj
  rw [List.getElem_range]
  exact h j (by simpa using hj)


/-! ## `GetNodeInfo` on an initialized object -/

theorem Layout.n_dim_pos {α : Type} {s : NodeValues α} (h : Layout s) {idx : Nat}
    (hidx : idx < s.rows_) : 0 < s.n_dim_ := by
  rw [h.rows] at hidx
  by_contra hc
  have h0 : s.n_dim_ = 0 := by omega
  simp [h0] at hidx

theorem Layout.rows_eq {α : Type} {s : NodeValues α} (h : Layout s) :
    s.rows_ = (blockOf s.polynomial_info_ s.polynomial_info_.length + 1) * (2 * s.n_dim_) := by
  rw [h.rows, SetNodeMappings_length, Nat.mul_assoc]

theorem Layout.block_le {α : Type} {s : NodeValues α} (h : Layout s) {idx : Nat}
    (hidx : idx < s.rows_) :
    decodeBlock s.n_dim_ idx ≤ blockOf s.polynomial_info_ s.polynomial_info_.length := by
  have hn := h.n_dim_pos hidx
  rw [h.rows_eq] at hidx
  have : idx / (2 * s.n_dim_) < blockOf s.polynomial_info_ s.polynomial_info_.length + 1 :=
    (Nat.div_lt_iff_lt_mul (by omega)).mpr hidx
  unfold decodeBlock
  omega

theorem GetNodeInfo_spec {α : Type} {s : NodeValues α} (h : Layout s) {idx : Nat}
    (hidx : idx < s.rows_) :
    GetNodeInfo s idx = some
      ((blockNodes s.polynomial_info_ (s.polynomial_info_.length + 1)
          (decodeBlock s.n_dim_ idx)).map
        (fun k => NodeInfo.mk k (decodeDeriv s.n_dim_ idx) (decodeDim s.n_dim_ idx))) := by
  have hn := h.n_dim_pos hidx
  have hb := h.block_le hidx
  have h2 : ¬ (2 * s.n_dim_ = 0) := by omega
  unfold decodeBlock at hb
  simp only [GetNodeInfo, h2, if_false, h.opt, (SetNodeMappings_spec s.polynomial_info_).2, hb,
    if_true, Option.map_some', decodeBlock, decodeDeriv, decodeDim]

theorem mem_GetNodeInfo {α : Type} {s : NodeValues α} (h : Layout s) {idx : Nat}
    (hidx : idx < s.rows_) (info : NodeInfo) :
    info ∈ (GetNodeInfo s idx).getD [] ↔
      (info.id_ ≤ s.polynomial_info_.length ∧
        blockOf s.polynomial_info_ info.id_ = decodeBlock s.n_dim_ idx ∧
        info.deriv_ = decodeDeriv s.n_dim_ idx ∧ info.dim_ = decodeDim s.n_dim_ idx) := by
  rw [GetNodeInfo_spec h hidx]
  simp only [Option.getD_some, List.mem_map, mem_blockNodes]
  constructor
  · rintro ⟨k, ⟨hk, hb⟩, rfl⟩
    exact ⟨by simp; omega, hb, rfl, rfl⟩
  · rintro ⟨h1, h2, h3, h4⟩
    refine ⟨info.id_, ⟨by omega, h2⟩, ?_⟩
    obtain ⟨a, b, c⟩ := info
    simp only at h3 h4
    simp [h3, h4]

theorem decodeDeriv_lt_two {n idx : Nat} (hn : 0 < n) : decodeDeriv n idx < 2 := by
  unfold decodeDeriv
  have : idx % (2 * n) < 2 * n := Nat.mod_lt _ (by omega)
  exact (Nat.div_lt_iff_lt_mul hn).mpr this

theorem decodeDim_eq_mod (n idx : Nat) : decodeDim n idx = (idx % (2 * n)) % n := by
  unfold decodeDim decodeDeriv
  have h := Nat.mod_add_div (idx % (2 * n)) n
  have h' : n * (idx % (2 * n) / n) = idx % (2 * n) / n * n := Nat.mul_comm _ _
  omega

theorem decodeDim_lt {n idx : Nat} (hn : 0 < n) : decodeDim n idx < n := by
  rw [decodeDim_eq_mod]
  exact Nat.mod_lt _ hn

theorem decode_recompose (n idx : Nat) :
    idx = decodeBlock n idx * (2 * n) + decodeDeriv n idx * n + decodeDim n idx := by
  have h1 := Nat.mod_add_div idx (2 * n)
  have h2 := Nat.mod_add_div (idx % (2 * n)) n
  have h3 := decodeDim_eq_mod n idx
  unfold decodeBlock decodeDeriv at *
  have c1 : 2 * n * (idx / (2 * n)) = idx / (2 * n) * (2 * n) := Nat.mul_comm _ _
  have c2 : n * (idx % (2 * n) / n) = idx % (2 * n) / n * n := Nat.mul_comm _ _
  omega

theorem decode_inj {n a b : Nat} (h1 : decodeBlock n a = decodeBlock n b)
    (h2 : decodeDeriv n a = decodeDeriv n b) (h3 : decodeDim n a = decodeDim n b) : a = b := by
  rw [decode_recompose n a, decode_recompose n b, h1, h2, h3]

theorem decode_compose {n b d j : Nat} (hd : d < 2) (hj : j < n) :
    decodeBlock n (b * (2 * n) + d * n + j) = b ∧
    decodeDeriv n (b * (2 * n) + d * n + j) = d ∧
    decodeDim n (b * (2 * n) + d * n + j) = j := by
  have hn : 0 < n := by omega
  have hr : d * n + j < 2 * n := by
    have : d = 0 ∨ d = 1 := by omega
    rcases this with rfl | rfl <;> omega
  have e : b * (2 * n) + d * n + j = (d * n + j) + (2 * n) * b := by
    rw [Nat.mul_comm b (2 * n)]
    omega
  have hb : (b * (2 * n) + d * n + j) / (2 * n) = b := by
    rw [e, Nat.add_mul_div_left _ _ (by omega), Nat.div_eq_of_lt hr]
    omega
  have hm : (b * (2 * n) + d * n + j) % (2 * n) = d * n + j := by
    rw [e, Nat.add_mul_mod_self_left, Nat.mod_eq_of_lt hr]
  have hq : (d * n + j) / n = d := by
    have e2 : d * n + j = j + n * d := by rw [Nat.mul_comm d n]; omega
    rw [e2, Nat.add_mul_div_left _ _ hn, Nat.div_eq_of_lt hj]
    omega
  refine ⟨hb, ?_, ?_⟩
  · unfold decodeDeriv
    rw [hm, hq]
  · unfold decodeDim decodeDeriv
    rw [hm, hq]
    omega

theorem GetNodeInfo_disjoint {α : Type} {s : NodeValues α} (h : Layout s) {a b : Nat}
    (ha : a < s.rows_) (hb : b < s.rows_) (info : NodeInfo)
    (hia : info ∈ (GetNodeInfo s a).getD []) (hib : info ∈ (GetNodeInfo s b).getD []) :
    a = b := by
  obtain ⟨_, a1, a2, a3⟩ := (mem_GetNodeInfo h ha info).mp hia
  obtain ⟨_, b1, b2, b3⟩ := (mem_GetNodeInfo h hb info).mp hib
  exact decode_inj (a1.symm.trans b1) (a2.symm.trans b2) (a3.symm.trans b3)

theorem blockNodes_ne_nil (infos : List PolyInfo) {b : Nat}
    (hb : b ≤ blockOf infos infos.length) : blockNodes infos (infos.length + 1) b ≠ [] := by
  have hex : ∃ k, k ≤ infos.length ∧ blockOf infos k = b := by
    induction b with
    | zero => exact ⟨0, Nat.zero_le _, blockOf_zero infos⟩
    | succ b ih =>
      obtain ⟨k0, hk0, hb0⟩ := ih (by omega)
      have hstep : ∀ d, k0 + d ≤ infos.length →
          (∃ k, k ≤ infos.length ∧ blockOf infos k = b + 1) ∨ blockOf infos (k0 + d) = b := by
        intro d
        induction d with
        | zero => intro _; exact Or.inr hb0
        | succ d ihd =>
          intro hd
          rcases ihd (by omega) with hfound | heq
          · exact Or.inl hfound
          · have hm := blockOf_mono_succ infos (k0 + d)
            by_cases hc : blockOf infos (k0 + d + 1) = b
            · exact Or.inr hc
            · exact Or.inl ⟨k0 + d + 1, hd, by omega⟩
      rcases hstep (infos.length - k0) (by omega) with hfound | heq
      · exact hfound
      · have : k0 + (infos.length - k0) = infos.length := by omega
        rw [this] at heq
        omega
  obtain ⟨k, hk, hkb⟩ := hex
  intro hnil
  have hmem : k ∈ blockNodes infos (infos.length + 1) b :=
    (mem_blockNodes _ _ _ _).mpr ⟨by omega, hkb⟩
  rw [hnil] at hmem
  simp at hmem

theorem GetNodeInfo_ne_nil {α : Type} {s : NodeValues α} (h : Layout s) {idx : Nat}
    (hidx : idx < s.rows_) : (GetNodeInfo s idx).getD [] ≠ [] := by
  rw [GetNodeInfo_spec h hidx]
  simp only [Option.getD_some, ne_eq, List.map_eq_nil_iff]
  exact blockNodes_ne_nil _ (h.block_le hidx)

theorem GetNodeInfo_eq_some {α : Type} {s : NodeValues α} (h : Layout s) {idx : Nat}
    (hidx : idx < s.rows_) : GetNodeInfo s idx = some ((GetNodeInfo s idx).getD []) := by
  rw [GetNodeInfo_spec h hidx]
  rfl


/-! ## `UpdatePolynomials` -/

theorem UpdatePolynomialsLoop_spec {α : Type} (nodes : List (Node α)) (times : List α) :
    ∀ (ps : List (PolyType α)) (i : Nat),
      i + ps.length + 1 ≤ nodes.length → i + ps.length ≤ times.length →
      ∃ ps', UpdatePolynomialsLoop nodes times i ps = some ps' ∧ ps'.length = ps.length ∧
        UpdatePolynomialsLoop nodes times i ps' = some ps' := by
  intro ps
  induction ps with
  | nil =>
    intro i _ _
    exact ⟨[], rfl, rfl, rfl⟩
  | cons p ps ih =>
    intro i hn ht
    simp only [List.length_cons] at hn ht
    obtain ⟨ps', h1, h2, h3⟩ := ih (i + 1) (by omega) (by omega)
    have e0 : nodes[GetNodeId i Side.Start]? = some nodes[i] := by
      rw [GetNodeId_Start]
      exact List.getElem?_eq_getElem (by omega)
    have e1 : nodes[GetNodeId i Side.End]? = some nodes[i + 1] := by
      rw [GetNodeId_End]
      exact List.getElem?_eq_getElem (by omega)
    have e2 : times[i]? = some times[i] := List.getElem?_eq_getElem (by omega)
    refine ⟨p.SetNodes nodes[i] nodes[i + 1] times[i] :: ps', ?_, by simp [h2], ?_⟩
    · simp [UpdatePolynomialsLoop, e0, e1, e2, h1]
    · simp [UpdatePolynomialsLoop, e0, e1, e2, h3, PolyType.SetNodes]

theorem UpdatePolynomials_spec {α : Type} (s : NodeValues α)
    (hn : s.nodes_.length = s.cubic_polys_.length + 1)
    (ht : s.times_.length = s.cubic_polys_.length) :
    ∃ ps', UpdatePolynomials s = some { s with cubic_polys_ := ps' } ∧
      ps'.length = s.cubic_polys_.length ∧
      UpdatePolynomials { s with cubic_polys_ := ps' } = some { s with cubic_polys_ := ps' } := by
  obtain ⟨ps', h1, h2, h3⟩ :=
    UpdatePolynomialsLoop_spec s.nodes_ s.times_ s.cubic_polys_ 0 (by omega) (by omega)
  exact ⟨ps', by simp [UpdatePolynomials, h1], h2, by simp [UpdatePolynomials, h3]⟩

/-! ## `SetValues` and `GetValues` -/

theorem SetValues_loop_spec {α : Type} {s : NodeValues α} (h : Layout s) (x : List α)
    (hx : x.length = s.rows_) (nodes : List (Node α))
    (hvalid : ∀ idx, idx < s.rows_ → ∀ info ∈ (GetNodeInfo s idx).getD [],
      (nodeEntry nodes info).isSome) :
    ∀ k, k ≤ s.rows_ →
      ∃ nodes', (List.range k).foldlM (SetValuesAt s x) nodes = some nodes' ∧
        nodes'.length = nodes.length ∧
        (∀ p, (nodeEntry nodes' p).isSome = (nodeEntry nodes p).isSome) ∧
        (∀ idx, idx < k → ∀ info ∈ (GetNodeInfo s idx).getD [],
          nodeEntry nodes' info = x[idx]?) ∧
        (∀ p, (∀ idx, idx < k → p ∉ (GetNodeInfo s idx).getD []) →
          nodeEntry nodes' p = nodeEntry nodes p) := by
  intro k
  induction k with
  | zero =>
    intro _
    exact ⟨nodes, by simp, rfl, fun _ => rfl, by intro idx hidx; omega, fun _ _ => rfl⟩
  | succ k ih =>
    intro hk
    obtain ⟨nk, hfold, hlen, hsome, hval, hrest⟩ := ih (by omega)
    have hklt : k < s.rows_ := by omega
    have hxk : x[k]? = some x[k] := List.getElem?_eq_getElem (by omega)
    have hvalidk : ∀ i ∈ (GetNodeInfo s k).getD [], (nodeEntry nk i).isSome := by
      intro i hi
      rw [hsome i]
      exact hvalid k hklt i hi
    obtain ⟨nk', hw, hlen', hent⟩ := writeAll_spec x[k] ((GetNodeInfo s k).getD []) nk hvalidk
    refine ⟨nk', ?_, by omega, ?_, ?_, ?_⟩
    · rw [List.range_succ, List.foldlM_append, hfold]
      simp only [List.foldlM_cons, List.foldlM_nil, Option.pure_def, Option.bind_eq_bind,
        Option.some_bind, SetValuesAt, hxk]
      rw [GetNodeInfo_eq_some h hklt]
      simp only [Option.some_bind, Option.bind_some]
      rw [hw]
    · intro p
      rw [hent p]
      by_cases hp : p ∈ (GetNodeInfo s k).getD []
      · simp only [hp, if_true, Option.isSome_some]
        exact (hvalid k hklt p hp).symm
      · simp only [hp, if_false]
        exact hsome p
    · intro idx hidx info hinfo
      rw [hent info]
      by_cases hik : idx = k
      · subst hik
        simp [hinfo, hxk]
      · have hne : info ∉ (GetNodeInfo s k).getD [] := by
          intro hc
          exact hik (GetNodeInfo_disjoint h (by omega) hklt info hinfo hc)
        simp only [hne, if_false]
        exact hval idx (by omega) info hinfo
    · intro p hp
      rw [hent p]
      have hne : p ∉ (GetNodeInfo s k).getD [] := hp k (by omega)
      simp only [hne, if_false]
      exact hrest p (fun idx hidx => hp idx (by omega))

theorem SetValues_loop_same {α : Type} {s : NodeValues α} (h : Layout s) (x : List α)
    (hx : x.length = s.rows_) (nodes : List (Node α))
    (hsame : ∀ idx, idx < s.rows_ → ∀ info ∈ (GetNodeInfo s idx).getD [],
      nodeEntry nodes info = x[idx]?) :
    ∀ k, k ≤ s.rows_ → (List.range k).foldlM (SetValuesAt s x) nodes = some nodes := by
  intro k
  induction k with
  | zero => intro _; simp
  | succ k ih =>
    intro hk
    have hklt : k < s.rows_ := by omega
    have hxk : x[k]? = some x[k] := List.getElem?_eq_getElem (by omega)
    rw [List.range_succ, List.foldlM_append, ih (by omega)]
    simp only [List.foldlM_cons, List.foldlM_nil, Option.pure_def, Option.bind_eq_bind,
      Option.some_bind, SetValuesAt, hxk]
    rw [GetNodeInfo_eq_some h hklt]
    simp only [Option.some_bind, Option.bind_some]
    rw [writeAll_same x[k] _ nodes (fun i hi => by rw [hsame k hklt i hi, hxk])]

theorem GetValues_spec {α : Type} {s : NodeValues α} (h : Layout s) (x : List α)
    (hx : x.length = s.rows_)
    (hsame : ∀ idx, idx < s.rows_ → ∀ info ∈ (GetNodeInfo s idx).getD [],
      nodeEntry s.nodes_ info = x[idx]?) :
    GetValues s = some x := by
  unfold GetValues GetRows
  rw [← hx]
  apply collectM_range
  intro j hj
  have hjr : j < s.rows_ := by omega
  have hxj : x[j]? = some x[j] := List.getElem?_eq_getElem hj
  unfold GetValuesAt
  rw [GetNodeInfo_eq_some h hjr]
  simp only [Option.some_bind]
  rw [readAll_spec s.nodes_ x[j] _ none (GetNodeInfo_ne_nil h hjr)
    (fun i hi => by rw [hsame j hjr i hi, hxj])]
  simp [hxj]


/-! ## Shape of the results of the operations -/

theorem UpdatePolynomialsLoop_idem {α : Type} (nodes : List (Node α)) (times : List α) :
    ∀ (ps ps' : List (PolyType α)) (i : Nat),
      UpdatePolynomialsLoop nodes times i ps = some ps' →
      ps'.length = ps.length ∧ UpdatePolynomialsLoop nodes times i ps' = some ps' := by
  intro ps
  induction ps with
  | nil =>
    intro ps' i h
    simp only [UpdatePolynomialsLoop, Option.some.injEq] at h
    subst h
    exact ⟨rfl, rfl⟩
  | cons p ps ih =>
    intro ps' i h
    simp only [UpdatePolynomialsLoop] at h
    cases e0 : nodes[GetNodeId i Side.Start]? with
    | none => simp [e0] at h
    | some n0 =>
      cases e1 : nodes[GetNodeId i Side.End]? with
      | none => simp [e0, e1] at h
      | some n1 =>
        cases e2 : times[i]? with
        | none => simp [e0, e1, e2] at h
        | some T =>
          cases e3 : UpdatePolynomialsLoop nodes times (i + 1) ps with
          | none => simp [e0, e1, e2, e3] at h
          | some rest =>
            simp only [e0, e1, e2, e3, Option.some_bind, Option.map_some',
              Option.some.injEq] at h
            subst h
            obtain ⟨hl, hi⟩ := ih rest (i + 1) e3
            refine ⟨by simp [hl], ?_⟩
            simp [UpdatePolynomialsLoop, e0, e1, e2, hi, PolyType.SetNodes]

theorem UpdatePolynomials_some {α : Type} {s s' : NodeValues α}
    (h : UpdatePolynomials s = some s') :
    ∃ ps', s' = { s with cubic_polys_ := ps' } ∧ ps'.length = s.cubic_polys_.length ∧
      UpdatePolynomials s' = some s' := by
  unfold UpdatePolynomials at h
  cases e : UpdatePolynomialsLoop s.nodes_ s.times_ 0 s.cubic_polys_ with
  | none => simp [e] at h
  | some ps' =>
    simp only [e, Option.map_some', Option.some.injEq] at h
    obtain ⟨hl, hi⟩ := UpdatePolynomialsLoop_idem _ _ _ _ _ e
    refine ⟨ps', h.symm, hl, ?_⟩
    subst h
    simp [UpdatePolynomials, hi]

theorem setNodeEntry_length {α : Type} {nd nd1 : List (Node α)} {i : NodeInfo} {v : α}
    (h : setNodeEntry nd i v = some nd1) : nd1.length = nd.length := by
  unfold setNodeEntry at h
  cases hn : nd[i.id_]? with
  | none => simp [hn] at h
  | some node =>
    cases hv : node[i.deriv_]? with
    | none => simp [hn, hv] at h
    | some vec =>
      simp only [hn, hv, Option.some_bind] at h
      split at h
      · simp only [Option.some.injEq] at h
        subst h
        simp
      · simp at h

theorem foldlM_length {β γ : Type} (f : List γ → β → Option (List γ))
    (hf : ∀ a b c, f a b = some c → c.length = a.length) :
    ∀ (l : List β) (a c : List γ), l.foldlM f a = some c → c.length = a.length := by
  intro l
  induction l with
  | nil =>
    intro a c h
    simp only [List.foldlM_nil, Option.pure_def, Option.some.injEq] at h
    subst h
    rfl
  | cons b l ih =>
    intro a c h
    rw [List.foldlM_cons] at h
    cases e : f a b with
    | none => simp [e] at h
    | some a' =>
      simp only [e, Option.bind_eq_bind, Option.some_bind] at h
      rw [ih a' c h, hf a b a' e]

theorem SetValuesAt_length {α : Type} (s : NodeValues α) (x : List α) (a : List (Node α))
    (idx : Nat) (c : List (Node α)) (h : SetValuesAt s x a idx = some c) :
    c.length = a.length := by
  unfold SetValuesAt at h
  cases e1 : x[idx]? with
  | none => simp [e1] at h
  | some v =>
    cases e2 : GetNodeInfo s idx with
    | none => simp [e1, e2] at h
    | some infos =>
      simp only [e1, e2, Option.some_bind] at h
      exact foldlM_length _ (fun a b c hc => setNodeEntry_length hc) infos a c h

theorem SetValues_some {α : Type} {s s' : NodeValues α} {x : List α}
    (h : SetValues s x = some s') :
    ∃ nodes' ps', s' = { s with nodes_ := nodes', cubic_polys_ := ps' } ∧
      (List.range x.length).foldlM (SetValuesAt s x) s.nodes_ = some nodes' ∧
      nodes'.length = s.nodes_.length ∧ ps'.length = s.cubic_polys_.length ∧
      UpdatePolynomials s' = some s' := by
  unfold SetValues at h
  cases e : (List.range x.length).foldlM (SetValuesAt s x) s.nodes_ with
  | none => simp [e] at h
  | some nodes' =>
    simp only [e, Option.some_bind] at h
    obtain ⟨ps', h1, h2, h3⟩ := UpdatePolynomials_some h
    exact ⟨nodes', ps', h1, rfl, foldlM_length _ (SetValuesAt_length s x) _ _ _ e, h2, h3⟩

theorem UpdateDurationsLoop_length {α : Type} [Div α] [IntCast α] (durations : List α) :
    ∀ (infos : List PolyInfo) (i : Nat) (times times' : List α),
      UpdateDurationsLoop durations infos i times = some times' →
      times'.length = times.length := by
  intro infos
  induction infos with
  | nil =>
    intro i times times' h
    simp only [UpdateDurationsLoop, Option.some.injEq] at h
    subst h
    rfl
  | cons info rest ih =>
    intro i times times' h
    simp only [UpdateDurationsLoop] at h
    cases e : durations[info.phase_]? with
    | none => simp [e] at h
    | some d =>
      simp only [e, Option.some_bind] at h
      split at h
      · have := ih _ _ _ h
        simpa using this
      · simp at h

theorem UpdateDurations_some {α : Type} [Div α] [IntCast α] {s s' : NodeValues α}
    {durations : List α} (h : UpdateDurations s durations = some s') :
    ∃ times' ps', s' = { s with times_ := times', cubic_polys_ := ps' } ∧
      UpdateDurationsLoop durations s.polynomial_info_ 0 s.times_ = some times' ∧
      times'.length = s.times_.length ∧ ps'.length = s.cubic_polys_.length ∧
      UpdatePolynomials s' = some s' := by
  unfold UpdateDurations at h
  cases e : UpdateDurationsLoop durations s.polynomial_info_ 0 s.times_ with
  | none => simp [e] at h
  | some times' =>
    simp only [e, Option.some_bind] at h
    obtain ⟨ps', h1, h2, h3⟩ := UpdatePolynomials_some h
    exact ⟨times', ps', h1, rfl, UpdateDurationsLoop_length _ _ _ _ _ e, h2, h3⟩

/-! ## `Init` -/

theorem Init_built {α : Type} (p0 : PolyType α) (node : Node α) :
    ∀ (l : List PolyInfo) (a : List (PolyType α)) (b : List (Node α)),
      l.foldl (fun (acc : List (PolyType α) × List (Node α)) _ =>
        (acc.1 ++ [p0], acc.2 ++ [node])) (a, b)
      = (a ++ List.replicate l.length p0, b ++ List.replicate l.length node) := by
  intro l
  induction l with
  | nil => intro a b; simp
  | cons x l ih =>
    intro a b
    rw [List.foldl_cons, ih]
    simp [List.replicate_succ]

theorem Init_spec {α : Type} [Zero α] {node : Node α} {infos : List PolyInfo}
    {s : NodeValues α} (h : Init node infos = some s) :
    Layout s ∧ UpdatePolynomials s = some s ∧ s.polynomial_info_ = infos ∧
      s.nodes_ = List.replicate (infos.length + 1) node ∧
      s.times_ = List.replicate infos.length 0 ∧
      ∃ pos, node[kPos]? = some pos ∧ s.n_dim_ = pos.length := by
  unfold Init at h
  cases e : node[kPos]? with
  | none => simp [e] at h
  | some pos =>
    simp only [e, Option.some_bind, Init_built, List.nil_append] at h
    obtain ⟨ps', h1, h2, h3⟩ := UpdatePolynomials_some h
    subst h1
    simp only [List.length_replicate] at h2
    refine ⟨⟨rfl, rfl, ?_, ?_, ?_⟩, h3, rfl, ?_, rfl, pos, rfl, rfl⟩
    · simp
    · simpa using h2
    · simp
    · simp [List.replicate_succ]

theorem Init_some {α : Type} [Zero α] (node : Node α) (infos : List PolyInfo)
    (pos : List α) (h : node[kPos]? = some pos) : ∃ s, Init node infos = some s := by
  unfold Init
  simp only [h, Option.some_bind, Init_built, List.nil_append]
  obtain ⟨ps', h1, _, _⟩ := UpdatePolynomials_spec
    ({ n_dim_ := pos.length, polynomial_info_ := infos,
       times_ := List.replicate infos.length 0,
       nodes_ := [node] ++ List.replicate infos.length node,
       cubic_polys_ := List.replicate infos.length (PolyType.mk pos.length none),
       opt_to_spline_ := SetNodeMappingsFrom [] infos,
       rows_ := (SetNodeMappingsFrom [] infos).length * 2 * pos.length } : NodeValues α)
    (by simp) (by simp)
  exact ⟨_, h1⟩

/-! ## Invariants of the reachable states -/

theorem Reachable_layout {α : Type} [Zero α] [Div α] [IntCast α] {node : Node α}
    {infos : List PolyInfo} {s0 s : NodeValues α} (h0 : Init node infos = some s0)
    (hr : Reachable s0 s) :
    Layout s ∧ UpdatePolynomials s = some s ∧ s.polynomial_info_ = infos ∧
      s.n_dim_ = s0.n_dim_ ∧ s.rows_ = s0.rows_ ∧ s.opt_to_spline_ = s0.opt_to_spline_ := by
  induction hr with
  | init =>
    obtain ⟨hl, hf, hp, _⟩ := Init_spec h0
    exact ⟨hl, hf, hp, rfl, rfl, rfl⟩
  | setValues s s' x _ hx hset ih =>
    obtain ⟨hl, hf, hp, hn, hrw, ho⟩ := ih
    obtain ⟨nodes', ps', h1, _, h2, h3, h4⟩ := SetValues_some hset
    subst h1
    refine ⟨⟨hl.opt, hl.rows, ?_, ?_, hl.times_len⟩, h4, hp, hn, hrw, ho⟩
    · simpa [h2] using hl.nodes_len
    · simpa [h3] using hl.polys_len
  | updateDurations s s' d _ hupd ih =>
    obtain ⟨hl, hf, hp, hn, hrw, ho⟩ := ih
    obtain ⟨times', ps', h1, _, h2, h3, h4⟩ := UpdateDurations_some hupd
    subst h1
    refine ⟨⟨hl.opt, hl.rows, hl.nodes_len, ?_, ?_⟩, h4, hp, hn, hrw, ho⟩
    · simpa [h3] using hl.polys_len
    · simpa [h2] using hl.times_len


theorem setNodeEntry_some_valid {α : Type} {nd nd1 : List (Node α)} {i : NodeInfo} {v : α}
    (h : setNodeEntry nd i v = some nd1) : (nodeEntry nd i).isSome := by
  unfold setNodeEntry at h
  unfold nodeEntry
  cases hn : nd[i.id_]? with
  | none => simp [hn] at h
  | some node =>
    cases hv : node[i.deriv_]? with
    | none => simp [hn, hv] at h
    | some vec =>
      simp only [hn, hv, Option.some_bind] at h
      split at h
      · rename_i hlt
        simp [hv, List.getElem?_eq_getElem hlt]
      · simp at h

theorem writeAll_some {α : Type} (v : α) (l : List NodeInfo) :
    ∀ (nd nd' : List (Node α)),
      l.foldlM (fun nd info => setNodeEntry nd info v) nd = some nd' →
      ∀ p, nodeEntry nd' p = if p ∈ l then some v else nodeEntry nd p := by
  induction l with
  | nil =>
    intro nd nd' h p
    simp only [List.foldlM_nil, Option.pure_def, Option.some.injEq] at h
    subst h
    simp
  | cons i l ih =>
    intro nd nd' h p
    rw [List.foldlM_cons] at h
    cases e : setNodeEntry nd i v with
    | none => simp [e] at h
    | some nd1 =>
      simp only [e, Option.bind_eq_bind, Option.some_bind] at h
      obtain ⟨nd1', h1, _, hent1⟩ := setNodeEntry_spec nd i v (setNodeEntry_some_valid e)
      rw [e] at h1
      simp only [Option.some.injEq] at h1
      subst h1
      rw [ih nd1 nd' h p, hent1 p]
      by_cases hp : p ∈ l
      · simp [hp]
      · by_cases hpi : p = i
        · simp [hpi]
        · simp [hp, hpi]

theorem SetValues_loop_some {α : Type} {s : NodeValues α} (hl : Layout s) (x : List α)
    (hx : x.length = s.rows_) (nodes : List (Node α)) :
    ∀ k, k ≤ s.rows_ → ∀ nodes',
      (List.range k).foldlM (SetValuesAt s x) nodes = some nodes' →
      (∀ idx, idx < k → ∀ info ∈ (GetNodeInfo s idx).getD [],
        nodeEntry nodes' info = x[idx]?) ∧
      (∀ p, (∀ idx, idx < k → p ∉ (GetNodeInfo s idx).getD []) →
        nodeEntry nodes' p = nodeEntry nodes p) := by
  intro k
  induction k with
  | zero =>
    intro _ nodes' h
    simp only [List.range_zero, List.foldlM_nil, Option.pure_def, Option.some.injEq] at h
    subst h
    exact ⟨by intro idx hidx; omega, fun _ _ => rfl⟩
  | succ k ih =>
    intro hk nodes' h
    rw [List.range_succ, List.foldlM_append] at h
    cases e : (List.range k).foldlM (SetValuesAt s x) nodes with
    | none => simp [e] at h
    | some nk =>
      obtain ⟨hval, hrest⟩ := ih (by omega) nk e
      have hklt : k < s.rows_ := by omega
      have hxk : x[k]? = some x[k] := List.getElem?_eq_getElem (by omega)
      simp only [e, Option.bind_eq_bind, Option.some_bind, List.foldlM_cons, List.foldlM_nil,
        Option.pure_def, Option.bind_some, SetValuesAt, hxk] at h
      rw [GetNodeInfo_eq_some hl hklt] at h
      simp only [Option.some_bind] at h
      have hent := writeAll_some x[k] _ nk nodes' h
      refine ⟨?_, ?_⟩
      · intro idx hidx info hinfo
        rw [hent info]
        by_cases hik : idx = k
        · subst hik
          simp [hinfo, hxk]
        · have hne : info ∉ (GetNodeInfo s k).getD [] := by
            intro hc
            exact hik (GetNodeInfo_disjoint hl (by omega) hklt info hinfo hc)
          simp only [hne, if_false]
          exact hval idx (by omega) info hinfo
      · intro p hp
        rw [hent p]
        have hne : p ∉ (GetNodeInfo s k).getD [] := hp k (by omega)
        simp only [hne, if_false]
        exact hrest p (fun idx hidx => hp idx (by omega))

theorem collectM_some {β : Type} (f : Nat → Option β) :
    ∀ (l : List Nat) (ys : List β), collectM f l = some ys →
      ys.length = l.length ∧ ∀ j (h : j < l.length), f l[j] = ys[j]? := by
  intro l
  induction l with
  | nil =>
    intro ys h
    simp only [collectM, Option.some.injEq] at h
    subst h
    exact ⟨rfl, by intro j hj; simp at hj⟩
  | cons a l ih =>
    intro ys h
    simp only [collectM] at h
    cases e1 : f a with
    | none => simp [e1] at h
    | some b =>
      cases e2 : collectM f l with
      | none => simp [e1, e2] at h
      | some bs =>
        simp only [e1, e2, Option.some_bind, Option.map_some', Option.some.injEq] at h
        subst h
        obtain ⟨hlen, hall⟩ := ih bs e2
        refine ⟨by simp [hlen], ?_⟩
        intro j hj
        cases j with
        | zero => simpa using e1
        | succ j =>
          have := hall j (by simpa using hj)
          simpa using this

theorem GetValues_some {α : Type} {s : NodeValues α} (hl : Layout s) (ha : Agree s)
    {x : List α} (h : GetValues s = some x) :
    x.length = s.rows_ ∧
    ∀ idx, idx < s.rows_ → ∀ info ∈ (GetNodeInfo s idx).getD [],
      nodeEntry s.nodes_ info = x[idx]? := by
  unfold GetValues GetRows at h
  obtain ⟨hlen, hall⟩ := collectM_some _ _ _ h
  simp only [List.length_range] at hlen hall
  refine ⟨hlen, ?_⟩
  intro idx hidx info hinfo
  have hidx' : idx < (List.range s.rows_).length := by simpa using hidx
  have hat := hall idx hidx
  rw [List.getElem_range] at hat
  have hxi : x[idx]? = some x[idx] := List.getElem?_eq_getElem (by omega)
  rw [hxi] at hat
  unfold GetValuesAt at hat
  rw [GetNodeInfo_eq_some hl hidx] at hat
  simp only [Option.some_bind] at hat
  obtain ⟨o, ho⟩ := ha idx hidx
  rw [ho info hinfo, hxi]
  cases o with
  | none =>
    exfalso
    obtain ⟨a, hmem⟩ := List.exists_mem_of_ne_nil _ (GetNodeInfo_ne_nil hl hidx)
    have hread : ∀ (l : List NodeInfo) (init : Option α), (∃ a, a ∈ l) →
        (∀ i ∈ l, nodeEntry s.nodes_ i = none) →
        l.foldlM (fun (_ : Option α) info => (nodeEntry s.nodes_ info).map some) init
          = none := by
      intro l
      induction l with
      | nil => intro _ hex _; obtain ⟨a, ha⟩ := hex; simp at ha
      | cons b l _ =>
        intro init _ hnone
        rw [List.foldlM_cons, hnone b (by simp)]
        rfl
    rw [hread _ none ⟨a, hmem⟩ ho] at hat
    simp at hat
  | some w =>
    rw [readAll_spec s.nodes_ w _ none (GetNodeInfo_ne_nil hl hidx) ho] at hat
    simpa using hat

theorem Init_agree {α : Type} [Zero α] {node : Node α} {infos : List PolyInfo}
    {s : NodeValues α} (h : Init node infos = some s) : Agree s := by
  obtain ⟨hl, _, hp, hnodes, _, _⟩ := Init_spec h
  intro idx hidx
  refine ⟨(node[decodeDeriv s.n_dim_ idx]?).bind (fun vec => vec[decodeDim s.n_dim_ idx]?), ?_⟩
  intro info hinfo
  obtain ⟨hid, _, hde, hdi⟩ := (mem_GetNodeInfo hl hidx info).mp hinfo
  unfold nodeEntry
  rw [hnodes, List.getElem?_replicate, hde, hdi]
  have : info.id_ < infos.length + 1 := by rw [hp] at hid; omega
  simp only [this, if_true, Option.some_bind]

theorem Consistent.valid {α : Type} {s : NodeValues α} (h : Consistent s) :
    ∀ idx, idx < s.rows_ → ∀ info ∈ (GetNodeInfo s idx).getD [],
      (nodeEntry s.nodes_ info).isSome := by
  intro idx hidx info hinfo
  obtain ⟨v, hv⟩ := h idx hidx
  rw [hv info hinfo]
  rfl

theorem Init_consistent {α : Type} [Zero α] {node : Node α} {infos : List PolyInfo}
    {s : NodeValues α} {vel : List α} (h : Init node infos = some s)
    (hvel : node[kVel]? = some vel) (hdim : vel.length = s.n_dim_) : Consistent s := by
  obtain ⟨hl, _, hp, hnodes, _, pos, hpos, hn⟩ := Init_spec h
  intro idx hidx
  have hnpos := hl.n_dim_pos hidx
  have hd2 : decodeDeriv s.n_dim_ idx < 2 := decodeDeriv_lt_two hnpos
  have hdim2 : decodeDim s.n_dim_ idx < s.n_dim_ := decodeDim_lt hnpos
  have key : ∃ v, (node[decodeDeriv s.n_dim_ idx]?).bind
      (fun vec => vec[decodeDim s.n_dim_ idx]?) = some v := by
    have hcase : decodeDeriv s.n_dim_ idx = 0 ∨ decodeDeriv s.n_dim_ idx = 1 := by omega
    rcases hcase with h0 | h1
    · have hlt : decodeDim s.n_dim_ idx < pos.length := by omega
      refine ⟨pos[decodeDim s.n_dim_ idx], ?_⟩
      rw [h0]
      have : node[0]? = some pos := hpos
      rw [this]
      exact List.getElem?_eq_getElem hlt
    · have hlt : decodeDim s.n_dim_ idx < vel.length := by omega
      refine ⟨vel[decodeDim s.n_dim_ idx], ?_⟩
      rw [h1]
      have : node[1]? = some vel := hvel
      rw [this]
      exact List.getElem?_eq_getElem hlt
  obtain ⟨v, hv⟩ := key
  refine ⟨v, ?_⟩
  intro info hinfo
  obtain ⟨hid, _, hde, hdi⟩ := (mem_GetNodeInfo hl hidx info).mp hinfo
  unfold nodeEntry
  rw [hnodes, List.getElem?_replicate, hde, hdi]
  have : info.id_ < infos.length + 1 := by rw [hp] at hid; omega
  simp only [this, if_true, Option.some_bind]
  exact hv

theorem SetValues_entries {α : Type} {s s' : NodeValues α} {x : List α} (hl : Layout s)
    (hx : x.length = s.rows_) (hset : SetValues s x = some s') :
    (∀ idx, idx < s.rows_ → ∀ info ∈ (GetNodeInfo s idx).getD [],
      nodeEntry s'.nodes_ info = x[idx]?) ∧
    (∀ p, (∀ idx, idx < s.rows_ → p ∉ (GetNodeInfo s idx).getD []) →
      nodeEntry s'.nodes_ p = nodeEntry s.nodes_ p) := by
  obtain ⟨nodes', ps', h1, hfold, _, _, _⟩ := SetValues_some hset
  rw [hx] at hfold
  have := SetValues_loop_some hl x hx s.nodes_ s.rows_ (le_refl _) nodes' hfold
  subst h1
  exact this

theorem SetValues_returns {α : Type} {s : NodeValues α} (x : List α) (hl : Layout s)
    (hc : Consistent s) (hx : x.length = s.rows_) : ∃ s', SetValues s x = some s' := by
  obtain ⟨nk, hfold, hlen, _, _, _⟩ :=
    SetValues_loop_spec hl x hx s.nodes_ hc.valid s.rows_ (le_refl _)
  obtain ⟨ps', hu, _, _⟩ := UpdatePolynomials_spec ({ s with nodes_ := nk } : NodeValues α)
    (by simp only; rw [hlen, hl.nodes_len, hl.polys_len])
    (by simp only; rw [hl.times_len, hl.polys_len])
  refine ⟨{ s with nodes_ := nk, cubic_polys_ := ps' }, ?_⟩
  unfold SetValues
  rw [hx, hfold]
  exact hu

theorem Reachable_consistent {α : Type} [Zero α] [Div α] [IntCast α] {node : Node α}
    {infos : List PolyInfo} {s0 s : NodeValues α} {vel : List α}
    (h0 : Init node infos = some s0) (hvel : node[kVel]? = some vel)
    (hdim : vel.length = s0.n_dim_) (hr : Reachable s0 s) : Consistent s := by
  induction hr with
  | init => exact Init_consistent h0 hvel hdim
  | setValues s s' x hreach hx hset ih =>
    obtain ⟨hl, _⟩ := Reachable_layout h0 hreach
    have hx' : x.length = s.rows_ := hx
    obtain ⟨hent, _⟩ := SetValues_entries hl hx' hset
    obtain ⟨nodes', ps', h1, _⟩ := SetValues_some hset
    intro idx hidx
    have hg : GetNodeInfo s' idx = GetNodeInfo s idx := by
      subst h1
      rfl
    have hrows : s'.rows_ = s.rows_ := by
      subst h1
      rfl
    rw [hrows] at hidx
    have hlt : idx < x.length := by omega
    refine ⟨x[idx], ?_⟩
    intro info hinfo
    rw [hg] at hinfo
    rw [hent idx hidx info hinfo]
    exact List.getElem?_eq_getElem hlt
  | updateDurations s s' d hreach hupd ih =>
    obtain ⟨times', ps', h1, _⟩ := UpdateDurations_some hupd
    subst h1
    exact ih

theorem Reachable_agree {α : Type} [Zero α] [Div α] [IntCast α] {node : Node α}
    {infos : List PolyInfo} {s0 s : NodeValues α}
    (h0 : Init node infos = some s0) (hr : Reachable s0 s) : Agree s := by
  induction hr with
  | init => exact Init_agree h0
  | setValues s s' x hreach hx hset _ =>
    obtain ⟨hl, _⟩ := Reachable_layout h0 hreach
    have hx' : x.length = s.rows_ := hx
    obtain ⟨hent, _⟩ := SetValues_entries hl hx' hset
    obtain ⟨nodes', ps', h1, _⟩ := SetValues_some hset
    intro idx hidx
    have hg : GetNodeInfo s' idx = GetNodeInfo s idx := by
      subst h1
      rfl
    have hrows : s'.rows_ = s.rows_ := by
      subst h1
      rfl
    rw [hrows] at hidx
    refine ⟨x[idx]?, ?_⟩
    intro info hinfo
    rw [hg] at hinfo
    exact hent idx hidx info hinfo
  | updateDurations s s' d hreach hupd ih =>
    obtain ⟨times', ps', h1, _⟩ := UpdateDurations_some hupd
    subst h1
    exact ih

/-! ## Round trip of the optimization vector -/

/-- Claim C1. For a `NodeValues` initialized by `Init` from a node that holds a
position and a velocity vector of dimension `n_dim_`, in any state reached by
later calls, and for every vector `x` of `GetRows()` entries, `SetValues(x)`
returns and `GetValues()` then returns exactly `x`. -/
theorem SetValues_GetValues_roundtrip {α : Type} [Zero α] [Div α] [IntCast α]
    (node : Node α) (infos : List PolyInfo) (vel : List α) (s0 s : NodeValues α) (x : List α)
    (h0 : Init node infos = some s0) (hvel : node[kVel]? = some vel)
    (hdim : vel.length = s0.n_dim_) (hr : Reachable s0 s) (hx : x.length = GetRows s) :
    ∃ s', SetValues s x = some s' ∧ GetValues s' = some x := by
  obtain ⟨hl, _⟩ := Reachable_layout h0 hr
  have hc := Reachable_consistent h0 hvel hdim hr
  have hx' : x.length = s.rows_ := hx
  obtain ⟨s', hset⟩ := SetValues_returns x hl hc hx'
  obtain ⟨hl', _⟩ := Reachable_layout h0 (Reachable.setValues s s' x hr hx hset)
  obtain ⟨hent, _⟩ := SetValues_entries hl hx' hset
  obtain ⟨nodes', ps', h1, _⟩ := SetValues_some hset
  refine ⟨s', hset, ?_⟩
  have hrows : s'.rows_ = s.rows_ := by subst h1; rfl
  apply GetValues_spec hl' x (by rw [hrows]; exact hx')
  intro idx hidx info hinfo
  have hg : GetNodeInfo s' idx = GetNodeInfo s idx := by subst h1; rfl
  rw [hg] at hinfo
  rw [hrows] at hidx
  exact hent idx hidx info hinfo

/-- Claim C2. In every state reached from `Init` by calls of `SetValues` (with
`GetRows()` entries) and `UpdateDurations`, `SetValues` of the vector that
`GetValues()` returns gives back the very same state: every node, and the start
node, end node and duration held by every segment, are unchanged. `GetValues()`
does return when the initial node holds a velocity vector of dimension `n_dim_`. -/
theorem SetValues_of_GetValues_unchanged {α : Type} [Zero α] [Div α] [IntCast α]
    (node : Node α) (infos : List PolyInfo) (s0 s : NodeValues α)
    (h0 : Init node infos = some s0) (hr : Reachable s0 s) :
    (∀ x, GetValues s = some x → SetValues s x = some s) ∧
    (∀ vel, node[kVel]? = some vel → vel.length = s0.n_dim_ →
      ∃ x, GetValues s = some x) := by
  obtain ⟨hl, hfresh, _⟩ := Reachable_layout h0 hr
  refine ⟨?_, ?_⟩
  · intro x hget
    obtain ⟨hxl, hxe⟩ := GetValues_some hl (Reachable_agree h0 hr) hget
    unfold SetValues
    rw [hxl, SetValues_loop_same hl x hxl s.nodes_ hxe s.rows_ (le_refl _)]
    exact hfresh
  · intro vel hvel hdim
    have hc := Reachable_consistent h0 hvel hdim hr
    have hall : ∀ k, k ≤ s.rows_ → ∃ x : List α, x.length = k ∧
        ∀ idx, idx < k → ∀ info ∈ (GetNodeInfo s idx).getD [],
          nodeEntry s.nodes_ info = x[idx]? := by
      intro k
      induction k with
      | zero => intro _; exact ⟨[], rfl, by intro idx hidx; omega⟩
      | succ k ih =>
        intro hk
        obtain ⟨x, hxl, hxe⟩ := ih (by omega)
        obtain ⟨v, hv⟩ := hc k (by omega)
        refine ⟨x ++ [v], by simp [hxl], ?_⟩
        intro idx hidx info hinfo
        by_cases hik : idx = k
        · subst hik
          rw [hv info hinfo, List.getElem?_append_right (by omega)]
          simp [hxl]
        · rw [hxe idx (by omega) info hinfo, List.getElem?_append_left (by omega)]
    obtain ⟨x, hxl, hxe⟩ := hall s.rows_ (le_refl _)
    exact ⟨x, GetValues_spec hl x hxl hxe⟩

/-- Claim C5. Whenever `SetValues(x)` returns on an initialized `NodeValues`
(`x` of `GetRows()` entries), the start node and the end node of every constant
segment hold the same value in every position and velocity entry of every
dimension. `SetValues(x)` does return when the initial node holds a velocity
vector of dimension `n_dim_`. -/
theorem SetValues_constant_segment_nodes_equal {α : Type} [Zero α] [Div α] [IntCast α]
    (node : Node α) (infos : List PolyInfo) (s0 s : NodeValues α) (x : List α)
    (h0 : Init node infos = some s0) (hr : Reachable s0 s) (hx : x.length = GetRows s) :
    (∀ s', SetValues s x = some s' →
      ∀ i info, s'.polynomial_info_[i]? = some info → info.is_constant_ = true →
        ∀ deriv dim, deriv < 2 → dim < s'.n_dim_ →
          ∃ v, nodeEntry s'.nodes_ (NodeInfo.mk (GetNodeId i Side.Start) deriv dim) = some v ∧
            nodeEntry s'.nodes_ (NodeInfo.mk (GetNodeId i Side.End) deriv dim) = some v) ∧
    (∀ vel, node[kVel]? = some vel → vel.length = s0.n_dim_ →
      ∃ s', SetValues s x = some s') := by
  obtain ⟨hl, _, hp, _⟩ := Reachable_layout h0 hr
  have hx' : x.length = s.rows_ := hx
  refine ⟨?_, fun vel hvel hdim =>
    SetValues_returns x hl (Reachable_consistent h0 hvel hdim hr) hx'⟩
  intro s' hset
  obtain ⟨hent, _⟩ := SetValues_entries hl hx' hset
  obtain ⟨nodes', ps', h1, _⟩ := SetValues_some hset
  have hp' : s'.polynomial_info_ = s.polynomial_info_ := by subst h1; rfl
  have hn' : s'.n_dim_ = s.n_dim_ := by subst h1; rfl
  intro i info hi hconst deriv dim hderiv hdimlt
  rw [hp'] at hi
  rw [hn'] at hdimlt
  have hilt : i < s.polynomial_info_.length := (List.getElem?_eq_some_iff.mp hi).1
  have hsucc := blockOf_succ s.polynomial_info_ i info hi
  rw [hconst] at hsucc
  simp only [if_true, Nat.add_zero] at hsucc
  have hble : blockOf s.polynomial_info_ i ≤ blockOf s.polynomial_info_ s.polynomial_info_.length :=
    blockOf_mono _ (by omega)
  obtain ⟨d1, d2, d3⟩ := decode_compose (n := s.n_dim_) (b := blockOf s.polynomial_info_ i)
    hderiv hdimlt
  have hidx : blockOf s.polynomial_info_ i * (2 * s.n_dim_) + deriv * s.n_dim_ + dim
      < s.rows_ := by
    rw [hl.rows_eq]
    have hr2 : deriv * s.n_dim_ + dim < 2 * s.n_dim_ := by
      have : deriv = 0 ∨ deriv = 1 := by omega
      rcases this with rfl | rfl <;> omega
    calc blockOf s.polynomial_info_ i * (2 * s.n_dim_) + deriv * s.n_dim_ + dim
        < blockOf s.polynomial_info_ i * (2 * s.n_dim_) + 2 * s.n_dim_ := by omega
      _ = (blockOf s.polynomial_info_ i + 1) * (2 * s.n_dim_) := by rw [Nat.add_mul]; omega
      _ ≤ (blockOf s.polynomial_info_ s.polynomial_info_.length + 1) * (2 * s.n_dim_) :=
          Nat.mul_le_mul_right _ (by omega)
  have hlt : blockOf s.polynomial_info_ i * (2 * s.n_dim_) + deriv * s.n_dim_ + dim
      < x.length := by omega
  have hxs : x[blockOf s.polynomial_info_ i * (2 * s.n_dim_) + deriv * s.n_dim_ + dim]? =
      some x[blockOf s.polynomial_info_ i * (2 * s.n_dim_) + deriv * s.n_dim_ + dim] :=
    List.getElem?_eq_getElem hlt
  refine ⟨x[blockOf s.polynomial_info_ i * (2 * s.n_dim_) + deriv * s.n_dim_ + dim], ?_, ?_⟩
  · rw [← hxs]
    apply hent _ hidx
    rw [mem_GetNodeInfo hl hidx]
    rw [GetNodeId_Start]
    exact ⟨by simp only; omega, d1.symm, d2.symm, d3.symm⟩
  · rw [← hxs]
    apply hent _ hidx
    rw [mem_GetNodeInfo hl hidx]
    rw [GetNodeId_End]
    exact ⟨by simp only; omega, by simp only; rw [hsucc]; exact d1.symm, d2.symm, d3.symm⟩

/-! ## The mapping built by `SetNodeMappings` -/

theorem mapAt_SetNodeMappings_some {infos : List PolyInfo} {b : Nat} {l : List Nat}
    (h : mapAt (SetNodeMappings infos) b = some l) :
    b ≤ blockOf infos infos.length ∧ l = blockNodes infos (infos.length + 1) b := by
  rw [(SetNodeMappings_spec infos).2 b] at h
  by_cases hb : b ≤ blockOf infos infos.length
  · rw [if_pos hb] at h
    exact ⟨hb, (Option.some.inj h).symm⟩
  · rw [if_neg hb] at h
    exact absurd h (by simp)

theorem two_le_length_of_mem {l : List Nat} {a b : Nat} (ha : a ∈ l) (hb : b ∈ l)
    (hab : a ≠ b) : 1 < l.length := by
  match l, ha, hb with
  | [], ha, _ => simp at ha
  | [x], ha, hb =>
    simp only [List.mem_singleton] at ha hb
    exact absurd (ha.trans hb.symm) hab
  | _ :: _ :: _, _, _ => simp

theorem exists_pair_of_two_le_length {l : List Nat} (hn : l.Nodup) (h : 1 < l.length) :
    ∃ a b, a ∈ l ∧ b ∈ l ∧ a < b := by
  match l, hn, h with
  | [], _, h => simp at h
  | [_], _, h => simp at h
  | x :: y :: t, hn, _ =>
    have hxy : x ≠ y := by
      intro e
      subst e
      simp at hn
    rcases Nat.lt_or_gt_of_ne hxy with hlt | hgt
    · exact ⟨x, y, by simp, by simp, hlt⟩
    · exact ⟨y, x, by simp, by simp, hgt⟩

/-- Claim C3. After `SetNodeMappings` on a list of `N` segments the keys of
`opt_to_spline_` are distinct, every node id in `0..N` lies in exactly one
block, every id found in a block is in `0..N`, and it occurs there once. -/
theorem SetNodeMappings_partition (infos : List PolyInfo) :
    (mapKeys (SetNodeMappings infos)).Nodup ∧
    (∀ k, k ≤ infos.length →
      ∃! b, ∃ l, mapAt (SetNodeMappings infos) b = some l ∧ k ∈ l) ∧
    (∀ b l k, mapAt (SetNodeMappings infos) b = some l → k ∈ l →
      k ≤ infos.length ∧ l.count k = 1) := by
  refine ⟨?_, ?_, ?_⟩
  · rw [(SetNodeMappings_spec infos).1]
    exact List.nodup_range _
  · intro k hk
    have hb : blockOf infos k ≤ blockOf infos infos.length := blockOf_mono infos hk
    refine ⟨blockOf infos k, ⟨blockNodes infos (infos.length + 1) (blockOf infos k), ?_, ?_⟩, ?_⟩
    · rw [(SetNodeMappings_spec infos).2, if_pos hb]
    · exact (mem_blockNodes _ _ _ _).mpr ⟨by omega, rfl⟩
    · rintro b' ⟨l, hl, hkl⟩
      obtain ⟨_, rfl⟩ := mapAt_SetNodeMappings_some hl
      exact ((mem_blockNodes _ _ _ _).mp hkl).2.symm
  · intro b l k hl hkl
    obtain ⟨_, rfl⟩ := mapAt_SetNodeMappings_some hl
    refine ⟨?_, List.count_eq_one_of_mem (blockNodes_nodup _ _ _) hkl⟩
    have := ((mem_blockNodes _ _ _ _).mp hkl).1
    omega

/-- Claim C4. In an initialized `NodeValues`, the start node and the end node
of a segment lie in one block of `opt_to_spline_` exactly when the segment is
constant; and for an index below `GetRows()`, `GetNodeInfo` returns more than
one entry exactly when the block of the index holds both boundary nodes of some
constant segment. -/
theorem same_block_iff_constant {α : Type} [Zero α] [Div α] [IntCast α]
    (node : Node α) (infos : List PolyInfo) (s0 s : NodeValues α)
    (h0 : Init node infos = some s0) (hr : Reachable s0 s) :
    (∀ i info, s.polynomial_info_[i]? = some info →
      ((∃ b l, mapAt s.opt_to_spline_ b = some l ∧
          GetNodeId i Side.Start ∈ l ∧ GetNodeId i Side.End ∈ l) ↔
        info.is_constant_ = true)) ∧
    (∀ idx, idx < GetRows s → ∃ l, GetNodeInfo s idx = some l ∧
      (1 < l.length ↔
        ∃ i info ids, s.polynomial_info_[i]? = some info ∧ info.is_constant_ = true ∧
          mapAt s.opt_to_spline_ (idx / (2 * s.n_dim_)) = some ids ∧
          GetNodeId i Side.Start ∈ ids ∧ GetNodeId i Side.End ∈ ids)) := by
  obtain ⟨hl, _⟩ := Reachable_layout h0 hr
  have hconst : ∀ i info, s.polynomial_info_[i]? = some info →
      (blockOf s.polynomial_info_ (i + 1) = blockOf s.polynomial_info_ i ↔
        info.is_constant_ = true) := by
    intro i info hi
    rw [blockOf_succ _ i info hi]
    cases info.is_constant_ <;> simp
  refine ⟨?_, ?_⟩
  · intro i info hi
    have hilt : i < s.polynomial_info_.length := (List.getElem?_eq_some_iff.mp hi).1
    rw [hl.opt, GetNodeId_Start, GetNodeId_End, ← hconst i info hi]
    constructor
    · rintro ⟨b, l, hbl, h1, h2⟩
      obtain ⟨_, rfl⟩ := mapAt_SetNodeMappings_some hbl
      rw [((mem_blockNodes _ _ _ _).mp h1).2, ((mem_blockNodes _ _ _ _).mp h2).2]
    · intro heq
      have hb : blockOf s.polynomial_info_ i ≤
          blockOf s.polynomial_info_ s.polynomial_info_.length := blockOf_mono _ (by omega)
      refine ⟨blockOf s.polynomial_info_ i,
        blockNodes s.polynomial_info_ (s.polynomial_info_.length + 1)
          (blockOf s.polynomial_info_ i), ?_, ?_, ?_⟩
      · rw [(SetNodeMappings_spec _).2, if_pos hb]
      · exact (mem_blockNodes _ _ _ _).mpr ⟨by omega, rfl⟩
      · exact (mem_blockNodes _ _ _ _).mpr ⟨by omega, heq⟩
  · intro idx hidx
    have hidx' : idx < s.rows_ := hidx
    have hb := hl.block_le hidx'
    refine ⟨_, GetNodeInfo_spec hl hidx', ?_⟩
    rw [List.length_map, hl.opt, (SetNodeMappings_spec _).2]
    have hb' : idx / (2 * s.n_dim_) ≤
        blockOf s.polynomial_info_ s.polynomial_info_.length := hb
    rw [if_pos hb']
    constructor
    · intro hlen
      obtain ⟨a, b, ha, hbm, hab⟩ := exists_pair_of_two_le_length (blockNodes_nodup _ _ _) hlen
      obtain ⟨ha1, ha2⟩ := (mem_blockNodes _ _ _ _).mp ha
      obtain ⟨hb1, hb2⟩ := (mem_blockNodes _ _ _ _).mp hbm
      have halt : a < s.polynomial_info_.length := by omega
      have hm1 := blockOf_mono s.polynomial_info_ (Nat.le_succ a)
      have hm2 : blockOf s.polynomial_info_ (a + 1) ≤ blockOf s.polynomial_info_ b :=
        blockOf_mono s.polynomial_info_ hab
      have heq : blockOf s.polynomial_info_ (a + 1) = blockOf s.polynomial_info_ a := by
        simp only [Nat.succ_eq_add_one] at hm1
        omega
      have hget : s.polynomial_info_[a]? = some s.polynomial_info_[a] :=
        List.getElem?_eq_getElem halt
      refine ⟨a, s.polynomial_info_[a], _, hget, (hconst a _ hget).mp heq, rfl, ?_, ?_⟩
      · rw [GetNodeId_Start]
        exact ha
      · rw [GetNodeId_End]
        exact (mem_blockNodes _ _ _ _).mpr ⟨by omega, by rw [heq]; exact ha2⟩
    · rintro ⟨i, info, ids, _, _, hids, h1, h2⟩
      simp only [Option.some.injEq] at hids
      subst hids
      rw [GetNodeId_Start] at h1
      rw [GetNodeId_End] at h2
      exact two_le_length_of_mem h1 h2 (by omega)

/-- Claim C6. `Init` on any segment metadata and any node with a position
vector returns, and right after it `GetRows()` is the number of blocks of
`opt_to_spline_` times two times `n_dim_`, the number of blocks being one more
than the number of segments that are not constant. -/
theorem Init_rows (α : Type) [Zero α] (node : Node α) (infos : List PolyInfo)
    (pos : List α) (hpos : node[kPos]? = some pos) :
    ∃ s, Init node infos = some s ∧ s.n_dim_ = pos.length ∧
      GetRows s = s.opt_to_spline_.length * 2 * s.n_dim_ ∧
      s.opt_to_spline_.length = (infos.filter (fun info => !info.is_constant_)).length + 1 := by
  obtain ⟨s, hs⟩ := Init_some node infos pos hpos
  obtain ⟨hl, _, hp, _, _, pos', hpos', hn⟩ := Init_spec hs
  rw [hpos] at hpos'
  simp only [Option.some.injEq] at hpos'
  subst hpos'
  refine ⟨s, hs, hn, ?_, ?_⟩
  · unfold GetRows
    rw [hl.rows, hl.opt]
  · rw [hl.opt, SetNodeMappings_length, hp]
    simp [blockOf]

/-- Claim C7. For an initialized `NodeValues` and an index below `GetRows()`,
`GetNodeInfo(idx)` returns one entry per node id of the block
`idx / (2 n_dim_)`, in block order, each with the derivative kind
`(idx mod (2 n_dim_)) / n_dim_`, which is 0 or 1, and the dimension
`(idx mod (2 n_dim_)) - kind * n_dim_`, which is below `n_dim_`. -/
theorem GetNodeInfo_decode {α : Type} [Zero α] [Div α] [IntCast α]
    (node : Node α) (infos : List PolyInfo) (s0 s : NodeValues α) (idx : Nat)
    (h0 : Init node infos = some s0) (hr : Reachable s0 s) (hidx : idx < GetRows s) :
    ∃ ids, mapAt s.opt_to_spline_ (idx / (2 * s.n_dim_)) = some ids ∧
      GetNodeInfo s idx = some (ids.map fun node_id =>
        NodeInfo.mk node_id ((idx % (2 * s.n_dim_)) / s.n_dim_)
          (idx % (2 * s.n_dim_) - ((idx % (2 * s.n_dim_)) / s.n_dim_) * s.n_dim_)) ∧
      ((idx % (2 * s.n_dim_)) / s.n_dim_ = kPos ∨ (idx % (2 * s.n_dim_)) / s.n_dim_ = kVel) ∧
      idx % (2 * s.n_dim_) - ((idx % (2 * s.n_dim_)) / s.n_dim_) * s.n_dim_ < s.n_dim_ := by
  obtain ⟨hl, _⟩ := Reachable_layout h0 hr
  have hidx' : idx < s.rows_ := hidx
  have hn := hl.n_dim_pos hidx'
  have hb : idx / (2 * s.n_dim_) ≤ blockOf s.polynomial_info_ s.polynomial_info_.length :=
    hl.block_le hidx'
  refine ⟨blockNodes s.polynomial_info_ (s.polynomial_info_.length + 1)
    (idx / (2 * s.n_dim_)), ?_, GetNodeInfo_spec hl hidx', ?_, ?_⟩
  · rw [hl.opt, (SetNodeMappings_spec _).2, if_pos hb]
  · have h2 : decodeDeriv s.n_dim_ idx < 2 := decodeDeriv_lt_two hn
    unfold decodeDeriv at h2
    unfold kPos kVel
    generalize idx % (2 * s.n_dim_) / s.n_dim_ = g at h2 ⊢
    omega
  · have h3 : decodeDim s.n_dim_ idx < s.n_dim_ := decodeDim_lt hn
    exact h3


/-! ## `PhaseNodes` and `UpdateDurations` -/

theorem PhaseNodesLoop_eq (c : Bool) (n : Int) :
    ∀ (sched : List Bool) (i : Nat) (acc : List PolyInfo),
      PhaseNodesLoop c n sched i acc = acc ++ scheduleSegments c n sched i := by
  intro sched
  induction sched with
  | nil => intro i acc; simp [PhaseNodesLoop, scheduleSegments]
  | cons flag rest ih =>
    intro i acc
    by_cases hf : flag = c
    · simp [PhaseNodesLoop, scheduleSegments, phaseSegments, hf, ih]
    · simp [PhaseNodesLoop, scheduleSegments, phaseSegments, hf, ih]

theorem PhaseNodesInfos_eq (sched : List Bool) (c : Bool) (n : Int) :
    PhaseNodesInfos sched c n = scheduleSegments c n sched 0 := by
  simp [PhaseNodesInfos, PhaseNodesLoop_eq]

theorem phaseSegments_phase {c : Bool} {n : Int} {i : Nat} {flag : Bool} {info : PolyInfo}
    (h : info ∈ phaseSegments c n i flag) : info.phase_ = i := by
  unfold phaseSegments at h
  split at h
  · simp only [List.mem_singleton] at h
    rw [h]
  · simp only [List.mem_map, List.mem_range] at h
    obtain ⟨j, _, rfl⟩ := h
    rfl

theorem scheduleSegments_phase (c : Bool) (n : Int) :
    ∀ (sched : List Bool) (i : Nat) (info : PolyInfo),
      info ∈ scheduleSegments c n sched i → i ≤ info.phase_ ∧ info.phase_ < i + sched.length := by
  intro sched
  induction sched with
  | nil => intro i info h; simp [scheduleSegments] at h
  | cons flag rest ih =>
    intro i info h
    simp only [scheduleSegments, List.mem_append] at h
    rcases h with h | h
    · have := phaseSegments_phase h
      simp only [List.length_cons]
      omega
    · have := ih (i + 1) info h
      simp only [List.length_cons]
      omega

theorem take_succ_set {β : Type} (l : List β) (i : Nat) (v : β) (h : i < l.length) :
    (l.set i v).take (i + 1) = l.take i ++ [v] := by
  apply List.ext_getElem?
  intro j
  rw [List.getElem?_take]
  by_cases hj : j < i + 1
  · rw [if_pos hj, List.getElem?_set]
    by_cases hij : i = j
    · subst hij
      rw [List.getElem?_append_right (by simp)]
      simp [h, List.length_take, Nat.min_eq_left (Nat.le_of_lt h)]
    · rw [if_neg hij, List.getElem?_append_left (by simp; omega), List.getElem?_take]
      have : j < i := by omega
      simp [this]
  · rw [if_neg hj, List.getElem?_eq_none]
    simp
    omega

theorem UpdateDurationsLoop_spec {α : Type} [Zero α] [Div α] [IntCast α] (d : List α) :
    ∀ (infos : List PolyInfo) (i : Nat) (times : List α),
      times.length = i + infos.length → (∀ info ∈ infos, info.phase_ < d.length) →
      UpdateDurationsLoop d infos i times
        = some (times.take i ++ infos.map (segmentDuration d)) := by
  intro infos
  induction infos with
  | nil =>
    intro i times hlen _
    simp only [UpdateDurationsLoop, List.map_nil, List.append_nil]
    rw [List.take_of_length_le (by simp at hlen; omega)]
  | cons info rest ih =>
    intro i times hlen hph
    simp only [List.length_cons] at hlen
    have hlt : info.phase_ < d.length := hph info (by simp)
    have hd : d[info.phase_]? = some (d.getD info.phase_ 0) := by
      rw [List.getD_eq_getElem?_getD, List.getElem?_eq_getElem hlt]
      rfl
    have hi : i < times.length := by omega
    simp only [UpdateDurationsLoop, hd, Option.some_bind, hi, if_true]
    rw [ih (i + 1) _ (by simp; omega) (fun x hx => hph x (by simp [hx]))]
    rw [take_succ_set _ _ _ hi]
    simp [segmentDuration]

theorem zip_map_filter_sum {α : Type} [Zero α] [Add α] (infos : List PolyInfo)
    (g : PolyInfo → α) (p : Nat) :
    (((infos.zip (infos.map g)).filter (fun it => it.1.phase_ = p)).map (fun it => it.2)).sum
      = ((infos.filter (fun info => info.phase_ = p)).map g).sum := by
  induction infos with
  | nil => simp
  | cons a l ih =>
    simp only [List.map_cons, List.zip_cons_cons]
    by_cases h : a.phase_ = p
    · simp only [List.filter_cons, h, decide_True, if_true, List.map_cons, List.sum_cons]
      rw [ih]
    · simp only [List.filter_cons, h, decide_False, if_false, Bool.false_eq_true]
      exact ih

theorem phaseSegments_sum {α : Type} [Field α] [CharZero α] (d : List α) (c : Bool) (n : Int)
    (i : Nat) (flag : Bool) (h : flag = c ∨ 1 ≤ n) :
    ((phaseSegments c n i flag).map (segmentDuration d)).sum = d.getD i 0 := by
  unfold phaseSegments
  by_cases hf : flag = c
  · simp [hf, segmentDuration]
  · have hn : 1 ≤ n := by
      rcases h with h | h
      · exact absurd h hf
      · exact h
    simp only [hf, if_false, List.map_map]
    have hconst : (segmentDuration d ∘ fun j => PolyInfo.mk i j n false)
        = fun _ => d.getD i 0 / (n : α) := by
      funext j
      simp [segmentDuration]
    rw [hconst, List.map_const', List.sum_replicate, List.length_range, nsmul_eq_mul]
    have hcast : ((n.toNat : Nat) : α) = (n : α) := by
      have h1 : ((n.toNat : Nat) : Int) = n := Int.toNat_of_nonneg (by omega)
      have h2 : (((n.toNat : Nat) : Int) : α) = ((n.toNat : Nat) : α) := Int.cast_natCast _
      rw [← h2, h1]
    rw [hcast]
    have hne : (n : α) ≠ 0 := by
      have : n ≠ 0 := by omega
      exact_mod_cast this
    field_simp

theorem scheduleSegments_sum {α : Type} [Field α] [CharZero α] (d : List α) (c : Bool)
    (n : Int) :
    ∀ (sched : List Bool) (i p : Nat),
      (p < i → (((scheduleSegments c n sched i).filter (fun info => info.phase_ = p)).map
          (segmentDuration d)).sum = 0) ∧
      (i ≤ p → (sched[p - i]? = some c ∨ 1 ≤ n) → p < i + sched.length →
        (((scheduleSegments c n sched i).filter (fun info => info.phase_ = p)).map
          (segmentDuration d)).sum = d.getD p 0) := by
  have hnone : ∀ (sched : List Bool) (i p : Nat), p < i →
      (scheduleSegments c n sched i).filter (fun info => info.phase_ = p) = [] := by
    intro sched i p hp
    rw [List.filter_eq_nil_iff]
    intro info hinfo
    have := (scheduleSegments_phase c n sched i info hinfo).1
    simp only [decide_eq_true_eq]
    omega
  intro sched
  induction sched with
  | nil =>
    intro i p
    refine ⟨fun _ => by simp [scheduleSegments], fun h1 _ h3 => ?_⟩
    simp at h3
    omega
  | cons flag rest ih =>
    intro i p
    refine ⟨fun hp => by rw [hnone _ _ _ hp]; simp, fun h1 h2 h3 => ?_⟩
    simp only [scheduleSegments, List.filter_append, List.map_append, List.sum_append]
    by_cases hpi : p = i
    · subst hpi
      rw [hnone rest (p + 1) p (by omega)]
      have hall : (phaseSegments c n p flag).filter (fun info => info.phase_ = p)
          = phaseSegments c n p flag := by
        rw [List.filter_eq_self]
        intro info hinfo
        simp [phaseSegments_phase hinfo]
      rw [hall]
      simp only [List.map_nil, List.sum_nil, add_zero]
      apply phaseSegments_sum
      rcases h2 with h2 | h2
      · simp only [Nat.sub_self, List.getElem?_cons_zero, Option.some.injEq] at h2
        exact Or.inl h2
      · exact Or.inr h2
    · have hhead : (phaseSegments c n i flag).filter (fun info => info.phase_ = p) = [] := by
        rw [List.filter_eq_nil_iff]
        intro info hinfo
        simp only [decide_eq_true_eq]
        rw [phaseSegments_phase hinfo]
        exact fun e => hpi e.symm
      rw [hhead]
      simp only [List.map_nil, List.sum_nil, zero_add]
      apply (ih (i + 1) p).2 (by omega)
      · rcases h2 with h2 | h2
        · left
          have e : p - i = (p - (i + 1)) + 1 := by omega
          rw [e, List.getElem?_cons_succ] at h2
          exact h2
        · exact Or.inr h2
      · simp only [List.length_cons] at h3
        omega


/-- Claim C8, as the code has it: with a schedule `[swing]`, constant during
contact and zero polynomials per changing phase, the phase has no segment, so
after `UpdateDurations([1])` the durations of phase 0 sum to 0 and not to 1. -/
theorem UpdateDurations_phase_sum_counterexample :
    ∃ s s' : NodeValues ℚ,
      PhaseNodes ([[0], [0]] : Node ℚ) [false] true 0 = some s ∧
      UpdateDurations s [1] = some s' ∧
      ([1] : List ℚ)[0]? = some 1 ∧ s'.polynomial_info_ = [] ∧ phaseDuration s' 0 = 0 ∧
      phaseDuration s' 0 ≠ 1 := by
  refine ⟨_, _, rfl, rfl, rfl, rfl, rfl, ?_⟩
  have h : phaseDuration
      ({ n_dim_ := 1, polynomial_info_ := [], times_ := [], nodes_ := [[[0], [0]]],
         cubic_polys_ := [], opt_to_spline_ := [(0, [0])], rows_ := 2 } : NodeValues ℚ) 0
      = 0 := rfl
  intro hc
  have h1 : (0 : ℚ) = 1 := h.symm.trans hc
  exact absurd h1 (by norm_num)

/-- Claim C8, amended. For a `PhaseNodes` and a duration vector with one entry
per phase, `UpdateDurations(d)` returns, and for every phase `p` that is
constant, and for every phase when the number of polynomials per changing phase
is at least one, the durations of the segments of `p` sum to `d[p]`. -/
theorem UpdateDurations_phase_sum {α : Type} [Field α] [CharZero α] (node : Node α)
    (schedule : List Bool) (c : Bool) (n : Int) (d : List α) (s0 s : NodeValues α)
    (h0 : PhaseNodes node schedule c n = some s0) (hr : Reachable s0 s)
    (hd : d.length = schedule.length) :
    ∃ s', UpdateDurations s d = some s' ∧
      ∀ p dp, d[p]? = some dp → (schedule[p]? = some c ∨ 1 ≤ n) →
        phaseDuration s' p = dp := by
  unfold PhaseNodes at h0
  obtain ⟨hl, _, hp, _⟩ := Reachable_layout h0 hr
  have hphase : ∀ info ∈ s.polynomial_info_, info.phase_ < d.length := by
    intro info hinfo
    rw [hp, PhaseNodesInfos_eq] at hinfo
    have := (scheduleSegments_phase c n schedule 0 info hinfo).2
    omega
  have hloop := UpdateDurationsLoop_spec d s.polynomial_info_ 0 s.times_
    (by rw [hl.times_len]; omega) hphase
  simp only [List.take_zero, List.nil_append] at hloop
  obtain ⟨ps', hu, _, _⟩ := UpdatePolynomials_spec
    ({ s with times_ := s.polynomial_info_.map (segmentDuration d) } : NodeValues α)
    (by simp only; rw [hl.nodes_len, hl.polys_len])
    (by simp only; rw [List.length_map, hl.polys_len])
  refine ⟨{ s with times_ := s.polynomial_info_.map (segmentDuration d), cubic_polys_ := ps' },
    ?_, ?_⟩
  · unfold UpdateDurations
    rw [hloop]
    exact hu
  · intro p dp hdp hcase
    have hplt : p < d.length := (List.getElem?_eq_some_iff.mp hdp).1
    unfold phaseDuration
    simp only
    rw [zip_map_filter_sum, hp, PhaseNodesInfos_eq]
    rw [(scheduleSegments_sum d c n schedule 0 p).2 (Nat.zero_le _) (by simpa using hcase)
      (by omega)]
    rw [List.getD_eq_getElem?_getD, hdp]
    rfl


/-! ## Jacobian -/

theorem foldlM_invariant {β γ : Type} (P : γ → Prop) (f : γ → β → Option γ) :
    ∀ (l : List β) (b0 : γ), (∀ b a, a ∈ l → P b → ∃ b', f b a = some b' ∧ P b') → P b0 →
      ∃ b', l.foldlM f b0 = some b' ∧ P b' := by
  intro l
  induction l with
  | nil => intro b0 _ h0; exact ⟨b0, by simp, h0⟩
  | cons a l ih =>
    intro b0 hstep h0
    obtain ⟨b1, h1, hP1⟩ := hstep b0 a (by simp) h0
    obtain ⟨b', h2, hP2⟩ := ih b1 (fun b x hx hb => hstep b x (by simp [hx]) hb) hP1
    exact ⟨b', by rw [List.foldlM_cons, h1]; exact h2, hP2⟩

theorem GetJacobianSide_shape {α : Type} [Zero α] [Add α] {s : NodeValues α} (hl : Layout s)
    (GetDerivativeOf : PolyType α → Nat → Side → Nat → α → α) (poly_id : Nat) (t_local : α)
    (dxdt : Nat) (hpoly : poly_id < s.polynomial_info_.length) {idx : Nat}
    (hidx : idx < s.rows_) {info : NodeInfo} (hinfo : info ∈ (GetNodeInfo s idx).getD [])
    (jac : Jacobian α) (side : Side) (hj : JacobianShape s poly_id jac) :
    ∃ jac', GetJacobianSide s GetDerivativeOf poly_id t_local dxdt idx info jac side = some jac' ∧
      JacobianShape s poly_id jac' := by
  obtain ⟨hrows, hcols, hzero⟩ := hj
  unfold GetJacobianSide
  by_cases hnode : GetNodeId poly_id side = info.id_
  · have hplt : poly_id < s.cubic_polys_.length := by rw [hl.polys_len]; exact hpoly
    have hp : s.cubic_polys_[poly_id]? = some s.cubic_polys_[poly_id] :=
      List.getElem?_eq_getElem hplt
    obtain ⟨_, _, _, hdim⟩ := (mem_GetNodeInfo hl hidx info).mp hinfo
    have hdimlt : info.dim_ < jac.rows := by
      rw [hrows, hdim]
      exact decodeDim_lt (hl.n_dim_pos hidx)
    have hidxlt : idx < jac.cols := by rw [hcols]; exact hidx
    simp only [hnode, if_true, hp, Option.some_bind, Jacobian.coeffAdd, hdimlt, hidxlt,
      and_self]
    refine ⟨_, rfl, hrows, hcols, ?_⟩
    intro r c hnot
    have hne : ¬ (r = info.dim_ ∧ c = idx) := by
      rintro ⟨rfl, rfl⟩
      apply hnot
      refine ⟨hidx, hdim, info, hinfo, ?_⟩
      cases side
      · exact Or.inl hnode.symm
      · exact Or.inr hnode.symm
    simp only [hne, if_false]
    exact hzero r c hnot
  · simp only [hnode, if_false]
    exact ⟨jac, rfl, hrows, hcols, hzero⟩

theorem GetJacobianAt_shape {α : Type} [Zero α] [Add α] {s : NodeValues α} (hl : Layout s)
    (GetDerivativeOf : PolyType α → Nat → Side → Nat → α → α) (poly_id : Nat) (t_local : α)
    (dxdt : Nat) (hpoly : poly_id < s.polynomial_info_.length) {idx : Nat}
    (hidx : idx < s.rows_) (jac : Jacobian α) (hj : JacobianShape s poly_id jac) :
    ∃ jac', GetJacobianAt s GetDerivativeOf poly_id t_local dxdt jac idx = some jac' ∧
      JacobianShape s poly_id jac' := by
  unfold GetJacobianAt
  rw [GetNodeInfo_eq_some hl hidx]
  simp only [Option.some_bind]
  apply foldlM_invariant (JacobianShape s poly_id) _ _ jac _ hj
  intro b info hinfo hb
  apply foldlM_invariant (JacobianShape s poly_id) _ _ b _ hb
  intro b' side _ hb'
  exact GetJacobianSide_shape hl GetDerivativeOf poly_id t_local dxdt hpoly hidx hinfo b' side hb'

/-- Claim C9. For an initialized `NodeValues` and a segment id `poly_id`,
`GetJacobian(poly_id, t_local, dxdt)` returns an `n_dim_` by `GetRows()` matrix
whose entry at row `r` and column `idx` is zero whenever the block of `idx`
holds neither the start node nor the end node of the segment, and whenever `r`
is not the dimension decoded from `idx`. -/
theorem GetJacobian_zero_entries {α : Type} [Zero α] [Add α] [Div α] [IntCast α]
    (node : Node α) (infos : List PolyInfo) (s0 s : NodeValues α)
    (GetDerivativeOf : PolyType α → Nat → Side → Nat → α → α) (poly_id : Nat) (t_local : α)
    (dxdt : Nat) (h0 : Init node infos = some s0) (hr : Reachable s0 s)
    (hpoly : poly_id < s.polynomial_info_.length) :
    ∃ jac, GetJacobian s GetDerivativeOf poly_id t_local dxdt = some jac ∧
      jac.rows = s.n_dim_ ∧ jac.cols = GetRows s ∧
      ∀ r idx, idx < GetRows s →
        ((∀ ids, mapAt s.opt_to_spline_ (idx / (2 * s.n_dim_)) = some ids →
            GetNodeId poly_id Side.Start ∉ ids ∧ GetNodeId poly_id Side.End ∉ ids) ∨
          r ≠ idx % (2 * s.n_dim_) - ((idx % (2 * s.n_dim_)) / s.n_dim_) * s.n_dim_) →
        jac.coeff r idx = 0 := by
  obtain ⟨hl, _⟩ := Reachable_layout h0 hr
  have hstart : JacobianShape s poly_id (Jacobian.Zero s.n_dim_ (GetRows s) : Jacobian α) :=
    ⟨rfl, rfl, fun _ _ _ => rfl⟩
  obtain ⟨jac, hjac, hrows, hcols, hzero⟩ :=
    foldlM_invariant (JacobianShape s poly_id)
      (GetJacobianAt s GetDerivativeOf poly_id t_local dxdt)
      (List.range (GetRows s)) (Jacobian.Zero s.n_dim_ (GetRows s))
      (fun b idx hidx hb =>
        GetJacobianAt_shape hl GetDerivativeOf poly_id t_local dxdt hpoly
          (List.mem_range.mp hidx) b hb)
      hstart
  refine ⟨jac, hjac, hrows, hcols, ?_⟩
  intro r idx hidx hcase
  apply hzero
  rintro ⟨_, hr', info, hinfo, hid⟩
  have hidx' : idx < s.rows_ := hidx
  rcases hcase with hblock | hrow
  · have hb : idx / (2 * s.n_dim_) ≤ blockOf s.polynomial_info_ s.polynomial_info_.length :=
      hl.block_le hidx'
    have hat : mapAt s.opt_to_spline_ (idx / (2 * s.n_dim_)) =
        some (blockNodes s.polynomial_info_ (s.polynomial_info_.length + 1)
          (idx / (2 * s.n_dim_))) := by
      rw [hl.opt, (SetNodeMappings_spec _).2, if_pos hb]
    obtain ⟨hn1, hn2⟩ := hblock _ hat
    obtain ⟨hle, hbk, _, _⟩ := (mem_GetNodeInfo hl hidx' info).mp hinfo
    have hmem : info.id_ ∈ blockNodes s.polynomial_info_ (s.polynomial_info_.length + 1)
        (idx / (2 * s.n_dim_)) := (mem_blockNodes _ _ _ _).mpr ⟨by omega, hbk⟩
    rcases hid with hid | hid
    · rw [hid] at hmem
      exact hn1 hmem
    · rw [hid] at hmem
      exact hn2 hmem
  · exact hrow hr'


/-! ## Bounds of `EEMotionNodes` -/

theorem EEMotionGetBoundsAt_spec {α : Type} {s : NodeValues α} (hl : Layout s) {k : Nat}
    (hk : k < s.rows_) :
    EEMotionGetBoundsAt s
        ((List.range s.rows_).map fun idx => if idx < k then EEMotionBound s idx else kNoBound_) k
      = some ((List.range s.rows_).map fun idx =>
          if idx < k + 1 then EEMotionBound s idx else kNoBound_) := by
  have hset : ∀ v : Bound, v = EEMotionBound s k →
      ((List.range s.rows_).map fun idx =>
          if idx < k then EEMotionBound s idx else kNoBound_).set k v
        = (List.range s.rows_).map fun idx =>
          if idx < k + 1 then EEMotionBound s idx else kNoBound_ := by
    intro v hv
    apply List.ext_getElem?
    intro j
    rw [List.getElem?_set, List.getElem?_map, List.getElem?_map]
    by_cases hjk : k = j
    · subst hjk
      simp [hk, hv, List.getElem?_range hk]
    · simp only [hjk, if_false]
      by_cases hj : j < s.rows_
      · rw [List.getElem?_range hj]
        have : (j < k) ↔ (j < k + 1) := by omega
        simp only [Option.map_some', this]
      · rw [List.getElem?_eq_none (by simp; omega)]
        rfl
  have hkeep : EEMotionBound s k = kNoBound_ →
      ((List.range s.rows_).map fun idx =>
          if idx < k then EEMotionBound s idx else kNoBound_)
        = (List.range s.rows_).map fun idx =>
          if idx < k + 1 then EEMotionBound s idx else kNoBound_ := by
    intro hv
    apply List.map_congr_left
    intro j _
    by_cases hjk : j = k
    · subst hjk
      simp [hv]
    · have : (j < k) ↔ (j < k + 1) := by omega
      simp only [this]
  unfold EEMotionGetBoundsAt
  rw [GetNodeInfo_eq_some hl hk]
  simp only [Option.some_bind, beq_iff_eq]
  by_cases hlen : ((GetNodeInfo s k).getD []).length = 2
  · have h0lt : 0 < ((GetNodeInfo s k).getD []).length := by omega
    have h0 : ((GetNodeInfo s k).getD [])[0]? = some ((GetNodeInfo s k).getD [])[0] :=
      List.getElem?_eq_getElem h0lt
    obtain ⟨_, _, hde, hdi⟩ := (mem_GetNodeInfo hl hk _).mp (List.getElem_mem h0lt)
    simp only [hlen, if_true, h0, Option.some_bind, hde, hdi]
    by_cases hA : decodeDeriv s.n_dim_ k = kVel
    · have hv : kEqualityBound_ = EEMotionBound s k := by
        unfold EEMotionBound
        rw [if_pos ⟨hlen, Or.inl hA⟩]
      by_cases hB : decodeDim s.n_dim_ k = Z
      · simp only [hA, hB, if_true, List.set_set]
        rw [hset _ hv]
      · simp only [hA, hB, if_true, if_false]
        rw [hset _ hv]
    · by_cases hB : decodeDim s.n_dim_ k = Z
      · have hv : kEqualityBound_ = EEMotionBound s k := by
          unfold EEMotionBound
          rw [if_pos ⟨hlen, Or.inr hB⟩]
        simp only [hA, hB, if_true, if_false]
        rw [hset _ hv]
      · have hv : EEMotionBound s k = kNoBound_ := by
          unfold EEMotionBound
          rw [if_neg]
          rintro ⟨_, h | h⟩
          · exact hA h
          · exact hB h
        simp only [hA, hB, if_false]
        rw [hkeep hv]
  · have hv : EEMotionBound s k = kNoBound_ := by
      unfold EEMotionBound
      rw [if_neg]
      rintro ⟨h, _⟩
      exact hlen h
    simp only [hlen, if_false]
    rw [hkeep hv]

theorem EEMotionGetBounds_spec {α : Type} {s : NodeValues α} (hl : Layout s) :
    EEMotionGetBounds s = some ((List.range s.rows_).map fun idx => EEMotionBound s idx) := by
  have hloop : ∀ k, k ≤ s.rows_ →
      (List.range k).foldlM (EEMotionGetBoundsAt s) (List.replicate s.rows_ kNoBound_)
        = some ((List.range s.rows_).map fun idx =>
            if idx < k then EEMotionBound s idx else kNoBound_) := by
    intro k
    induction k with
    | zero =>
      intro _
      simp only [List.range_zero, List.foldlM_nil, Option.pure_def, Option.some.injEq]
      apply List.ext_getElem?
      intro j
      rw [List.getElem?_replicate, List.getElem?_map]
      by_cases hj : j < s.rows_
      · simp [hj, List.getElem?_range hj]
      · rw [if_neg hj, List.getElem?_eq_none (by simp; omega)]
        rfl
    | succ k ih =>
      intro hk
      rw [List.range_succ, List.foldlM_append, ih (by omega)]
      simp only [List.foldlM_cons, List.foldlM_nil, Option.pure_def, Option.bind_eq_bind,
        Option.some_bind]
      rw [EEMotionGetBoundsAt_spec hl (by omega)]
      rfl
  unfold EEMotionGetBounds GetRows
  simp only [List.length_replicate]
  rw [hloop s.rows_ (le_refl _)]
  congr 1
  apply List.map_congr_left
  intro j hj
  simp [List.mem_range.mp hj]

/-- Claim C10 at the failing input. For the schedule `[contact, contact]` the
single block holds three nodes, the test `size() == 2` is false for this planted
foot, and the velocity entry at index 3, which maps to more than one node, keeps
`kNoBound_`; for the schedule `[contact]`, where the block holds two nodes, the
same code pins the velocity entry at index 3 to the equality bound. -/
theorem EEMotionGetBounds_velocity_three_nodes :
    (∃ (s : NodeValues Int) (infos : List NodeInfo) (bounds : List Bound),
      EEMotionNodes ([[0, 0, 0], [0, 0, 0]] : Node Int) [true, true] 1 = some s ∧
      3 < GetRows s ∧ GetNodeInfo s 3 = some infos ∧ 1 < infos.length ∧
      (∀ info ∈ infos, info.deriv_ = kVel) ∧
      EEMotionGetBounds s = some bounds ∧ bounds[3]? = some kNoBound_ ∧
      kNoBound_ ≠ kEqualityBound_) ∧
    (∃ (s : NodeValues Int) (infos : List NodeInfo) (bounds : List Bound),
      EEMotionNodes ([[0, 0, 0], [0, 0, 0]] : Node Int) [true] 1 = some s ∧
      3 < GetRows s ∧ GetNodeInfo s 3 = some infos ∧ infos.length = 2 ∧
      (∀ info ∈ infos, info.deriv_ = kVel) ∧
      EEMotionGetBounds s = some bounds ∧ bounds[3]? = some kEqualityBound_) := by
  refine ⟨⟨_, _, _, rfl, by decide, rfl, by decide, by decide, rfl, rfl, by decide⟩,
    ⟨_, _, _, rfl, by decide, rfl, by decide, by decide, rfl, rfl⟩⟩

/-! ## The theorems at concrete inputs -/

/-- The round trip on the example state, with a vector of eight entries. -/
theorem SetValues_GetValues_roundtrip_witness :
    Init exampleNode exampleInfos = some exampleState ∧
    ∃ s', SetValues exampleState [10, 20, 30, 40, 50, 60, 70, 80] = some s' ∧
      GetValues s' = some [10, 20, 30, 40, 50, 60, 70, 80] :=
  ⟨by rfl, SetValues_GetValues_roundtrip exampleNode exampleInfos [3, 4] exampleState
    exampleState [10, 20, 30, 40, 50, 60, 70, 80] (by rfl) (by rfl) (by rfl) Reachable.init
    (by rfl)⟩

/-- Writing back the vector read from the example state leaves it as it is. -/
theorem SetValues_of_GetValues_unchanged_witness :
    Init exampleNode exampleInfos = some exampleState ∧
    (∀ x, GetValues exampleState = some x → SetValues exampleState x = some exampleState) ∧
    (∀ vel, exampleNode[kVel]? = some vel → vel.length = exampleState.n_dim_ →
      ∃ x, GetValues exampleState = some x) :=
  ⟨by rfl, SetValues_of_GetValues_unchanged exampleNode exampleInfos exampleState
    exampleState (by rfl) Reachable.init⟩

/-- The blocks of the example state against its constant segment. -/
theorem same_block_iff_constant_witness :
    Init exampleNode exampleInfos = some exampleState ∧
    ((∀ i info, exampleState.polynomial_info_[i]? = some info →
      ((∃ b l, mapAt exampleState.opt_to_spline_ b = some l ∧
          GetNodeId i Side.Start ∈ l ∧ GetNodeId i Side.End ∈ l) ↔
        info.is_constant_ = true)) ∧
    (∀ idx, idx < GetRows exampleState → ∃ l, GetNodeInfo exampleState idx = some l ∧
      (1 < l.length ↔
        ∃ i info ids, exampleState.polynomial_info_[i]? = some info ∧
          info.is_constant_ = true ∧
          mapAt exampleState.opt_to_spline_ (idx / (2 * exampleState.n_dim_)) = some ids ∧
          GetNodeId i Side.Start ∈ ids ∧ GetNodeId i Side.End ∈ ids))) :=
  ⟨by rfl, same_block_iff_constant exampleNode exampleInfos exampleState exampleState (by rfl)
    Reachable.init⟩

/-- The nodes of the constant segment of the example state after `SetValues`. -/
theorem SetValues_constant_segment_nodes_equal_witness :
    Init exampleNode exampleInfos = some exampleState ∧
    ([10, 20, 30, 40, 50, 60, 70, 80] : List Int).length = GetRows exampleState ∧
    (∀ s', SetValues exampleState [10, 20, 30, 40, 50, 60, 70, 80] = some s' →
      ∀ i info, s'.polynomial_info_[i]? = some info → info.is_constant_ = true →
        ∀ deriv dim, deriv < 2 → dim < s'.n_dim_ →
          ∃ v, nodeEntry s'.nodes_ (NodeInfo.mk (GetNodeId i Side.Start) deriv dim) = some v ∧
            nodeEntry s'.nodes_ (NodeInfo.mk (GetNodeId i Side.End) deriv dim) = some v) ∧
    (∀ vel, exampleNode[kVel]? = some vel → vel.length = exampleState.n_dim_ →
      ∃ s', SetValues exampleState [10, 20, 30, 40, 50, 60, 70, 80] = some s') :=
  ⟨by rfl, by rfl, SetValues_constant_segment_nodes_equal exampleNode exampleInfos exampleState
    exampleState [10, 20, 30, 40, 50, 60, 70, 80] (by rfl) Reachable.init (by rfl)⟩

/-- The row count right after `Init` on the example data. -/
theorem Init_rows_witness :
    exampleNode[kPos]? = some [1, 2] ∧
    ∃ s, Init exampleNode exampleInfos = some s ∧ s.n_dim_ = ([1, 2] : List Int).length ∧
      GetRows s = s.opt_to_spline_.length * 2 * s.n_dim_ ∧
      s.opt_to_spline_.length =
        (exampleInfos.filter (fun info => !info.is_constant_)).length + 1 :=
  ⟨by rfl, Init_rows Int exampleNode exampleInfos [1, 2] (by rfl)⟩

/-- The decoding of index 5 on the example state. -/
theorem GetNodeInfo_decode_witness :
    Init exampleNode exampleInfos = some exampleState ∧ 5 < GetRows exampleState ∧
    ∃ ids, mapAt exampleState.opt_to_spline_ (5 / (2 * exampleState.n_dim_)) = some ids ∧
      GetNodeInfo exampleState 5 = some (ids.map fun node_id =>
        NodeInfo.mk node_id ((5 % (2 * exampleState.n_dim_)) / exampleState.n_dim_)
          (5 % (2 * exampleState.n_dim_) -
            ((5 % (2 * exampleState.n_dim_)) / exampleState.n_dim_) * exampleState.n_dim_)) ∧
      ((5 % (2 * exampleState.n_dim_)) / exampleState.n_dim_ = kPos ∨
        (5 % (2 * exampleState.n_dim_)) / exampleState.n_dim_ = kVel) ∧
      5 % (2 * exampleState.n_dim_) -
        ((5 % (2 * exampleState.n_dim_)) / exampleState.n_dim_) * exampleState.n_dim_
        < exampleState.n_dim_ :=
  ⟨by rfl, by decide, GetNodeInfo_decode exampleNode exampleInfos exampleState exampleState 5
    (by rfl) Reachable.init (by decide)⟩

/-- The durations of a stance phase and of a swing phase of two segments. -/
theorem UpdateDurations_phase_sum_witness :
    ∃ s0 : NodeValues ℚ, PhaseNodes ([[0], [0]] : Node ℚ) [true, false] true 2 = some s0 ∧
      ([1, 3] : List ℚ).length = [true, false].length ∧
      ∃ s', UpdateDurations s0 [1, 3] = some s' ∧
        ∀ p dp, ([1, 3] : List ℚ)[p]? = some dp →
          ([true, false][p]? = some true ∨ (1 : Int) ≤ 2) → phaseDuration s' p = dp :=
  ⟨_, rfl, rfl, UpdateDurations_phase_sum ([[0], [0]] : Node ℚ) [true, false] true 2 [1, 3] _ _
    rfl Reachable.init rfl⟩

/-- The zero entries of the Jacobian of segment 1 of the example state. -/
theorem GetJacobian_zero_entries_witness :
    Init exampleNode exampleInfos = some exampleState ∧
    1 < exampleState.polynomial_info_.length ∧
    ∃ jac, GetJacobian exampleState (fun _ _ _ _ _ => 1) 1 0 0 = some jac ∧
      jac.rows = exampleState.n_dim_ ∧ jac.cols = GetRows exampleState ∧
      ∀ r idx, idx < GetRows exampleState →
        ((∀ ids, mapAt exampleState.opt_to_spline_ (idx / (2 * exampleState.n_dim_)) = some ids →
            GetNodeId 1 Side.Start ∉ ids ∧ GetNodeId 1 Side.End ∉ ids) ∨
          r ≠ idx % (2 * exampleState.n_dim_) -
            ((idx % (2 * exampleState.n_dim_)) / exampleState.n_dim_) * exampleState.n_dim_) →
        jac.coeff r idx = 0 :=
  ⟨by rfl, by decide, GetJacobian_zero_entries exampleNode exampleInfos exampleState exampleState
    (fun _ _ _ _ _ => 1) 1 0 0 (by rfl) Reachable.init (by decide)⟩

/-! ## Bounds of `EEMotionNodes`: the vertical axis and the one-phase schedule -/

theorem GetNodeInfo_eq_of_fields {α β : Type} (s : NodeValues α) (t : NodeValues β)
    (h1 : s.n_dim_ = t.n_dim_) (h2 : s.opt_to_spline_ = t.opt_to_spline_) (idx : Nat) :
    GetNodeInfo s idx = GetNodeInfo t idx := by
  simp [GetNodeInfo, h1, h2]

theorem EEMotionGetBounds_eq_of_fields {α β : Type} (s : NodeValues α) (t : NodeValues β)
    (h1 : s.n_dim_ = t.n_dim_) (h2 : s.opt_to_spline_ = t.opt_to_spline_)
    (h3 : s.rows_ = t.rows_) : EEMotionGetBounds s = EEMotionGetBounds t := by
  have hat : EEMotionGetBoundsAt s = EEMotionGetBoundsAt t := by
    funext bounds idx
    simp [EEMotionGetBoundsAt, GetNodeInfo_eq_of_fields s t h1 h2]
  simp [EEMotionGetBounds, GetRows, hat, h3]

/-- Claim C11, as the code has it: the rule of the vertical axis sits inside the
test `is_stance`, so for the schedule `[contact, swing]` the position-Z entry of
the swing node (index 8) keeps `kNoBound_`. -/
theorem EEMotionGetBounds_vertical_counterexample :
    ∃ (s : NodeValues Int) (infos : List NodeInfo) (bounds : List Bound),
      EEMotionNodes ([[0, 0, 0], [0, 0, 0]] : Node Int) [true, false] 1 = some s ∧
      8 < GetRows s ∧ GetNodeInfo s 8 = some infos ∧
      (∀ info ∈ infos, info.dim_ = Z) ∧
      EEMotionGetBounds s = some bounds ∧ bounds[8]? = some kNoBound_ ∧
      kNoBound_ ≠ kEqualityBound_ := by
  refine ⟨_, _, _, rfl, by decide, rfl, by decide, rfl, rfl, by decide⟩

/-- Claim C12. An `EEMotionNodes` built from the one-phase schedule `[contact]`
and a node with a position vector of three entries, for any number of splines
per swing phase, has in every later state six rows and the bounds: none for
position X and Y, equality for position Z and for velocity X, Y and Z. -/
theorem EEMotionGetBounds_single_stance_phase {α : Type} [Zero α] [Div α] [IntCast α]
    (node : Node α) (pos : List α) (splines_per_swing_phase : Int)
    (hpos : node[kPos]? = some pos) (hlen : pos.length = 3) :
    ∃ s0, EEMotionNodes node [true] splines_per_swing_phase = some s0 ∧
      ∀ s, Reachable s0 s →
        GetRows s = 6 ∧
        EEMotionGetBounds s = some [kNoBound_, kNoBound_, kEqualityBound_,
          kEqualityBound_, kEqualityBound_, kEqualityBound_] := by
  have hinfos : PhaseNodesInfos [true] true splines_per_swing_phase
      = [PolyInfo.mk 0 0 1 true] := by
    simp [PhaseNodesInfos, PhaseNodesLoop]
  obtain ⟨s0, h0⟩ := Init_some node
    (PhaseNodesInfos [true] true splines_per_swing_phase) pos hpos
  refine ⟨s0, h0, ?_⟩
  intro s hr
  obtain ⟨hl0, _, _, _, _, pos', hpos', hn0⟩ := Init_spec h0
  obtain ⟨hl, _, hp, hn, _, _⟩ := Reachable_layout h0 hr
  rw [hpos] at hpos'
  simp only [Option.some.injEq] at hpos'
  subst hpos'
  have hdim : s.n_dim_ = 3 := by rw [hn, hn0, hlen]
  have hopt : s.opt_to_spline_ = [(0, [0, 1])] := by
    rw [hl.opt, hp, hinfos]
    rfl
  have hrows : s.rows_ = 6 := by
    rw [hl.rows, hp, hinfos, hdim]
    rfl
  refine ⟨hrows, ?_⟩
  rw [EEMotionGetBounds_eq_of_fields s
    ({ n_dim_ := 3, polynomial_info_ := [], times_ := [], nodes_ := [], cubic_polys_ := [],
       opt_to_spline_ := [(0, [0, 1])], rows_ := 6 } : NodeValues Unit) hdim hopt hrows]
  rfl

/-- The bounds of the one-phase schedule for a node of dimension three. -/
theorem EEMotionGetBounds_single_stance_phase_witness :
    ([[0, 0, 0], [0, 0, 0]] : Node Int)[kPos]? = some [0, 0, 0] ∧
    ∃ s0, EEMotionNodes ([[0, 0, 0], [0, 0, 0]] : Node Int) [true] 2 = some s0 ∧
      ∀ s, Reachable s0 s →
        GetRows s = 6 ∧
        EEMotionGetBounds s = some [kNoBound_, kNoBound_, kEqualityBound_,
          kEqualityBound_, kEqualityBound_, kEqualityBound_] :=
  ⟨by rfl, EEMotionGetBounds_single_stance_phase ([[0, 0, 0], [0, 0, 0]] : Node Int)
    [0, 0, 0] 2 (by rfl) (by rfl)⟩

/-! ## Bounds of `EEForcesNodes` -/

theorem boundsMap_set (B : Nat → Bound) {rows k : Nat} (hk : k < rows) (v : Bound)
    (hv : v = B k) :
    ((List.range rows).map fun idx => if idx < k then B idx else kNoBound_).set k v
      = (List.range rows).map fun idx => if idx < k + 1 then B idx else kNoBound_ := by
  apply List.ext_getElem?
  intro j
  rw [List.getElem?_set, List.getElem?_map, List.getElem?_map]
  by_cases hjk : k = j
  · subst hjk
    simp [hk, hv, List.getElem?_range hk]
  · simp only [hjk, if_false]
    by_cases hj : j < rows
    · rw [List.getElem?_range hj]
      have : (j < k) ↔ (j < k + 1) := by omega
      simp only [Option.map_some', this]
    · rw [List.getElem?_eq_none (by simp; omega)]
      rfl

theorem boundsMap_keep (B : Nat → Bound) (rows : Nat) {k : Nat} (hv : B k = kNoBound_) :
    ((List.range rows).map fun idx => if idx < k then B idx else kNoBound_)
      = (List.range rows).map fun idx => if idx < k + 1 then B idx else kNoBound_ := by
  apply List.map_congr_left
  intro j _
  by_cases hjk : j = k
  · subst hjk
    simp [hv]
  · have : (j < k) ↔ (j < k + 1) := by omega
    simp only [this]

theorem EEForcesStanceBounds_spec (bounds : List Bound) (idx : Nat) (n0 : NodeInfo) :
    EEForcesStanceBounds bounds idx n0
        = bounds.set idx (stanceForceBound n0.deriv_ n0.dim_) ∨
      (stanceForceBound n0.deriv_ n0.dim_ = kNoBound_ ∧
        EEForcesStanceBounds bounds idx n0 = bounds) := by
  obtain ⟨_, D, M⟩ := n0
  simp only [EEForcesStanceBounds, stanceForceBound, kPos, kVel, X, Y, Z]
  by_cases hP : D = 0
  · subst hP
    by_cases hZ : M = 2
    · subst hZ
      left
      simp
    · by_cases hXY : M = 0 ∨ M = 1
      · left
        simp [hZ, hXY]
      · right
        simp [hZ, hXY]
  · by_cases hV : D = 1 ∧ M = 2
    · left
      simp [hP, hV]
    · right
      simp [hP, hV]

theorem EEForcesGetBoundsAt_spec {α : Type} {s : NodeValues α} (hl : Layout s) {k : Nat}
    (hk : k < s.rows_) :
    EEForcesGetBoundsAt s
        ((List.range s.rows_).map fun idx => if idx < k then EEForcesBound s idx else kNoBound_) k
      = some ((List.range s.rows_).map fun idx =>
          if idx < k + 1 then EEForcesBound s idx else kNoBound_) := by
  unfold EEForcesGetBoundsAt
  rw [GetNodeInfo_eq_some hl hk]
  simp only [Option.some_bind, beq_iff_eq]
  by_cases hlen : ((GetNodeInfo s k).getD []).length = 2
  · simp only [hlen, if_true]
    rw [boundsMap_set (EEForcesBound s) hk]
    unfold EEForcesBound
    rw [if_pos hlen]
  · have hne := GetNodeInfo_ne_nil hl hk
    obtain ⟨n0, rest, hcons⟩ := List.exists_cons_of_ne_nil hne
    have hmem : n0 ∈ (GetNodeInfo s k).getD [] := by rw [hcons]; simp
    obtain ⟨_, _, hde, hdi⟩ := (mem_GetNodeInfo hl hk n0).mp hmem
    have hhead : ((GetNodeInfo s k).getD []).head? = some n0 := by rw [hcons]; rfl
    simp only [hlen, if_false, hhead, Option.some_bind]
    have hB : EEForcesBound s k = stanceForceBound n0.deriv_ n0.dim_ := by
      unfold EEForcesBound
      rw [if_neg hlen, hde, hdi]
    rcases EEForcesStanceBounds_spec
      ((List.range s.rows_).map fun idx => if idx < k then EEForcesBound s idx else kNoBound_)
      k n0 with h | ⟨h1, h2⟩
    · rw [h, boundsMap_set (EEForcesBound s) hk _ hB.symm]
    · rw [h2, boundsMap_keep (EEForcesBound s) s.rows_ (hB.trans h1)]

theorem EEForcesGetBounds_spec {α : Type} {s : NodeValues α} (hl : Layout s) :
    EEForcesGetBounds s = some ((List.range s.rows_).map fun idx => EEForcesBound s idx) := by
  have hloop : ∀ k, k ≤ s.rows_ →
      (List.range k).foldlM (EEForcesGetBoundsAt s) (List.replicate s.rows_ kNoBound_)
        = some ((List.range s.rows_).map fun idx =>
            if idx < k then EEForcesBound s idx else kNoBound_) := by
    intro k
    induction k with
    | zero =>
      intro _
      simp only [List.range_zero, List.foldlM_nil, Option.pure_def, Option.some.injEq]
      apply List.ext_getElem?
      intro j
      rw [List.getElem?_replicate, List.getElem?_map]
      by_cases hj : j < s.rows_
      · simp [hj, List.getElem?_range hj]
      · rw [if_neg hj, List.getElem?_eq_none (by simp; omega)]
        rfl
    | succ k ih =>
      intro hk
      rw [List.range_succ, List.foldlM_append, ih (by omega)]
      simp only [List.foldlM_cons, List.foldlM_nil, Option.pure_def, Option.bind_eq_bind,
        Option.some_bind]
      rw [EEForcesGetBoundsAt_spec hl (by omega)]
      rfl
  unfold EEForcesGetBounds GetRows
  simp only [List.length_replicate]
  rw [hloop s.rows_ (le_refl _)]
  congr 1
  apply List.map_congr_left
  intro j hj
  simp [List.mem_range.mp hj]

theorem EEForcesGetBounds_eq_of_fields {α β : Type} (s : NodeValues α) (t : NodeValues β)
    (h1 : s.n_dim_ = t.n_dim_) (h2 : s.opt_to_spline_ = t.opt_to_spline_)
    (h3 : s.rows_ = t.rows_) : EEForcesGetBounds s = EEForcesGetBounds t := by
  have hat : EEForcesGetBoundsAt s = EEForcesGetBoundsAt t := by
    funext bounds idx
    simp [EEForcesGetBoundsAt, GetNodeInfo_eq_of_fields s t h1 h2]
  simp [EEForcesGetBounds, GetRows, hat, h3]


/-- Claim C13 at the failing input. For the schedule `[swing, swing]` the single
block holds three nodes, the test `size() == 2` is false, the branch commented
as stance runs, and the entry at index 0, which maps to more than one node, gets
the box `[-10000, 10000]`; for the schedule `[swing]`, where the block holds two
nodes, the same code pins the entry at index 0 to the equality bound. -/
theorem EEForcesGetBounds_swing_three_nodes :
    (∃ (s : NodeValues Int) (infos : List NodeInfo) (bounds : List Bound),
      EEForcesNodes ([[0, 0, 0], [0, 0, 0]] : Node Int) [false, false] 1 = some s ∧
      0 < GetRows s ∧ GetNodeInfo s 0 = some infos ∧ 1 < infos.length ∧
      EEForcesGetBounds s = some bounds ∧
      bounds[0]? = some ⟨some (-10000), some 10000⟩ ∧
      (⟨some (-10000), some 10000⟩ : Bound) ≠ kEqualityBound_) ∧
    (∃ (s : NodeValues Int) (infos : List NodeInfo) (bounds : List Bound),
      EEForcesNodes ([[0, 0, 0], [0, 0, 0]] : Node Int) [false] 1 = some s ∧
      0 < GetRows s ∧ GetNodeInfo s 0 = some infos ∧ infos.length = 2 ∧
      EEForcesGetBounds s = some bounds ∧ bounds[0]? = some kEqualityBound_) := by
  refine ⟨⟨_, _, _, rfl, by decide, rfl, by decide, rfl, rfl, by decide⟩,
    ⟨_, _, _, rfl, by decide, rfl, by decide, rfl, rfl⟩⟩

/-- Claim C14. For every `EEForcesNodes` and every index below `GetRows()` that
maps to exactly one node, `GetBounds()[idx]` is `[-10000, 10000]` for a position
entry of X or Y, `[0, 10000]` for a position entry of Z, the equality bound for a
velocity entry of Z and no bound for a velocity entry of X or Y. For the schedule
`[stance, swing, stance]` with one segment per stance phase and a node of
dimension three the eighteen bounds are those of a stance block, six equality
bounds for the swing block, and those of a stance block again. -/
theorem EEForcesGetBounds_single_node {α : Type} [Zero α] [Div α] [IntCast α]
    (node : Node α) (schedule : List Bool) (splines_per_stance_phase : Int)
    (s0 s : NodeValues α)
    (h0 : EEForcesNodes node schedule splines_per_stance_phase = some s0)
    (hr : Reachable s0 s) :
    (∃ bounds, EEForcesGetBounds s = some bounds ∧ bounds.length = GetRows s ∧
      ∀ idx info, idx < GetRows s → GetNodeInfo s idx = some [info] →
        (info.deriv_ = kPos → (info.dim_ = X ∨ info.dim_ = Y) →
          bounds[idx]? = some ⟨some (-10000), some 10000⟩) ∧
        (info.deriv_ = kPos → info.dim_ = Z → bounds[idx]? = some ⟨some 0, some 10000⟩) ∧
        (info.deriv_ = kVel → info.dim_ = Z → bounds[idx]? = some kEqualityBound_) ∧
        (info.deriv_ = kVel → (info.dim_ = X ∨ info.dim_ = Y) →
          bounds[idx]? = some kNoBound_)) ∧
    (∀ (force : Node α) (pos : List α), force[kPos]? = some pos → pos.length = 3 →
      ∃ t0, EEForcesNodes force [true, false, true] 1 = some t0 ∧
        ∀ t, Reachable t0 t →
          GetRows t = 18 ∧
          EEForcesGetBounds t = some
            [⟨some (-10000), some 10000⟩, ⟨some (-10000), some 10000⟩, ⟨some 0, some 10000⟩,
             kNoBound_, kNoBound_, kEqualityBound_,
             kEqualityBound_, kEqualityBound_, kEqualityBound_,
             kEqualityBound_, kEqualityBound_, kEqualityBound_,
             ⟨some (-10000), some 10000⟩, ⟨some (-10000), some 10000⟩, ⟨some 0, some 10000⟩,
             kNoBound_, kNoBound_, kEqualityBound_]) := by
  refine ⟨?_, ?_⟩
  · unfold EEForcesNodes PhaseNodes at h0
    obtain ⟨hl, _⟩ := Reachable_layout h0 hr
    refine ⟨_, EEForcesGetBounds_spec hl, by simp [GetRows], ?_⟩
    intro idx info hidx hinfos
    have hidx' : idx < s.rows_ := hidx
    have hmem : info ∈ (GetNodeInfo s idx).getD [] := by rw [hinfos]; simp
    obtain ⟨_, _, hde, hdi⟩ := (mem_GetNodeInfo hl hidx' info).mp hmem
    have hval : ((List.range s.rows_).map fun idx => EEForcesBound s idx)[idx]?
        = some (stanceForceBound info.deriv_ info.dim_) := by
      rw [List.getElem?_map, List.getElem?_range hidx']
      simp only [Option.map_some', Option.some.injEq]
      unfold EEForcesBound
      rw [hinfos, hde, hdi]
      simp
    rw [hval]
    refine ⟨?_, ?_, ?_, ?_⟩
    · intro h1 h2
      rcases h2 with h2 | h2 <;>
        simp [stanceForceBound, h1, h2, kPos, kVel, X, Y, Z, max_force]
    · intro h1 h2
      simp [stanceForceBound, h1, h2, kPos, kVel, X, Y, Z, max_force]
    · intro h1 h2
      simp [stanceForceBound, h1, h2, kPos, kVel, X, Y, Z]
    · intro h1 h2
      rcases h2 with h2 | h2 <;>
        simp [stanceForceBound, h1, h2, kPos, kVel, X, Y, Z]
  · intro force pos hpos hlen
    have hinfos : PhaseNodesInfos [true, false, true] false 1
        = [PolyInfo.mk 0 0 1 false, PolyInfo.mk 1 0 1 true, PolyInfo.mk 2 0 1 false] := by
      rfl
    obtain ⟨t0, ht0⟩ := Init_some force (PhaseNodesInfos [true, false, true] false 1) pos hpos
    refine ⟨t0, ht0, ?_⟩
    intro t hrt
    obtain ⟨_, _, _, _, _, pos', hpos', hn0⟩ := Init_spec ht0
    obtain ⟨hl, _, hp, hn, _, _⟩ := Reachable_layout ht0 hrt
    rw [hpos] at hpos'
    simp only [Option.some.injEq] at hpos'
    subst hpos'
    have hdim : t.n_dim_ = 3 := by rw [hn, hn0, hlen]
    have hopt : t.opt_to_spline_ = [(0, [0]), (1, [1, 2]), (2, [3])] := by
      rw [hl.opt, hp, hinfos]
      rfl
    have hrows : t.rows_ = 18 := by
      rw [hl.rows, hp, hinfos, hdim]
      rfl
    refine ⟨hrows, ?_⟩
    rw [EEForcesGetBounds_eq_of_fields t
      ({ n_dim_ := 3, polynomial_info_ := [], times_ := [], nodes_ := [], cubic_polys_ := [],
         opt_to_spline_ := [(0, [0]), (1, [1, 2]), (2, [3])], rows_ := 18 } : NodeValues Unit)
      hdim hopt hrows]
    rfl

/-- The bounds of the stance entries of a force with the schedule `[stance, swing]`. -/
theorem EEForcesGetBounds_single_node_witness :
    ∃ s0 : NodeValues Int,
      EEForcesNodes ([[0, 0, 0], [0, 0, 0]] : Node Int) [true, false] 2 = some s0 ∧
      ((∃ bounds, EEForcesGetBounds s0 = some bounds ∧ bounds.length = GetRows s0 ∧
        ∀ idx info, idx < GetRows s0 → GetNodeInfo s0 idx = some [info] →
          (info.deriv_ = kPos → (info.dim_ = X ∨ info.dim_ = Y) →
            bounds[idx]? = some ⟨some (-10000), some 10000⟩) ∧
          (info.deriv_ = kPos → info.dim_ = Z → bounds[idx]? = some ⟨some 0, some 10000⟩) ∧
          (info.deriv_ = kVel → info.dim_ = Z → bounds[idx]? = some kEqualityBound_) ∧
          (info.deriv_ = kVel → (info.dim_ = X ∨ info.dim_ = Y) →
            bounds[idx]? = some kNoBound_)) ∧
      (∀ (force : Node Int) (pos : List Int), force[kPos]? = some pos → pos.length = 3 →
        ∃ t0, EEForcesNodes force [true, false, true] 1 = some t0 ∧
          ∀ t, Reachable t0 t →
            GetRows t = 18 ∧
            EEForcesGetBounds t = some
              [⟨some (-10000), some 10000⟩, ⟨some (-10000), some 10000⟩, ⟨some 0, some 10000⟩,
               kNoBound_, kNoBound_, kEqualityBound_,
               kEqualityBound_, kEqualityBound_, kEqualityBound_,
               kEqualityBound_, kEqualityBound_, kEqualityBound_,
               ⟨some (-10000), some 10000⟩, ⟨some (-10000), some 10000⟩, ⟨some 0, some 10000⟩,
               kNoBound_, kNoBound_, kEqualityBound_])) :=
  ⟨_, rfl, EEForcesGetBounds_single_node ([[0, 0, 0], [0, 0, 0]] : Node Int)
    [true, false] 2 _ _ rfl Reachable.init⟩


/-! ## Construction: empty metadata and the metadata of `PhaseNodes` -/

/-- Claim C15, as the code has it: `Init` on an empty list of segments, and the
constructor of `PhaseNodes` on an empty schedule, return an object with one
node, no segment, one block and two rows; nothing aborts. -/
theorem Init_empty_counterexample :
    Init ([[1], [2]] : Node Int) [] =
      some { n_dim_ := 1, polynomial_info_ := [], times_ := [], nodes_ := [[[1], [2]]],
             cubic_polys_ := [], opt_to_spline_ := [(0, [0])], rows_ := 2 } ∧
    PhaseNodes ([[1], [2]] : Node Int) [] true 1 =
      some { n_dim_ := 1, polynomial_info_ := [], times_ := [], nodes_ := [[[1], [2]]],
             cubic_polys_ := [], opt_to_spline_ := [(0, [0])], rows_ := 2 } :=
  ⟨rfl, rfl⟩

/-- Claim C15, amended. `Init` on an empty list of segments, and the constructor
of `PhaseNodes` on an empty schedule, return an initialized object whenever the
initial node has a position vector: one node, no segment, the one block `{0}`
and `2 n_dim_` rows. They fail exactly when the position vector is missing. -/
theorem Init_empty (α : Type) [Zero α] (node : Node α) :
    (∀ pos, node[kPos]? = some pos →
      Init node [] =
        some { n_dim_ := pos.length, polynomial_info_ := [], times_ := [], nodes_ := [node],
               cubic_polys_ := [], opt_to_spline_ := [(0, [0])], rows_ := 2 * pos.length } ∧
      ∀ c n, PhaseNodes node [] c n = Init node []) ∧
    (node[kPos]? = none → Init node [] = none ∧ ∀ c n, PhaseNodes node [] c n = none) := by
  refine ⟨?_, ?_⟩
  · intro pos hpos
    refine ⟨?_, fun c n => rfl⟩
    simp [Init, hpos, UpdatePolynomials, UpdatePolynomialsLoop, SetNodeMappingsFrom,
      SetNodeMappingsLoop, mapPushBack]
  · intro hnone
    refine ⟨by simp [Init, hnone], fun c n => by simp [PhaseNodes, Init, hnone]⟩

theorem scheduleSegments_eq_flatMap (c : Bool) (n : Int) :
    ∀ (sched : List Bool) (i : Nat),
      scheduleSegments c n sched i =
        (sched.enumFrom i).flatMap (fun p =>
          if p.2 = c then [PolyInfo.mk p.1 0 1 true]
          else (List.range n.toNat).map (fun j => PolyInfo.mk p.1 j n false)) := by
  intro sched
  induction sched with
  | nil => intro i; simp [scheduleSegments]
  | cons flag rest ih =>
    intro i
    simp only [scheduleSegments, List.enumFrom_cons, List.flatMap_cons, ih (i + 1),
      phaseSegments]

/-- Claim C16. The segment metadata built by the constructor of `PhaseNodes` is
the concatenation, phase after phase, of one segment `(i, 0, 1, constant)` when
the flag of phase `i` equals the constant polarity `c`, and otherwise of the
segments `(i, j, n, not constant)` for `j = 0 .. n-1`; the object is `Init` on
this metadata; `EEMotionNodes` takes `c = true` and `EEForcesNodes` `c = false`. -/
theorem PhaseNodes_segments (α : Type) [Zero α] (node : Node α) (schedule : List Bool)
    (c : Bool) (n : Int) :
    PhaseNodesInfos schedule c n =
      schedule.enum.flatMap (fun p =>
        if p.2 = c then [PolyInfo.mk p.1 0 1 true]
        else (List.range n.toNat).map (fun j => PolyInfo.mk p.1 j n false)) ∧
    (∀ s, PhaseNodes node schedule c n = some s →
      s.polynomial_info_ = PhaseNodesInfos schedule c n) ∧
    EEMotionNodes node schedule n = PhaseNodes node schedule true n ∧
    EEForcesNodes node schedule n = PhaseNodes node schedule false n := by
  refine ⟨?_, ?_, rfl, rfl⟩
  · rw [PhaseNodesInfos_eq, scheduleSegments_eq_flatMap]
    rfl
  · intro s hs
    unfold PhaseNodes at hs
    exact (Init_spec hs).2.2.1

/-! ## Frame of the mutators and freshness of the segments -/

theorem UpdateDurations_returns {α : Type} [Zero α] [Div α] [IntCast α] {s : NodeValues α}
    (hl : Layout s) (d : List α) (hd : ∀ info ∈ s.polynomial_info_, info.phase_ < d.length) :
    ∃ s', UpdateDurations s d = some s' := by
  have hloop := UpdateDurationsLoop_spec d s.polynomial_info_ 0 s.times_
    (by rw [hl.times_len]; omega) hd
  simp only [List.take_zero, List.nil_append] at hloop
  obtain ⟨ps', hu, _, _⟩ := UpdatePolynomials_spec
    ({ s with times_ := s.polynomial_info_.map (segmentDuration d) } : NodeValues α)
    (by simp only; rw [hl.nodes_len, hl.polys_len])
    (by simp only; rw [List.length_map, hl.polys_len])
  refine ⟨{ s with times_ := s.polynomial_info_.map (segmentDuration d), cubic_polys_ := ps' },
    ?_⟩
  unfold UpdateDurations
  rw [hloop]
  exact hu

/-- Claim C17. After initialization, a call of `SetValues` (with `GetRows()`
entries) or of `UpdateDurations` that returns leaves the number of nodes, the
number of segments, `polynomial_info_`, `opt_to_spline_`, `n_dim_` and
`GetRows()` as they were; `SetValues` leaves `times_` and `UpdateDurations`
leaves `nodes_` as they were. `SetValues` returns when the initial node holds a
velocity vector of dimension `n_dim_`, and `UpdateDurations(d)` returns when
every phase index of the metadata is below the length of `d`. -/
theorem mutators_keep_topology {α : Type} [Zero α] [Div α] [IntCast α]
    (node : Node α) (infos : List PolyInfo) (s0 s : NodeValues α)
    (h0 : Init node infos = some s0) (hr : Reachable s0 s) :
    (∀ x s', x.length = GetRows s → SetValues s x = some s' →
      s'.nodes_.length = s.nodes_.length ∧ s'.cubic_polys_.length = s.cubic_polys_.length ∧
      s'.polynomial_info_ = s.polynomial_info_ ∧ s'.opt_to_spline_ = s.opt_to_spline_ ∧
      s'.n_dim_ = s.n_dim_ ∧ GetRows s' = GetRows s ∧ s'.times_ = s.times_) ∧
    (∀ d s', UpdateDurations s d = some s' →
      s'.nodes_.length = s.nodes_.length ∧ s'.cubic_polys_.length = s.cubic_polys_.length ∧
      s'.polynomial_info_ = s.polynomial_info_ ∧ s'.opt_to_spline_ = s.opt_to_spline_ ∧
      s'.n_dim_ = s.n_dim_ ∧ GetRows s' = GetRows s ∧ s'.nodes_ = s.nodes_) ∧
    (∀ vel x, node[kVel]? = some vel → vel.length = s0.n_dim_ → x.length = GetRows s →
      ∃ s', SetValues s x = some s') ∧
    (∀ d : List α, (∀ info ∈ infos, info.phase_ < d.length) →
      ∃ s', UpdateDurations s d = some s') := by
  obtain ⟨hl, _, hp, _⟩ := Reachable_layout h0 hr
  refine ⟨?_, ?_, ?_, ?_⟩
  · intro x s' _ hset
    obtain ⟨nodes', ps', h1, _, h2, h3, _⟩ := SetValues_some hset
    subst h1
    exact ⟨h2, h3, rfl, rfl, rfl, rfl, rfl⟩
  · intro d s' hupd
    obtain ⟨times', ps', h1, _, _, h3, _⟩ := UpdateDurations_some hupd
    subst h1
    exact ⟨rfl, h3, rfl, rfl, rfl, rfl, rfl⟩
  · intro vel x hvel hdim hx
    exact SetValues_returns x hl (Reachable_consistent h0 hvel hdim hr) hx
  · intro d hd
    exact UpdateDurations_returns hl d (by rw [hp]; exact hd)

/-- The frame of the two mutators on the example state. -/
theorem mutators_keep_topology_witness :
    Init exampleNode exampleInfos = some exampleState ∧
    ((∀ x s', x.length = GetRows exampleState → SetValues exampleState x = some s' →
      s'.nodes_.length = exampleState.nodes_.length ∧
      s'.cubic_polys_.length = exampleState.cubic_polys_.length ∧
      s'.polynomial_info_ = exampleState.polynomial_info_ ∧
      s'.opt_to_spline_ = exampleState.opt_to_spline_ ∧
      s'.n_dim_ = exampleState.n_dim_ ∧ GetRows s' = GetRows exampleState ∧
      s'.times_ = exampleState.times_) ∧
    (∀ d s', UpdateDurations exampleState d = some s' →
      s'.nodes_.length = exampleState.nodes_.length ∧
      s'.cubic_polys_.length = exampleState.cubic_polys_.length ∧
      s'.polynomial_info_ = exampleState.polynomial_info_ ∧
      s'.opt_to_spline_ = exampleState.opt_to_spline_ ∧
      s'.n_dim_ = exampleState.n_dim_ ∧ GetRows s' = GetRows exampleState ∧
      s'.nodes_ = exampleState.nodes_) ∧
    (∀ vel x, exampleNode[kVel]? = some vel → vel.length = exampleState.n_dim_ →
      x.length = GetRows exampleState → ∃ s', SetValues exampleState x = some s') ∧
    (∀ d : List Int, (∀ info ∈ exampleInfos, info.phase_ < d.length) →
      ∃ s', UpdateDurations exampleState d = some s')) :=
  ⟨by rfl, mutators_keep_topology exampleNode exampleInfos exampleState exampleState (by rfl)
    Reachable.init⟩

theorem UpdatePolynomialsLoop_fixed {α : Type} (nodes : List (Node α)) (times : List α) :
    ∀ (ps : List (PolyType α)) (i : Nat),
      UpdatePolynomialsLoop nodes times i ps = some ps →
      ∀ j, j < ps.length → ∃ p n0 n1 T, ps[j]? = some p ∧
        nodes[GetNodeId (i + j) Side.Start]? = some n0 ∧
        nodes[GetNodeId (i + j) Side.End]? = some n1 ∧ times[i + j]? = some T ∧
        p.boundary = some (n0, n1, T) := by
  intro ps
  induction ps with
  | nil => intro i _ j hj; simp at hj
  | cons p ps ih =>
    intro i h j hj
    simp only [UpdatePolynomialsLoop] at h
    cases e0 : nodes[GetNodeId i Side.Start]? with
    | none => simp [e0] at h
    | some n0 =>
      cases e1 : nodes[GetNodeId i Side.End]? with
      | none => simp [e0, e1] at h
      | some n1 =>
        cases e2 : times[i]? with
        | none => simp [e0, e1, e2] at h
        | some T =>
          cases e3 : UpdatePolynomialsLoop nodes times (i + 1) ps with
          | none => simp [e0, e1, e2, e3] at h
          | some rest =>
            simp only [e0, e1, e2, e3, Option.some_bind, Option.map_some',
              Option.some.injEq, List.cons.injEq] at h
            obtain ⟨hp, hrest⟩ := h
            subst hrest
            cases j with
            | zero =>
              refine ⟨p, n0, n1, T, by simp, e0, e1, e2, ?_⟩
              rw [← hp]
              rfl
            | succ j =>
              obtain ⟨q, m0, m1, U, hq, hm0, hm1, hU, hb⟩ :=
                ih (i + 1) e3 j (by simpa using hj)
              have e : i + (j + 1) = i + 1 + j := by omega
              refine ⟨q, m0, m1, U, by simpa using hq, ?_, ?_, ?_, hb⟩
              · rw [e]; exact hm0
              · rw [e]; exact hm1
              · rw [e]; exact hU

/-- Claim C18. In every state reached from `Init` by calls of `SetValues` and
`UpdateDurations` that return, the evaluator of every segment `i` holds exactly
the current start node `nodes_[i]`, the current end node `nodes_[i+1]` and the
current duration `times_[i]`. -/
theorem segments_hold_current_data {α : Type} [Zero α] [Div α] [IntCast α]
    (node : Node α) (infos : List PolyInfo) (s0 s : NodeValues α)
    (h0 : Init node infos = some s0) (hr : Reachable s0 s) :
    s.cubic_polys_.length = infos.length ∧
    ∀ i, i < infos.length → ∃ p n0 n1 T, s.cubic_polys_[i]? = some p ∧
      s.nodes_[GetNodeId i Side.Start]? = some n0 ∧
      s.nodes_[GetNodeId i Side.End]? = some n1 ∧ s.times_[i]? = some T ∧
      p.boundary = some (n0, n1, T) := by
  obtain ⟨hl, hfresh, hp, _⟩ := Reachable_layout h0 hr
  refine ⟨by rw [hl.polys_len, hp], ?_⟩
  intro i hi
  have hloop : UpdatePolynomialsLoop s.nodes_ s.times_ 0 s.cubic_polys_
      = some s.cubic_polys_ := by
    unfold UpdatePolynomials at hfresh
    cases e : UpdatePolynomialsLoop s.nodes_ s.times_ 0 s.cubic_polys_ with
    | none => simp [e] at hfresh
    | some ps =>
      simp only [e, Option.map_some', Option.some.injEq] at hfresh
      have := congrArg NodeValues.cubic_polys_ hfresh
      simp only at this
      rw [this]
  have := UpdatePolynomialsLoop_fixed s.nodes_ s.times_ s.cubic_polys_ 0 hloop i
    (by rw [hl.polys_len, hp]; exact hi)
  simpa using this

/-- The data held by the two segments of the example state. -/
theorem segments_hold_current_data_witness :
    Init exampleNode exampleInfos = some exampleState ∧
    exampleState.cubic_polys_.length = exampleInfos.length ∧
    ∀ i, i < exampleInfos.length → ∃ p n0 n1 T, exampleState.cubic_polys_[i]? = some p ∧
      exampleState.nodes_[GetNodeId i Side.Start]? = some n0 ∧
      exampleState.nodes_[GetNodeId i Side.End]? = some n1 ∧
      exampleState.times_[i]? = some T ∧ p.boundary = some (n0, n1, T) :=
  ⟨by rfl, segments_hold_current_data exampleNode exampleInfos exampleState exampleState
    (by rfl) Reachable.init⟩


/-! ## Entries of the Jacobian -/

theorem Jacobian.mapEntry_id {α : Type} (jac : Jacobian α) (d idx : Nat) :
    jac.mapEntry d idx (fun v => v) = jac := by
  unfold Jacobian.mapEntry
  have : (fun r c => if r = d ∧ c = idx then jac.coeff r c else jac.coeff r c) = jac.coeff := by
    funext r c
    split <;> rfl
  rw [this]

theorem Jacobian.mapEntry_mapEntry {α : Type} (jac : Jacobian α) (d idx : Nat) (f g : α → α) :
    (jac.mapEntry d idx f).mapEntry d idx g = jac.mapEntry d idx (fun v => g (f v)) := by
  unfold Jacobian.mapEntry
  simp only [Jacobian.mk.injEq, true_and]
  funext r c
  by_cases h : r = d ∧ c = idx <;> simp [h]

theorem GetJacobianSide_entry {α : Type} [Add α] (s : NodeValues α)
    (GetDerivativeOf : PolyType α → Nat → Side → Nat → α → α) (poly_id : Nat) (t_local : α)
    (dxdt : Nat) (p : PolyType α) (hp : s.cubic_polys_[poly_id]? = some p) (idx : Nat)
    (info : NodeInfo) (jac : Jacobian α) (hd : info.dim_ < jac.rows) (hc : idx < jac.cols)
    (side : Side) :
    GetJacobianSide s GetDerivativeOf poly_id t_local dxdt idx info jac side =
      some (jac.mapEntry info.dim_ idx
        (fun v => jacobianSideValue (GetDerivativeOf p dxdt Side.Start info.deriv_ t_local)
          (GetDerivativeOf p dxdt Side.End info.deriv_ t_local) poly_id info.id_ v side)) := by
  unfold GetJacobianSide jacobianSideValue
  by_cases hnode : GetNodeId poly_id side = info.id_
  · simp only [hnode, if_true, hp, Option.some_bind, Jacobian.coeffAdd, hd, hc, and_self,
      Jacobian.mapEntry]
    cases side <;> rfl
  · simp only [hnode, if_false]
    rw [Jacobian.mapEntry_id]

theorem GetJacobianSides_entry {α : Type} [Add α] (s : NodeValues α)
    (GetDerivativeOf : PolyType α → Nat → Side → Nat → α → α) (poly_id : Nat) (t_local : α)
    (dxdt : Nat) (p : PolyType α) (hp : s.cubic_polys_[poly_id]? = some p) (idx : Nat)
    (info : NodeInfo) (jac : Jacobian α) (hd : info.dim_ < jac.rows) (hc : idx < jac.cols) :
    [Side.Start, Side.End].foldlM
        (GetJacobianSide s GetDerivativeOf poly_id t_local dxdt idx info) jac =
      some (jac.mapEntry info.dim_ idx
        (fun v => jacobianNodeValue (GetDerivativeOf p dxdt Side.Start info.deriv_ t_local)
          (GetDerivativeOf p dxdt Side.End info.deriv_ t_local) poly_id v info.id_)) := by
  simp only [List.foldlM_cons, List.foldlM_nil]
  rw [GetJacobianSide_entry s GetDerivativeOf poly_id t_local dxdt p hp idx info jac hd hc]
  simp only [Option.bind_eq_bind, Option.some_bind]
  rw [GetJacobianSide_entry s GetDerivativeOf poly_id t_local dxdt p hp idx info]
  · simp only [Option.some_bind, Option.pure_def, Jacobian.mapEntry_mapEntry, jacobianNodeValue]
  · exact hd
  · exact hc

theorem GetJacobianInfos_entry {α : Type} [Add α] (s : NodeValues α)
    (GetDerivativeOf : PolyType α → Nat → Side → Nat → α → α) (poly_id : Nat) (t_local : α)
    (dxdt : Nat) (p : PolyType α) (hp : s.cubic_polys_[poly_id]? = some p) (idx d D : Nat) :
    ∀ (ids : List Nat) (jac : Jacobian α), d < jac.rows → idx < jac.cols →
      (ids.map fun node_id => NodeInfo.mk node_id D d).foldlM (fun j info =>
        [Side.Start, Side.End].foldlM
          (GetJacobianSide s GetDerivativeOf poly_id t_local dxdt idx info) j) jac =
      some (jac.mapEntry d idx (fun v =>
        ids.foldl (jacobianNodeValue (GetDerivativeOf p dxdt Side.Start D t_local)
          (GetDerivativeOf p dxdt Side.End D t_local) poly_id) v)) := by
  intro ids
  induction ids with
  | nil =>
    intro jac _ _
    simp only [List.map_nil, List.foldlM_nil, List.foldl_nil, Option.pure_def]
    rw [Jacobian.mapEntry_id]
  | cons a ids ih =>
    intro jac hd hc
    simp only [List.map_cons, List.foldl_cons]
    rw [List.foldlM_cons,
      GetJacobianSides_entry s GetDerivativeOf poly_id t_local dxdt p hp idx
        (NodeInfo.mk a D d) jac hd hc]
    simp only [Option.bind_eq_bind, Option.some_bind]
    rw [ih]
    · rw [Jacobian.mapEntry_mapEntry]
    · exact hd
    · exact hc

theorem jacobianNodeValue_foldl {α : Type} [Add α] (dStart dEnd : α) (poly_id : Nat) :
    ∀ (ids : List Nat) (v : α), ids.Pairwise (fun a b => a < b) →
      ids.foldl (jacobianNodeValue dStart dEnd poly_id) v =
        if poly_id + 1 ∈ ids then (if poly_id ∈ ids then v + dStart else v) + dEnd
        else (if poly_id ∈ ids then v + dStart else v) := by
  intro ids
  induction ids with
  | nil => intro v _; simp
  | cons a ids ih =>
    intro v hpw
    rw [List.pairwise_cons] at hpw
    obtain ⟨hlt, hpw'⟩ := hpw
    rw [List.foldl_cons, ih _ hpw']
    by_cases h1 : a = poly_id
    · subst h1
      have hn1 : a ∉ ids := fun h => absurd (hlt a h) (Nat.lt_irrefl a)
      have hv : jacobianNodeValue dStart dEnd a v a = v + dStart := by
        simp [jacobianNodeValue, jacobianSideValue, GetNodeId, Side.toNat]
      simp [hv, hn1]
    · by_cases h2 : a = poly_id + 1
      · subst h2
        have hn1 : poly_id ∉ ids := fun h => by have := hlt _ h; omega
        have hn2 : poly_id + 1 ∉ ids := fun h => absurd (hlt _ h) (Nat.lt_irrefl _)
        have hv : jacobianNodeValue dStart dEnd poly_id v (poly_id + 1) = v + dEnd := by
          simp [jacobianNodeValue, jacobianSideValue, GetNodeId, Side.toNat]
        simp [hv, hn1, hn2]
      · have hv : jacobianNodeValue dStart dEnd poly_id v a = v := by
          have e1 : ¬ poly_id = a := fun e => h1 e.symm
          have e2 : ¬ poly_id + 1 = a := fun e => h2 e.symm
          simp [jacobianNodeValue, jacobianSideValue, GetNodeId, Side.toNat, e1, e2]
        have e1 : ¬ poly_id = a := fun e => h1 e.symm
        have e2 : ¬ poly_id + 1 = a := fun e => h2 e.symm
        simp [hv, e1, e2]

theorem blockNodes_pairwise (infos : List PolyInfo) (p b : Nat) :
    (blockNodes infos p b).Pairwise (fun a b => a < b) :=
  List.Pairwise.filter _ (List.pairwise_lt_range p)


theorem jacobianEntry_eq_foldl {α : Type} [Zero α] [Add α] (dStart dEnd : α) (poly_id : Nat)
    (ids : List Nat) (h : ids.Pairwise (fun a b => a < b)) :
    ids.foldl (jacobianNodeValue dStart dEnd poly_id) 0 = jacobianEntry dStart dEnd poly_id ids := by
  rw [jacobianNodeValue_foldl dStart dEnd poly_id ids 0 h]
  unfold jacobianEntry
  simp only [GetNodeId_Start, GetNodeId_End]

theorem GetJacobianAt_entry {α : Type} [Add α] {s : NodeValues α} (hl : Layout s)
    (GetDerivativeOf : PolyType α → Nat → Side → Nat → α → α) (poly_id : Nat) (t_local : α)
    (dxdt : Nat) (p : PolyType α) (hp : s.cubic_polys_[poly_id]? = some p) {idx : Nat}
    (hidx : idx < s.rows_) (jac : Jacobian α) (hrows : jac.rows = s.n_dim_)
    (hcols : jac.cols = s.rows_) :
    GetJacobianAt s GetDerivativeOf poly_id t_local dxdt jac idx =
      some (jac.mapEntry (decodeDim s.n_dim_ idx) idx (fun v =>
        (blockNodes s.polynomial_info_ (s.polynomial_info_.length + 1)
          (decodeBlock s.n_dim_ idx)).foldl
          (jacobianNodeValue
            (GetDerivativeOf p dxdt Side.Start (decodeDeriv s.n_dim_ idx) t_local)
            (GetDerivativeOf p dxdt Side.End (decodeDeriv s.n_dim_ idx) t_local) poly_id) v)) := by
  unfold GetJacobianAt
  rw [GetNodeInfo_spec hl hidx]
  simp only [Option.some_bind]
  apply GetJacobianInfos_entry s GetDerivativeOf poly_id t_local dxdt p hp
  · rw [hrows]
    exact decodeDim_lt (hl.n_dim_pos hidx)
  · rw [hcols]
    exact hidx

theorem GetJacobian_loop {α : Type} [Zero α] [Add α] {s : NodeValues α} (hl : Layout s)
    (GetDerivativeOf : PolyType α → Nat → Side → Nat → α → α) (poly_id : Nat) (t_local : α)
    (dxdt : Nat) (p : PolyType α) (hp : s.cubic_polys_[poly_id]? = some p) :
    ∀ k, k ≤ s.rows_ → ∃ jac,
      (List.range k).foldlM (GetJacobianAt s GetDerivativeOf poly_id t_local dxdt)
        (Jacobian.Zero s.n_dim_ s.rows_) = some jac ∧
      jac.rows = s.n_dim_ ∧ jac.cols = s.rows_ ∧
      ∀ r c, jac.coeff r c =
        if c < k ∧ r = decodeDim s.n_dim_ c then
          jacobianEntry (GetDerivativeOf p dxdt Side.Start (decodeDeriv s.n_dim_ c) t_local)
            (GetDerivativeOf p dxdt Side.End (decodeDeriv s.n_dim_ c) t_local) poly_id
            (blockNodes s.polynomial_info_ (s.polynomial_info_.length + 1)
              (decodeBlock s.n_dim_ c))
        else 0 := by
  intro k
  induction k with
  | zero =>
    intro _
    refine ⟨Jacobian.Zero s.n_dim_ s.rows_, by simp, rfl, rfl, ?_⟩
    intro r c
    simp [Jacobian.Zero]
  | succ k ih =>
    intro hk
    obtain ⟨jac, hfold, hrows, hcols, hcoeff⟩ := ih (by omega)
    have hklt : k < s.rows_ := by omega
    refine ⟨jac.mapEntry (decodeDim s.n_dim_ k) k (fun v =>
        (blockNodes s.polynomial_info_ (s.polynomial_info_.length + 1)
          (decodeBlock s.n_dim_ k)).foldl
          (jacobianNodeValue
            (GetDerivativeOf p dxdt Side.Start (decodeDeriv s.n_dim_ k) t_local)
            (GetDerivativeOf p dxdt Side.End (decodeDeriv s.n_dim_ k) t_local) poly_id) v),
      ?_, ?_, ?_, ?_⟩
    · rw [List.range_succ, List.foldlM_append, hfold]
      simp only [List.foldlM_cons, List.foldlM_nil, Option.pure_def, Option.bind_eq_bind,
        Option.some_bind]
      rw [GetJacobianAt_entry hl GetDerivativeOf poly_id t_local dxdt p hp hklt jac hrows hcols]
      rfl
    · exact hrows
    · exact hcols
    · intro r c
      simp only [Jacobian.mapEntry]
      by_cases hrc : r = decodeDim s.n_dim_ k ∧ c = k
      · obtain ⟨hr, hc⟩ := hrc
        subst hc
        subst hr
        have h0 : jac.coeff (decodeDim s.n_dim_ c) c = 0 := by
          rw [hcoeff]
          simp
        simp only [and_self, if_true, h0, Nat.lt_succ_self, true_and]
        exact jacobianEntry_eq_foldl _ _ _ _ (blockNodes_pairwise _ _ _)
      · rw [if_neg hrc, hcoeff]
        have hiff : (c < k ∧ r = decodeDim s.n_dim_ c) ↔
            (c < k + 1 ∧ r = decodeDim s.n_dim_ c) := by
          constructor
          · rintro ⟨h1, h2⟩
            exact ⟨by omega, h2⟩
          · rintro ⟨h1, h2⟩
            refine ⟨?_, h2⟩
            by_contra hge
            have hck : c = k := by omega
            subst hck
            exact hrc ⟨h2, rfl⟩
        by_cases hcase : c < k ∧ r = decodeDim s.n_dim_ c
        · rw [if_pos hcase, if_pos (hiff.mp hcase)]
        · rw [if_neg hcase, if_neg (fun h => hcase (hiff.mpr h))]

/-- Claim C19. For an initialized `NodeValues`, a segment id `poly_id` and a
column `idx` below `GetRows()`, the entry of `GetJacobian(poly_id, t_local, dxdt)`
at the row of the dimension of `idx` is the accumulated sum, from zero, of the
evaluator's `GetDerivativeOf(dxdt, Start, kind of idx, t_local)` when the start
node is in the block of `idx`, then of `GetDerivativeOf(dxdt, End, ...)` when the
end node is in it: both terms for a constant segment whose start node is in the
block, one term for a segment that is not constant. -/
theorem GetJacobian_entry {α : Type} [Zero α] [Add α] [Div α] [IntCast α]
    (node : Node α) (infos : List PolyInfo) (s0 s : NodeValues α)
    (GetDerivativeOf : PolyType α → Nat → Side → Nat → α → α) (poly_id : Nat) (t_local : α)
    (dxdt : Nat) (h0 : Init node infos = some s0) (hr : Reachable s0 s)
    (hpoly : poly_id < s.polynomial_info_.length) :
    ∃ jac p info, GetJacobian s GetDerivativeOf poly_id t_local dxdt = some jac ∧
      s.cubic_polys_[poly_id]? = some p ∧ s.polynomial_info_[poly_id]? = some info ∧
      ∀ idx, idx < GetRows s →
        ∃ ids, mapAt s.opt_to_spline_ (idx / (2 * s.n_dim_)) = some ids ∧
          jac.coeff (decodeDim s.n_dim_ idx) idx =
            jacobianEntry
              (GetDerivativeOf p dxdt Side.Start (decodeDeriv s.n_dim_ idx) t_local)
              (GetDerivativeOf p dxdt Side.End (decodeDeriv s.n_dim_ idx) t_local)
              poly_id ids ∧
          (info.is_constant_ = true → GetNodeId poly_id Side.Start ∈ ids →
            jac.coeff (decodeDim s.n_dim_ idx) idx =
              (0 + GetDerivativeOf p dxdt Side.Start (decodeDeriv s.n_dim_ idx) t_local)
                + GetDerivativeOf p dxdt Side.End (decodeDeriv s.n_dim_ idx) t_local) ∧
          (info.is_constant_ = false → GetNodeId poly_id Side.Start ∈ ids →
            jac.coeff (decodeDim s.n_dim_ idx) idx =
              0 + GetDerivativeOf p dxdt Side.Start (decodeDeriv s.n_dim_ idx) t_local) ∧
          (info.is_constant_ = false → GetNodeId poly_id Side.End ∈ ids →
            jac.coeff (decodeDim s.n_dim_ idx) idx =
              0 + GetDerivativeOf p dxdt Side.End (decodeDeriv s.n_dim_ idx) t_local) := by
  obtain ⟨hl, _⟩ := Reachable_layout h0 hr
  have hplt : poly_id < s.cubic_polys_.length := by rw [hl.polys_len]; exact hpoly
  have hp : s.cubic_polys_[poly_id]? = some s.cubic_polys_[poly_id] :=
    List.getElem?_eq_getElem hplt
  have hinfo : s.polynomial_info_[poly_id]? = some s.polynomial_info_[poly_id] :=
    List.getElem?_eq_getElem hpoly
  obtain ⟨jac, hjac, _, _, hcoeff⟩ :=
    GetJacobian_loop hl GetDerivativeOf poly_id t_local dxdt _ hp s.rows_ (le_refl _)
  refine ⟨jac, _, _, hjac, hp, hinfo, ?_⟩
  intro idx hidx
  have hidx' : idx < s.rows_ := hidx
  have hb : idx / (2 * s.n_dim_) ≤ blockOf s.polynomial_info_ s.polynomial_info_.length :=
    hl.block_le hidx'
  have hsucc := blockOf_succ s.polynomial_info_ poly_id _ hinfo
  have hentry := hcoeff (decodeDim s.n_dim_ idx) idx
  rw [if_pos ⟨hidx', rfl⟩] at hentry
  refine ⟨_, ?_, hentry, ?_, ?_, ?_⟩
  · rw [hl.opt, (SetNodeMappings_spec _).2, if_pos hb]
    rfl
  · intro hconst hstart
    rw [hentry]
    rw [hconst] at hsucc
    simp only [if_true, Nat.add_zero] at hsucc
    rw [GetNodeId_Start] at hstart
    have hend : poly_id + 1 ∈ blockNodes s.polynomial_info_ (s.polynomial_info_.length + 1)
        (decodeBlock s.n_dim_ idx) := by
      rw [mem_blockNodes] at hstart ⊢
      exact ⟨by omega, by rw [hsucc]; exact hstart.2⟩
    simp [jacobianEntry, GetNodeId_Start, GetNodeId_End, hstart, hend]
  · intro hconst hstart
    rw [hentry]
    rw [hconst] at hsucc
    simp only [Bool.false_eq_true, if_false] at hsucc
    rw [GetNodeId_Start] at hstart
    have hend : poly_id + 1 ∉ blockNodes s.polynomial_info_ (s.polynomial_info_.length + 1)
        (decodeBlock s.n_dim_ idx) := by
      intro hmem
      rw [mem_blockNodes] at hstart hmem
      omega
    simp [jacobianEntry, GetNodeId_Start, GetNodeId_End, hstart, hend]
  · intro hconst hend
    rw [hentry]
    rw [hconst] at hsucc
    simp only [Bool.false_eq_true, if_false] at hsucc
    rw [GetNodeId_End] at hend
    have hstart : poly_id ∉ blockNodes s.polynomial_info_ (s.polynomial_info_.length + 1)
        (decodeBlock s.n_dim_ idx) := by
      intro hmem
      rw [mem_blockNodes] at hend hmem
      omega
    simp [jacobianEntry, GetNodeId_Start, GetNodeId_End, hstart, hend]


/-! ## Block sizes for an alternating schedule -/

theorem phaseSegments_not_constant {c : Bool} {n : Int} {i : Nat} {flag : Bool}
    (hf : ¬ flag = c) {x : PolyInfo} (hx : x ∈ phaseSegments c n i flag) :
    x.is_constant_ = false := by
  unfold phaseSegments at hx
  rw [if_neg hf] at hx
  simp only [List.mem_map, List.mem_range] at hx
  obtain ⟨j, _, rfl⟩ := hx
  rfl

theorem phaseSegments_chain (c : Bool) (n : Int) (i : Nat) (flag : Bool) :
    (phaseSegments c n i flag).Chain' notBothConstant := by
  by_cases hf : flag = c
  · unfold phaseSegments
    rw [if_pos hf]
    exact List.chain'_singleton _
  · apply List.Pairwise.chain'
    apply List.pairwise_of_forall_mem_list
    intro a ha b _ hboth
    have := phaseSegments_not_constant hf ha
    rw [this] at hboth
    exact absurd hboth.1 (by simp)

theorem scheduleSegments_head (c : Bool) (n : Int) (hn : 1 ≤ n) (flag : Bool) (rest : List Bool)
    (i : Nat) (hf : ¬ flag = c) {y : PolyInfo}
    (hy : y ∈ (scheduleSegments c n (flag :: rest) i).head?) : y.is_constant_ = false := by
  have hpos : 0 < n.toNat := by omega
  have hne : phaseSegments c n i flag ≠ [] := by
    unfold phaseSegments
    rw [if_neg hf]
    intro h
    have := congrArg List.length h
    simp at this
    omega
  simp only [scheduleSegments, List.head?_append] at hy
  obtain ⟨a, t, hat⟩ := List.exists_cons_of_ne_nil hne
  rw [hat] at hy
  simp only [List.head?_cons, Option.or_some, Option.mem_def, Option.some.injEq] at hy
  subst hy
  exact phaseSegments_not_constant hf (by rw [hat]; simp)

theorem scheduleSegments_chain (c : Bool) (n : Int) (hn : 1 ≤ n) :
    ∀ (sched : List Bool) (i : Nat), sched.Chain' (fun a b => a ≠ b) →
      (scheduleSegments c n sched i).Chain' notBothConstant := by
  intro sched
  induction sched with
  | nil => intro i _; simp [scheduleSegments]
  | cons flag rest ih =>
    intro i halt
    rw [List.chain'_cons'] at halt
    obtain ⟨hhead, htail⟩ := halt
    simp only [scheduleSegments]
    rw [List.chain'_append]
    refine ⟨phaseSegments_chain c n i flag, ih (i + 1) htail, ?_⟩
    intro x hx y hy hboth
    by_cases hf : flag = c
    · cases rest with
      | nil => simp [scheduleSegments] at hy
      | cons flag' rest' =>
        have hne : flag ≠ flag' := hhead flag' (by simp)
        have hf' : ¬ flag' = c := fun e => hne (hf.trans e.symm)
        have := scheduleSegments_head c n hn flag' rest' (i + 1) hf' hy
        rw [this] at hboth
        exact absurd hboth.2 (by simp)
    · have := phaseSegments_not_constant hf (List.mem_of_mem_getLast? hx)
      rw [this] at hboth
      exact absurd hboth.1 (by simp)

theorem chain_getElem {β : Type} {R : β → β → Prop} :
    ∀ (l : List β), l.Chain' R → ∀ k x y, l[k]? = some x → l[k + 1]? = some y → R x y := by
  intro l
  induction l with
  | nil => intro _ k x y hx _; simp at hx
  | cons a t ih =>
    intro hch k x y hx hy
    rw [List.chain'_cons'] at hch
    obtain ⟨hhead, htail⟩ := hch
    cases k with
    | zero =>
      simp only [List.getElem?_cons_zero, Option.some.injEq] at hx
      subst hx
      simp only [Nat.zero_add, List.getElem?_cons_succ] at hy
      exact hhead y (by rw [List.head?_eq_getElem?]; exact hy)
    | succ k =>
      simp only [List.getElem?_cons_succ] at hx hy
      exact ih htail k x y hx hy

theorem blockNodes_length_le_two (infos : List PolyInfo)
    (hch : infos.Chain' notBothConstant) (b : Nat) :
    (blockNodes infos (infos.length + 1) b).length ≤ 2 := by
  by_contra hlen
  have hpw := blockNodes_pairwise infos (infos.length + 1) b
  match hl : blockNodes infos (infos.length + 1) b, hpw with
  | [], _ => rw [hl] at hlen; simp at hlen
  | [_], _ => rw [hl] at hlen; simp at hlen
  | [_, _], _ => rw [hl] at hlen; simp at hlen
  | x :: y :: z :: t, hpw =>
    simp only [List.pairwise_cons, List.mem_cons] at hpw
    have hxy : x < y := hpw.1 y (Or.inl rfl)
    have hyz : y < z := hpw.2.1 z (Or.inl rfl)
    have hx : x ∈ blockNodes infos (infos.length + 1) b := by rw [hl]; simp
    have hz : z ∈ blockNodes infos (infos.length + 1) b := by rw [hl]; simp
    obtain ⟨_, hbx⟩ := (mem_blockNodes _ _ _ _).mp hx
    obtain ⟨hzlt, hbz⟩ := (mem_blockNodes _ _ _ _).mp hz
    have h1 := blockOf_mono_succ infos x
    have h2 := blockOf_mono_succ infos (x + 1)
    have h3 : blockOf infos (x + 1 + 1) ≤ blockOf infos z := blockOf_mono infos (by omega)
    have hlt0 : x < infos.length := by omega
    have hlt1 : x + 1 < infos.length := by omega
    have hg0 : infos[x]? = some infos[x] := List.getElem?_eq_getElem hlt0
    have hg1 : infos[x + 1]? = some infos[x + 1] := List.getElem?_eq_getElem hlt1
    have hs0 := blockOf_succ infos x _ hg0
    have hs1 := blockOf_succ infos (x + 1) _ hg1
    have hc0 : infos[x].is_constant_ = true := by
      cases hb : infos[x].is_constant_ with
      | true => rfl
      | false =>
        rw [hb] at hs0
        simp only [Bool.false_eq_true, if_false] at hs0
        omega
    have hc1 : infos[x + 1].is_constant_ = true := by
      cases hb : infos[x + 1].is_constant_ with
      | true => rfl
      | false =>
        rw [hb] at hs1
        simp only [Bool.false_eq_true, if_false] at hs1
        omega
    exact chain_getElem infos hch x _ _ hg0 hg1 ⟨hc0, hc1⟩

/-- Claim C20. For a `PhaseNodes` built from a schedule whose consecutive
phases have different contact flags, with at least one segment per changing
phase, every block of `opt_to_spline_` holds one or two node ids; so for every
index below `GetRows()` the test `GetNodeInfo(idx).size() == 2` holds exactly
when the index maps to more than one node. -/
theorem PhaseNodes_block_sizes {α : Type} [Zero α] [Div α] [IntCast α]
    (node : Node α) (schedule : List Bool) (c : Bool) (n : Int) (s0 s : NodeValues α)
    (h0 : PhaseNodes node schedule c n = some s0) (hr : Reachable s0 s)
    (halt : schedule.Chain' (fun a b => a ≠ b)) (hn : 1 ≤ n) :
    (∀ b ids, mapAt s.opt_to_spline_ b = some ids → ids.length = 1 ∨ ids.length = 2) ∧
    (∀ idx, idx < GetRows s → ∃ infos, GetNodeInfo s idx = some infos ∧
      (infos.length = 1 ∨ infos.length = 2) ∧ (infos.length = 2 ↔ 1 < infos.length)) := by
  unfold PhaseNodes at h0
  obtain ⟨hl, _, hp, _⟩ := Reachable_layout h0 hr
  have hch : s.polynomial_info_.Chain' notBothConstant := by
    rw [hp, PhaseNodesInfos_eq]
    exact scheduleSegments_chain c n hn schedule 0 halt
  have hsize : ∀ b, b ≤ blockOf s.polynomial_info_ s.polynomial_info_.length →
      (blockNodes s.polynomial_info_ (s.polynomial_info_.length + 1) b).length = 1 ∨
      (blockNodes s.polynomial_info_ (s.polynomial_info_.length + 1) b).length = 2 := by
    intro b hb
    have h1 := blockNodes_length_le_two s.polynomial_info_ hch b
    have h2 : 0 < (blockNodes s.polynomial_info_ (s.polynomial_info_.length + 1) b).length :=
      List.length_pos.mpr (blockNodes_ne_nil _ hb)
    omega
  refine ⟨?_, ?_⟩
  · intro b ids hids
    rw [hl.opt] at hids
    obtain ⟨hb, rfl⟩ := mapAt_SetNodeMappings_some hids
    exact hsize b hb
  · intro idx hidx
    have hidx' : idx < s.rows_ := hidx
    refine ⟨_, GetNodeInfo_spec hl hidx', ?_, ?_⟩
    · rw [List.length_map]
      exact hsize _ (hl.block_le hidx')
    · rw [List.length_map]
      have := hsize _ (hl.block_le hidx')
      omega

/-- The block sizes for the schedule `[stance, swing, stance]` with two segments per swing. -/
theorem PhaseNodes_block_sizes_witness :
    ∃ s0 : NodeValues Int,
      PhaseNodes ([[0, 0, 0], [0, 0, 0]] : Node Int) [true, false, true] true 2 = some s0 ∧
      [true, false, true].Chain' (fun a b => a ≠ b) ∧ (1 : Int) ≤ 2 ∧
      (∀ b ids, mapAt s0.opt_to_spline_ b = some ids → ids.length = 1 ∨ ids.length = 2) ∧
      (∀ idx, idx < GetRows s0 → ∃ infos, GetNodeInfo s0 idx = some infos ∧
        (infos.length = 1 ∨ infos.length = 2) ∧ (infos.length = 2 ↔ 1 < infos.length)) :=
  ⟨_, rfl, by simp, by decide,
    PhaseNodes_block_sizes ([[0, 0, 0], [0, 0, 0]] : Node Int) [true, false, true] true 2 _ _
      rfl Reachable.init (by simp) (by decide)⟩

/-- The entries of the Jacobian of the constant segment 0 of the example state. -/
theorem GetJacobian_entry_witness :
    Init exampleNode exampleInfos = some exampleState ∧
    0 < exampleState.polynomial_info_.length ∧
    ∃ jac p info, GetJacobian exampleState (fun _ _ _ _ _ => 1) 0 0 0 = some jac ∧
      exampleState.cubic_polys_[0]? = some p ∧ exampleState.polynomial_info_[0]? = some info ∧
      ∀ idx, idx < GetRows exampleState →
        ∃ ids, mapAt exampleState.opt_to_spline_ (idx / (2 * exampleState.n_dim_)) = some ids ∧
          jac.coeff (decodeDim exampleState.n_dim_ idx) idx =
            jacobianEntry ((fun _ _ _ _ _ => 1 : PolyType Int → Nat → Side → Nat → Int → Int)
                p 0 Side.Start (decodeDeriv exampleState.n_dim_ idx) 0)
              ((fun _ _ _ _ _ => 1 : PolyType Int → Nat → Side → Nat → Int → Int)
                p 0 Side.End (decodeDeriv exampleState.n_dim_ idx) 0)
              0 ids ∧
          (info.is_constant_ = true → GetNodeId 0 Side.Start ∈ ids →
            jac.coeff (decodeDim exampleState.n_dim_ idx) idx =
              (0 + (fun _ _ _ _ _ => 1 : PolyType Int → Nat → Side → Nat → Int → Int)
                  p 0 Side.Start (decodeDeriv exampleState.n_dim_ idx) 0)
                + (fun _ _ _ _ _ => 1 : PolyType Int → Nat → Side → Nat → Int → Int)
                  p 0 Side.End (decodeDeriv exampleState.n_dim_ idx) 0) ∧
          (info.is_constant_ = false → GetNodeId 0 Side.Start ∈ ids →
            jac.coeff (decodeDim exampleState.n_dim_ idx) idx =
              0 + (fun _ _ _ _ _ => 1 : PolyType Int → Nat → Side → Nat → Int → Int)
                p 0 Side.Start (decodeDeriv exampleState.n_dim_ idx) 0) ∧
          (info.is_constant_ = false → GetNodeId 0 Side.End ∈ ids →
            jac.coeff (decodeDim exampleState.n_dim_ idx) idx =
              0 + (fun _ _ _ _ _ => 1 : PolyType Int → Nat → Side → Nat → Int → Int)
                p 0 Side.End (decodeDeriv exampleState.n_dim_ idx) 0) :=
  ⟨by rfl, by decide, GetJacobian_entry exampleNode exampleInfos exampleState exampleState
    (fun _ _ _ _ _ => 1) 0 0 0 (by rfl) Reachable.init (by decide)⟩

/-- The object `Init` returns on an empty list of segments and a node of dimension one. -/
theorem Init_empty_witness :
    ([[1], [2]] : Node Int)[kPos]? = some [1] ∧
    Init ([[1], [2]] : Node Int) [] =
      some { n_dim_ := ([1] : List Int).length, polynomial_info_ := [], times_ := [],
             nodes_ := [[[1], [2]]], cubic_polys_ := [], opt_to_spline_ := [(0, [0])],
             rows_ := 2 * ([1] : List Int).length } :=
  ⟨by rfl, ((Init_empty Int ([[1], [2]] : Node Int)).1 [1] (by rfl)).1⟩

/-- The metadata of a schedule `[contact, swing]` with two splines per swing phase. -/
theorem PhaseNodes_segments_witness :
    ∃ s : NodeValues Int,
      PhaseNodes ([[1], [2]] : Node Int) [true, false] true 2 = some s ∧
      s.polynomial_info_ = PhaseNodesInfos [true, false] true 2 ∧
      PhaseNodesInfos [true, false] true 2 =
        [PolyInfo.mk 0 0 1 true, PolyInfo.mk 1 0 2 false, PolyInfo.mk 1 1 2 false] :=
  ⟨_, rfl, (PhaseNodes_segments Int ([[1], [2]] : Node Int) [true, false] true 2).2.1 _ rfl,
    by decide⟩


/-! ## Bounds of `EEMotionNodes`: the vertical axis, amended -/

/-- Claim C11, amended. For every `EEMotionNodes` and every index below
`GetRows()`: when `GetNodeInfo(idx)` has exactly two entries and the dimension
is the vertical axis, `GetBounds()[idx]` is the equality bound `[0, 0]`, whatever
the derivative kind; when it has exactly one entry (a swing node) the index is
left at `kNoBound_`, the vertical axis included; every index that is neither of
the vertical dimension nor a velocity entry mapped to more than one node is left
at `kNoBound_`. When consecutive phases of the schedule differ and there is at
least one spline per swing phase, every index of the vertical dimension that
maps to more than one node has the equality bound. -/
theorem EEMotionGetBounds_vertical_and_rest {α : Type} [Zero α] [Div α] [IntCast α]
    (node : Node α) (schedule : List Bool) (splines_per_swing_phase : Int)
    (s0 s : NodeValues α)
    (h0 : EEMotionNodes node schedule splines_per_swing_phase = some s0)
    (hr : Reachable s0 s) :
    ∃ bounds, EEMotionGetBounds s = some bounds ∧ bounds.length = GetRows s ∧
      ∀ idx infos, idx < GetRows s → GetNodeInfo s idx = some infos →
        ((infos.length = 2 ∧ ∃ info ∈ infos, info.dim_ = Z) →
          bounds[idx]? = some kEqualityBound_) ∧
        (infos.length = 1 → bounds[idx]? = some kNoBound_) ∧
        ((∀ info ∈ infos, info.dim_ ≠ Z) →
          ¬ (1 < infos.length ∧ ∃ info ∈ infos, info.deriv_ = kVel) →
          bounds[idx]? = some kNoBound_) ∧
        (schedule.Chain' (fun a b => a ≠ b) → 1 ≤ splines_per_swing_phase →
          (1 < infos.length ∧ ∃ info ∈ infos, info.dim_ = Z) →
          bounds[idx]? = some kEqualityBound_) := by
  unfold EEMotionNodes PhaseNodes at h0
  obtain ⟨hl, _, hp, _⟩ := Reachable_layout h0 hr
  refine ⟨_, EEMotionGetBounds_spec hl, by simp [GetRows], ?_⟩
  intro idx infos hidx hinfos
  have hidx' : idx < s.rows_ := hidx
  have hget : (GetNodeInfo s idx).getD [] = infos := by rw [hinfos]; rfl
  have hmemd : ∀ info ∈ infos, info.deriv_ = decodeDeriv s.n_dim_ idx ∧
      info.dim_ = decodeDim s.n_dim_ idx := by
    intro info hinfo
    obtain ⟨_, _, hde, hdi⟩ := (mem_GetNodeInfo hl hidx' info).mp (by rw [hget]; exact hinfo)
    exact ⟨hde, hdi⟩
  have hne : infos ≠ [] := by
    rw [← hget]
    exact GetNodeInfo_ne_nil hl hidx'
  obtain ⟨info0, hinfo0⟩ := List.exists_mem_of_ne_nil infos hne
  rw [List.getElem?_map, List.getElem?_range hidx']
  simp only [Option.map_some', Option.some.injEq]
  unfold EEMotionBound
  rw [hget]
  have htwo : (infos.length = 2 ∧ ∃ info ∈ infos, info.dim_ = Z) →
      (if infos.length = 2 ∧
          (decodeDeriv s.n_dim_ idx = kVel ∨ decodeDim s.n_dim_ idx = Z) then kEqualityBound_
        else kNoBound_) = kEqualityBound_ := by
    rintro ⟨hlen, info, hinfo, hz⟩
    rw [if_pos]
    exact ⟨hlen, Or.inr (by rw [← (hmemd info hinfo).2]; exact hz)⟩
  refine ⟨htwo, ?_, ?_, ?_⟩
  · intro hlen
    rw [if_neg]
    rintro ⟨h2, _⟩
    omega
  · intro hnz hnv
    rw [if_neg]
    rintro ⟨hlen, hcase⟩
    rcases hcase with h | h
    · exact hnv ⟨by omega, info0, hinfo0, by rw [(hmemd info0 hinfo0).1]; exact h⟩
    · exact hnz info0 hinfo0 (by rw [(hmemd info0 hinfo0).2]; exact h)
  · intro halt hn hcase
    obtain ⟨hlen, hz⟩ := hcase
    apply htwo
    refine ⟨?_, hz⟩
    have hch : s.polynomial_info_.Chain' notBothConstant := by
      rw [hp, PhaseNodesInfos_eq]
      exact scheduleSegments_chain true splines_per_swing_phase hn schedule 0 halt
    have hle := blockNodes_length_le_two s.polynomial_info_ hch (decodeBlock s.n_dim_ idx)
    have hspec := GetNodeInfo_spec hl hidx'
    rw [hinfos] at hspec
    simp only [Option.some.injEq] at hspec
    have hlen' : infos.length =
        (blockNodes s.polynomial_info_ (s.polynomial_info_.length + 1)
          (decodeBlock s.n_dim_ idx)).length := by
      rw [hspec, List.length_map]
    omega

/-- The bounds of an end-effector motion with a stance and a swing phase of two splines. -/
theorem EEMotionGetBounds_vertical_and_rest_witness :
    ∃ s0 : NodeValues Int,
      EEMotionNodes ([[0, 0, 0], [0, 0, 0]] : Node Int) [true, false] 2 = some s0 ∧
      ∃ bounds, EEMotionGetBounds s0 = some bounds ∧ bounds.length = GetRows s0 ∧
        ∀ idx infos, idx < GetRows s0 → GetNodeInfo s0 idx = some infos →
          ((infos.length = 2 ∧ ∃ info ∈ infos, info.dim_ = Z) →
            bounds[idx]? = some kEqualityBound_) ∧
          (infos.length = 1 → bounds[idx]? = some kNoBound_) ∧
          ((∀ info ∈ infos, info.dim_ ≠ Z) →
            ¬ (1 < infos.length ∧ ∃ info ∈ infos, info.deriv_ = kVel) →
            bounds[idx]? = some kNoBound_) ∧
          ([true, false].Chain' (fun a b => a ≠ b) → (1 : Int) ≤ 2 →
            (1 < infos.length ∧ ∃ info ∈ infos, info.dim_ = Z) →
            bounds[idx]? = some kEqualityBound_) :=
  ⟨_, rfl, EEMotionGetBounds_vertical_and_rest ([[0, 0, 0], [0, 0, 0]] : Node Int)
    [true, false] 2 _ _ rfl Reachable.init⟩


end xpp.opt
